import Mathlib

/-! # fixfiles: dependency-closure builder

A shallow embedding of the Go program `fixfiles` (files `filetypes.go`,
`resolver.go`, `processor.go`, `formatter.go`, `main.go`) together with
theorems about it.

Modelling conventions.

* Go `string`s are Lean `String`s; the character-level work is done on
  `List Char` so that every definition is structurally recursive.
* The operating system is a value `World`: `os.Stat`, `ioutil.ReadFile` and
  `os.Getwd` are total functions of the path string, and the filesystem does
  not change during a run.
* Ranging over the Go map `supportedExtensions` visits its keys in an order
  the language leaves unspecified and that may differ from one `range`
  statement to the next.  The world supplies one order per executed `range`
  statement (`World.rangeOrder`), indexed by a counter that is threaded
  through every function containing such a loop.
* The package-level map `processedFiles` and the `results` map become the
  explicit `State` passed through `ProcessFile`.
* The recursion of `ProcessFile` is driven by a fuel argument; a result
  `none` stands for a run that did not return within that recursion depth.
* Diagnostics written to standard error are not modelled.
-/

namespace Fixfiles

/-! ## Path library (`strings`, `path/filepath` on Unix) -/

/-- `strings.HasPrefix`. -/
def HasPrefix (s pre : String) : Bool := pre.data.isPrefixOf s.data

/-- Remove `pre` from the front of `s` when it is there. -/
def stripPrefixChars : List Char → List Char → Option (List Char)
  | [], s => some s
  | _ :: _, [] => none
  | p :: ps, c :: cs => if p = c then stripPrefixChars ps cs else none

/-- `strings.TrimPrefix`. -/
def TrimPrefix (s pre : String) : String :=
  match stripPrefixChars pre.data s.data with
  | some rest => ⟨rest⟩
  | none => s

/-- `strings.Contains(s, "/")`. -/
def ContainsSlash (s : String) : Bool := s.data.contains '/'

/-- `strings.Split(s, "/")` on characters. -/
def splitSlash : List Char → List (List Char)
  | [] => [[]]
  | c :: cs =>
    if c = '/' then [] :: splitSlash cs
    else match splitSlash cs with
      | [] => [[c]]
      | seg :: rest => (c :: seg) :: rest

/-- `strings.Join(elems, "/")` on characters. -/
def joinSlash : List (List Char) → List Char
  | [] => []
  | [seg] => seg
  | seg :: rest => seg ++ '/' :: joinSlash rest

/-- One path element processed by `filepath.Clean`; `stack` holds the
elements kept so far, innermost first.  Empty elements and `.` are dropped,
`..` removes the previous element when there is one to remove, is dropped at
the root of a rooted path, and is kept otherwise. -/
def cleanStep (rooted : Bool) (stack : List (List Char)) (seg : List Char) :
    List (List Char) :=
  if seg = [] ∨ seg = ['.'] then stack
  else if seg = ['.', '.'] then
    match stack with
    | top :: rest => if top = ['.', '.'] then seg :: stack else rest
    | [] => if rooted then [] else [seg]
  else seg :: stack

/-- `filepath.Clean` on characters. -/
def cleanChars (s : List Char) : List Char :=
  if s = [] then ['.']
  else
    let rooted : Bool := s.head? = some '/'
    let stack := (splitSlash s).foldl (cleanStep rooted) []
    if rooted then '/' :: joinSlash stack.reverse
    else if stack = [] then ['.']
    else joinSlash stack.reverse

/-- `filepath.Clean`. -/
def Clean (p : String) : String := ⟨cleanChars p.data⟩

/-- Scan of `filepath.Ext` from the end of the path: `acc` is the suffix
already passed. -/
def extScan : List Char → List Char → List Char
  | [], _ => []
  | c :: r, acc =>
    if c = '/' then []
    else if c = '.' then c :: acc
    else extScan r (c :: acc)

/-- `filepath.Ext`: the suffix starting at the last dot of the last path
element, or the empty string. -/
def Ext (p : String) : String := ⟨extScan p.data.reverse []⟩

/-- `filepath.IsAbs`. -/
def IsAbs (p : String) : Bool := p.data.head? = some '/'

/-- `filepath.Dir`: everything up to and including the last separator,
cleaned. -/
def Dir (p : String) : String :=
  ⟨cleanChars (p.data.reverse.dropWhile (fun c => c ≠ '/')).reverse⟩

/-- `filepath.Join`: leading empty elements are skipped, the rest is joined
with separators and cleaned; the empty string when every element is empty. -/
def Join : List String → String
  | [] => ""
  | e :: rest =>
    if e = "" then Join rest
    else ⟨cleanChars (joinSlash ((e :: rest).map String.data))⟩

/-- `filepath.Abs` on Unix: an absolute path is cleaned, a relative one is
joined to the working directory, and the call fails when the working
directory cannot be determined. -/
def absPath (getwd : Option String) (p : String) : Option String :=
  if IsAbs p then some (Clean p)
  else match getwd with
    | none => none
    | some wd => some (Join [wd, p])

/-! ## Regular expressions (`regexp`)

The patterns of `filetypes.go` use literals, character classes, the
quantifiers `+ * +? *?` on single-character classes and one capture group.
`Regexp` covers exactly that fragment, matched by backtracking in the
priority order of Go's leftmost-first semantics. -/

/-- Set of characters matched by one pattern atom. -/
inductive CharClass where
  /-- `.`: every character but the newline. -/
  | any
  /-- `\s`. -/
  | space
  /-- `\S`. -/
  | nonSpace
  /-- `[...]`: the listed characters, and the whitespace when `ws`. -/
  | oneOf (cs : List Char) (ws : Bool)
  /-- `[^...]`. -/
  | noneOf (cs : List Char)
  deriving DecidableEq, Repr

/-- Whitespace as understood by `\s`: tab, newline, form feed, carriage
return, space. -/
def isSpace (c : Char) : Bool :=
  c = '\t' || c = '\n' || c = '\x0c' || c = '\r' || c = ' '

/-- Membership of a character in a class. -/
def CharClass.mem : CharClass → Char → Bool
  | .any, c => c != '\n'
  | .space, c => isSpace c
  | .nonSpace, c => !isSpace c
  | .oneOf cs ws, c => cs.contains c || (ws && isSpace c)
  | .noneOf cs, c => !cs.contains c

/-- Quantifier of a pattern atom. -/
inductive Quant where
  | one
  | star
  | plus
  | lazyStar
  | lazyPlus
  deriving DecidableEq, Repr

/-- One element of a pattern: a quantified character class, or a boundary of
the capture group. -/
inductive Node where
  | cls (k : CharClass) (q : Quant)
  | groupOpen
  | groupClose
  deriving DecidableEq, Repr

/-- Compiled pattern (`*regexp.Regexp`). -/
abbrev Regexp := List Node

/-- Literal text inside a pattern. -/
def lit (s : String) : Regexp := s.data.map (fun c => Node.cls (.oneOf [c] false) .one)

/-- Progress of one match attempt: whether the capture group is open, the
captured characters (last first) and the number of characters consumed. -/
structure MState where
  inGroup : Bool
  cap : List Char
  consumed : Nat
  deriving DecidableEq, Repr

/-- Consume one character. -/
def MState.take (m : MState) (c : Char) : MState :=
  { m with cap := if m.inGroup then c :: m.cap else m.cap, consumed := m.consumed + 1 }

/-- Repetition of a class followed by the continuation `k`: a greedy
repetition first tries to take one more character, a lazy one first tries
the continuation. -/
def matchRep (k : List Char → MState → Option MState) (cls : CharClass) (greedy : Bool) :
    List Char → MState → Option MState
  | [], m => k [] m
  | c :: s, m =>
    if greedy then
      match (if cls.mem c then matchRep k cls greedy s (m.take c) else none) with
      | some r => some r
      | none => k (c :: s) m
    else
      match k (c :: s) m with
      | some r => some r
      | none => if cls.mem c then matchRep k cls greedy s (m.take c) else none

/-- Match a pattern at the start of the input. -/
def matchNodes : Regexp → List Char → MState → Option MState
  | [], _, m => some m
  | .groupOpen :: r, s, m => matchNodes r s { m with inGroup := true }
  | .groupClose :: r, s, m => matchNodes r s { m with inGroup := false }
  | .cls k .one :: r, s, m =>
    match s with
    | c :: s' => if k.mem c then matchNodes r s' (m.take c) else none
    | [] => none
  | .cls k .star :: r, s, m => matchRep (fun s' m' => matchNodes r s' m') k true s m
  | .cls k .lazyStar :: r, s, m => matchRep (fun s' m' => matchNodes r s' m') k false s m
  | .cls k .plus :: r, s, m =>
    match s with
    | c :: s' =>
      if k.mem c then matchRep (fun s'' m' => matchNodes r s'' m') k true s' (m.take c) else none
    | [] => none
  | .cls k .lazyPlus :: r, s, m =>
    match s with
    | c :: s' =>
      if k.mem c then matchRep (fun s'' m' => matchNodes r s'' m') k false s' (m.take c) else none
    | [] => none

/-- Successive non-overlapping matches from the left; `skip` counts the
characters still covered by the previous match.  Each match is the list
`[whole match, capture group 1]`.  (Every pattern of the table consumes at
least one character, so empty matches do not arise.) -/
def findAllFrom (re : Regexp) : List Char → Nat → List (List String)
  | [], _ => []
  | _ :: s, skip + 1 => findAllFrom re s skip
  | c :: s, 0 =>
    match matchNodes re (c :: s) ⟨false, [], 0⟩ with
    | some m =>
      [String.mk ((c :: s).take m.consumed), String.mk m.cap.reverse]
        :: findAllFrom re s (m.consumed - 1)
    | none => findAllFrom re s 0

/-- `(*Regexp).FindAllSubmatch(content, -1)`. -/
def FindAllSubmatch (re : Regexp) (content : String) : List (List String) :=
  findAllFrom re content.data 0

/-! ## `filetypes.go` -/

/-- Keys of the map `supportedExtensions`. -/
def supportedExtensions : List String :=
  [".go", ".js", ".jsx", ".ts", ".tsx", ".py", ".html", ".css", ".json", ".vue", ".scss",
   ".sass", ".less", ".mjs", ".cjs", ".rs", ".rb", ".php", ".java", ".swift", ".kt"]

/-- `\s+`. -/
def ws1 : Node := .cls .space .plus

/-- `\s*`. -/
def ws0 : Node := .cls .space .star

/-- `.*?`. -/
def anyLazy : Node := .cls .any .lazyStar

/-- `['"]`. -/
def quote : Node := .cls (.oneOf ['\'', '"'] false) .one

/-- `(.+?)`. -/
def capLazy : Regexp := [.groupOpen, .cls .any .lazyPlus, .groupClose]

/-- `(\S+)`. -/
def capWord : Regexp := [.groupOpen, .cls .nonSpace .plus, .groupClose]

/-- `([^;]+)`. -/
def capStmt : Regexp := [.groupOpen, .cls (.noneOf [';']) .plus, .groupClose]

/-- `['"](.+?)['"]`. -/
def quoted : Regexp := [quote] ++ capLazy ++ [quote]

/-- `import\s+.*?\s+from\s+['"](.+?)['"]`. -/
def reImportFrom : Regexp := lit "import" ++ [ws1, anyLazy, ws1] ++ lit "from" ++ [ws1] ++ quoted

/-- `import\s+['"](.+?)['"]`. -/
def reImportBare : Regexp := lit "import" ++ [ws1] ++ quoted

/-- `require\(['"](.+?)['"]\)`. -/
def reRequire : Regexp := lit "require(" ++ quoted ++ lit ")"

/-- `import\(.*?['"](.+?)['"].*?\)`. -/
def reImportCall : Regexp := lit "import(" ++ [anyLazy] ++ quoted ++ [anyLazy] ++ lit ")"

/-- `import\s+type\s+.*?\s+from\s+['"](.+?)['"]`. -/
def reImportType : Regexp :=
  lit "import" ++ [ws1] ++ lit "type" ++ [ws1, anyLazy, ws1] ++ lit "from" ++ [ws1] ++ quoted

/-- `<script\s+src=['"](.+?)['"]\s*>`. -/
def reScriptSrc : Regexp := lit "<script" ++ [ws1] ++ lit "src=" ++ quoted ++ [ws0] ++ lit ">"

/-- `@import\s+['"](.+?)['"]`. -/
def reCssImport : Regexp := lit "@import" ++ [ws1] ++ quoted

/-- `@import\s+url\(['"](.+?)['"]\)`. -/
def reCssImportUrl : Regexp := lit "@import" ++ [ws1] ++ lit "url(" ++ quoted ++ lit ")"

/-- `[_once]*`. -/
def onceStar : Node := .cls (.oneOf ['_', 'o', 'n', 'c', 'e'] false) .star

/-- The composite literal of `importPatterns`, before `init` runs. -/
def importPatternsLiteral : List (String × List Regexp) :=
  [ (".js", [reImportFrom, reImportBare, reRequire, reImportCall]),
    (".jsx", [reImportFrom, reImportBare, reRequire]),
    (".ts", [reImportFrom, reImportBare, reImportType, reRequire]),
    (".tsx", [reImportFrom, reImportBare, reImportType, reRequire]),
    (".py",
      [ -- `from\s+(\S+)\s+import\s+`
        lit "from" ++ [ws1] ++ capWord ++ [ws1] ++ lit "import" ++ [ws1],
        -- `import\s+(\S+)`
        lit "import" ++ [ws1] ++ capWord,
        -- `import\s+(\S+)\s+as\s+`
        lit "import" ++ [ws1] ++ capWord ++ [ws1] ++ lit "as" ++ [ws1] ]),
    (".go",
      [ -- `import\s+[(\s]+"(.+?)"`
        lit "import" ++ [ws1, .cls (.oneOf ['('] true) .plus] ++ lit "\"" ++ capLazy ++ lit "\"",
        -- `import\s+(\S+)\s+".+?"`
        lit "import" ++ [ws1] ++ capWord ++ [ws1] ++ lit "\"" ++ [.cls .any .lazyPlus]
          ++ lit "\"" ]),
    (".html",
      [ reScriptSrc,
        -- `<link\s+.*?href=['"](.+?)['"]\s*>`
        lit "<link" ++ [ws1, anyLazy] ++ lit "href=" ++ quoted ++ [ws0] ++ lit ">",
        -- `<img\s+.*?src=['"](.+?)['"]\s*>`
        lit "<img" ++ [ws1, anyLazy] ++ lit "src=" ++ quoted ++ [ws0] ++ lit ">" ]),
    (".css", [reCssImport, reCssImportUrl]),
    (".scss",
      [ reCssImport, reCssImportUrl,
        -- `@use\s+['"](.+?)['"]`
        lit "@use" ++ [ws1] ++ quoted ]),
    (".vue", [reImportFrom, reImportBare, reRequire, reScriptSrc]),
    (".php",
      [ -- `require[_once]*\s*\(['"](.+?)['"]\)`
        lit "require" ++ [onceStar, ws0] ++ lit "(" ++ quoted ++ lit ")",
        -- `include[_once]*\s*\(['"](.+?)['"]\)`
        lit "include" ++ [onceStar, ws0] ++ lit "(" ++ quoted ++ lit ")",
        -- `use\s+([^;]+)`
        lit "use" ++ [ws1] ++ capStmt ]),
    (".rb",
      [ -- `require\s+['"](.+?)['"]`
        lit "require" ++ [ws1] ++ quoted,
        -- `require_relative\s+['"](.+?)['"]`
        lit "require_relative" ++ [ws1] ++ quoted,
        -- `load\s+['"](.+?)['"]`
        lit "load" ++ [ws1] ++ quoted ]),
    (".java", [lit "import" ++ [ws1] ++ capStmt]),
    (".kt", [lit "import" ++ [ws1] ++ capStmt]) ]

/-- Map lookup `m[key]` with the comma-ok result. -/
def mapGet {β : Type} (m : List (String × β)) (key : String) : Option β :=
  match m with
  | [] => none
  | (k, v) :: rest => if k = key then some v else mapGet rest key

/-- Map assignment `m[key] = v`. -/
def mapSet {β : Type} (m : List (String × β)) (key : String) (v : β) : List (String × β) :=
  match m with
  | [] => [(key, v)]
  | (k, v') :: rest => if k = key then (k, v) :: rest else (k, v') :: mapSet rest key v

/-- The function `init` of `filetypes.go`: `.mjs` and `.cjs` take the
pattern list of `.js`, `.less` and `.sass` that of `.css`, and the formats
without imports get the empty list. -/
def initPatterns (m : List (String × List Regexp)) : List (String × List Regexp) :=
  let m := [".mjs", ".cjs"].foldl (fun m ext => mapSet m ext ((mapGet m ".js").getD [])) m
  let m := [".less", ".sass"].foldl (fun m ext => mapSet m ext ((mapGet m ".css").getD [])) m
  [".json", ".svg", ".png", ".jpg", ".jpeg", ".gif"].foldl (fun m ext => mapSet m ext []) m

/-- The map `importPatterns` as the program sees it, after `init`. -/
def importPatterns : List (String × List Regexp) := initPatterns importPatternsLiteral

/-! ## The operating system -/

/-- What the program uses of an `os.FileInfo`. -/
structure FileInfo where
  isDir : Bool
  deriving DecidableEq, Repr

/-- The environment of a run. -/
structure World where
  /-- `os.Stat`; `none` when it returns an error. -/
  stat : String → Option FileInfo
  /-- `ioutil.ReadFile`; `none` when it returns an error. -/
  readFile : String → Option String
  /-- `os.Getwd`; `none` when it returns an error. -/
  getwd : Option String
  /-- Order in which the `n`-th executed `range supportedExtensions` visits
  the keys. -/
  rangeOrder : Nat → List String

/-- Every `range` over `supportedExtensions` visits each key exactly once. -/
def World.Fair (w : World) : Prop := ∀ n, (w.rangeOrder n).Perm supportedExtensions

/-- Errors the program returns. -/
inductive GoError where
  /-- `fmt.Errorf("file not found: %s", path)`. -/
  | fileNotFound (path : String)
  /-- `fmt.Errorf("unsupported file extension: %s", ext)`. -/
  | unsupportedExtension (ext : String)
  /-- Error passed on from `os.Stat`. -/
  | statFailed (path : String)
  /-- Error passed on from `ioutil.ReadFile`. -/
  | readFailed (path : String)
  /-- Error passed on from `os.Getwd` through `filepath.Abs`. -/
  | getwdFailed
  deriving DecidableEq, Repr

/-- Loop `for ext := range ... { testPath := base + ext; if os.Stat(testPath)
succeeds { ... testPath ... break/return } }`: the first candidate that
exists, in the order of the iteration. -/
def probeExt (w : World) (base : String) : List String → Option String
  | [] => none
  | ext :: rest =>
    if (w.stat (base ++ ext)).isSome then some (base ++ ext) else probeExt w base rest

/-- Loop probing `filepath.Join(dir, "index"+ext)` for each `ext` of the
iteration. -/
def probeIndex (w : World) (dir : String) : List String → Option String
  | [] => none
  | ext :: rest =>
    if (w.stat (Join [dir, "index" ++ ext])).isSome then some (Join [dir, "index" ++ ext])
    else probeIndex w dir rest

/-! ## `resolver.go` -/

/-- The function `resolveImportByType`; `t` counts the `range` statements
executed so far and is returned advanced. -/
def resolveImportByType (w : World) (importPath currentDir projectRoot : String) (t : Nat) :
    Except GoError String × Nat :=
  if HasPrefix importPath "." then
    match absPath w.getwd (Join [currentDir, importPath]) with
    | none => (.error .getwdFailed, t)
    | some abs => (.ok abs, t)
  else if HasPrefix importPath "/" then
    (.ok (Join [projectRoot, importPath]), t)
  else if HasPrefix importPath "~" then
    (.ok (Join [projectRoot, TrimPrefix importPath "~"]), t)
  else if HasPrefix importPath "@" then
    let srcPath := Join [projectRoot, "src", TrimPrefix importPath "@/"]
    if (w.stat srcPath).isSome then (.ok srcPath, t)
    else
      match probeExt w srcPath (w.rangeOrder t) with
      | some testPath => (.ok testPath, t + 1)
      | none => (.ok (Join [projectRoot, TrimPrefix importPath "@/"]), t + 1)
  else
    let possiblePaths :=
      [ Join [projectRoot, "node_modules", importPath],
        Join [projectRoot, "vendor", importPath],
        Join [projectRoot, "lib", importPath] ]
    match possiblePaths.find? (fun path => (w.stat path).isSome) with
    | some path => (.ok path, t)
    | none => (.ok importPath, t)

/-- The index-file loop of `ResolveImportPath` over `jsExtensions`. -/
def probeJsIndex (w : World) (resolvedPath : String) : List String → Option String
  | [] => none
  | ext :: rest =>
    if ext ∈ supportedExtensions then
      if (w.stat (Join [resolvedPath, "index" ++ ext])).isSome then
        some (Join [resolvedPath, "index" ++ ext])
      else probeJsIndex w resolvedPath rest
    else probeJsIndex w resolvedPath rest

/-- The function `ResolveImportPath`. -/
def ResolveImportPath (w : World) (importPath currentDir projectRoot : String) (t : Nat) :
    Except GoError String × Nat :=
  match resolveImportByType w importPath currentDir projectRoot t with
  | (.error err, t) => (.error err, t)
  | (.ok resolvedPath, t) =>
    if Ext resolvedPath ≠ "" then
      if (w.stat resolvedPath).isSome then (.ok resolvedPath, t)
      else (.ok resolvedPath, t)
    else
      match probeExt w resolvedPath (w.rangeOrder t) with
      | some testPath => (.ok testPath, t + 1)
      | none =>
        let jsExtensions := [".js", ".jsx", ".ts", ".tsx"]
        match probeJsIndex w resolvedPath jsExtensions with
        | some indexFile => (.ok indexFile, t + 1)
        | none => (.ok resolvedPath, t + 1)

/-- Marker names of `FindProjectRoot`. -/
def indicators : List String :=
  ["go.mod", "package.json", ".git", "requirements.txt", "setup.py", "docker-compose.yml",
   "Makefile"]

/-- The upward loop of `FindProjectRoot`, at most `fuel` directory levels:
the first directory holding a marker, the directory of `startPath` when the
walk reaches a directory that is its own parent, `none` when the fuel is
used up. -/
def findRootLoop (w : World) (startPath : String) : Nat → String → Option String
  | 0, _ => none
  | fuel + 1, dir =>
    if indicators.any (fun indicator => (w.stat (Join [dir, indicator])).isSome) then some dir
    else
      let parentDir := Dir dir
      if parentDir = dir then some (Dir startPath)
      else findRootLoop w startPath fuel parentDir

/-- The function `FindProjectRoot`; its error result is always `nil` and is
left out. -/
def FindProjectRoot (w : World) (fuel : Nat) (startPath : String) : Option String :=
  findRootLoop w startPath fuel startPath

/-! ## `processor.go` -/

/-- The function `isBuiltinModule`. -/
def isBuiltinModule (importPath fileExt : String) : Bool :=
  if (fileExt = ".js" || fileExt = ".jsx" || fileExt = ".ts" || fileExt = ".tsx") &&
      ["react", "react-dom", "next", "axios", "lodash"].any
        (fun builtin => importPath = builtin || HasPrefix importPath (builtin ++ "/")) then
    true
  else if fileExt = ".py" &&
      ["os", "sys", "re", "math", "json", "datetime", "collections"].any
        (fun builtin => importPath = builtin || HasPrefix importPath (builtin ++ ".")) then
    true
  else if fileExt = ".go" &&
      ["fmt", "os", "io", "net", "http", "strings", "time"].any
        (fun builtin => importPath = builtin || HasPrefix importPath (builtin ++ "/")) then
    true
  else false

/-- Body of the inner loop of `ExtractImports` for one match: resolve the
captured string, skip it when resolution fails, append the resolved path when
the string passes the prefix test. -/
def extractMatch (w : World) (fileExt fileDir projectRoot : String)
    (acc : List String × Nat) («match» : List String) : List String × Nat :=
  if «match».length ≥ 2 then
    let importPath := «match».getD 1 ""
    match ResolveImportPath w importPath fileDir projectRoot acc.2 with
    | (.error _, t) => (acc.1, t)
    | (.ok resolvedPath, t) =>
      if HasPrefix importPath "." || HasPrefix importPath "/" || HasPrefix importPath "@" ||
          HasPrefix importPath "~" ||
          (!ContainsSlash importPath && !isBuiltinModule importPath fileExt) then
        (acc.1 ++ [resolvedPath], t)
      else (acc.1, t)
  else acc

/-- The function `ExtractImports`. -/
def ExtractImports (w : World) (filePath projectRoot : String) (t : Nat) :
    Except GoError (List String) × Nat :=
  let fileExt := Ext filePath
  match mapGet importPatterns fileExt with
  | none => (.error (.unsupportedExtension fileExt), t)
  | some patterns =>
    match w.readFile filePath with
    | none => (.error (.readFailed filePath), t)
    | some content =>
      let fileDir := Dir filePath
      let r := patterns.foldl
        (fun acc pattern =>
          (FindAllSubmatch pattern content).foldl (extractMatch w fileExt fileDir projectRoot) acc)
        ([], t)
      (.ok r.1, r.2)

/-- The maps `processedFiles` and `results`, and the number of `range`
statements over `supportedExtensions` executed so far. -/
structure State where
  processedFiles : List String
  results : List (String × String)
  tick : Nat
  deriving DecidableEq, Repr

/-- Set insertion `processedFiles[path] = struct{}{}`. -/
def markProcessed (ps : List String) (path : String) : List String :=
  if path ∈ ps then ps else ps ++ [path]

/-- Lines 22-60 of `ProcessFile`: stat the path and, when that fails, look
for it with an extension appended or as a directory with an index file.
Returns the path settled on and its file info, or the error returned. -/
def locateFile (w : World) (filePath : String) (t : Nat) :
    Except GoError (String × FileInfo) × Nat :=
  match w.stat filePath with
  | some info => (.ok (filePath, info), t)
  | none =>
    let found : Option String × Nat :=
      if Ext filePath = "" then (probeExt w filePath (w.rangeOrder t), t + 1) else (none, t)
    let found : Option String × Nat :=
      match found with
      | (some testPath, t) => (some testPath, t)
      | (none, t) =>
        match w.stat filePath with
        | some dirInfo =>
          if dirInfo.isDir then (probeIndex w filePath (w.rangeOrder t), t + 1) else (none, t)
        | none => (none, t)
    match found with
    | (none, t) => (.error (.fileNotFound filePath), t)
    | (some filePath, t) =>
      match w.stat filePath with
      | none => (.error (.statFailed filePath), t)
      | some info => (.ok (filePath, info), t)

/-- The loop `for _, importPath := range imports` of `ProcessFile`, with the
recursive call passed as `process`; an error of one call is only logged. -/
def processImports (process : String → State → Option (Option GoError × State)) :
    List String → State → Option State
  | [], st => some st
  | importPath :: rest, st =>
    match process importPath st with
    | none => none
    | some (_, st') => processImports process rest st'

/-- The function `ProcessFile`.  The result is the returned error (`none`
for `nil`) and the state left behind; `none` when `fuel` nested calls were
not enough. -/
def ProcessFile (w : World) : Nat → String → String → State → Option (Option GoError × State)
  | 0, _, _, _ => none
  | fuel + 1, filePath, projectRoot, st =>
    let filePath := Clean filePath
    if filePath ∈ st.processedFiles then some (none, st)
    else
      match locateFile w filePath st.tick with
      | (.error err, t) => some (some err, { st with tick := t })
      | (.ok (filePath, info), t) =>
        if info.isDir then some (none, { st with tick := t })
        else if Ext filePath ∉ supportedExtensions then some (none, { st with tick := t })
        else
          let processed := markProcessed st.processedFiles filePath
          match w.readFile filePath with
          | none => some (some (.readFailed filePath), ⟨processed, st.results, t⟩)
          | some content =>
            let results := mapSet st.results filePath content
            let (imports, t) :=
              match ExtractImports w filePath projectRoot t with
              | (.ok imports, t) => (imports, t)
              | (.error _, t) => ([], t)
            match processImports (fun importPath s => ProcessFile w fuel importPath projectRoot s)
                imports ⟨processed, results, t⟩ with
            | none => none
            | some st' => some (none, st')

/-! ## `main.go` -/

/-- The function `main` from the parsed arguments on: the exit code and the
`results` map handed to `PrintResults` (when the run gets that far); `none`
when `fuel` is not enough. -/
def main (w : World) (fuel : Nat) (args : List String) :
    Option (Nat × Option (List (String × String))) :=
  match args with
  | [] => some (1, none)
  | filePath :: _ =>
    match absPath w.getwd filePath with
    | none => some (1, none)
    | some absPath =>
      match FindProjectRoot w fuel absPath with
      | none => none
      | some projectRoot =>
        match ProcessFile w fuel absPath projectRoot ⟨[], [], 0⟩ with
        | none => none
        | some (some _, _) => some (1, none)
        | some (none, st) => some (0, some st.results)

/-! ## Auxiliary definitions for the theorems -/

/-- The imports `ProcessFile` goes on to process in a file: the list
`ExtractImports` returns, empty when it fails. -/
def importsOf (w : World) (filePath projectRoot : String) (t : Nat) : List String × Nat :=
  match ExtractImports w filePath projectRoot t with
  | (.ok imports, t) => (imports, t)
  | (.error _, t) => ([], t)

/-- Keys of a map. -/
def keys {β : Type} (m : List (String × β)) : List String := m.map Prod.fst

/-- What holds of `processedFiles` and `results` throughout a run: no key
occurs twice; every key of `results` is in `processedFiles`; every processed
path is a regular file with a supported extension; a processed path is a key
of `results`, mapped to its content, exactly when it can be read. -/
structure Inv (w : World) (st : State) : Prop where
  keys_nodup : (keys st.results).Nodup
  processed_nodup : st.processedFiles.Nodup
  keys_processed : ∀ k, k ∈ keys st.results → k ∈ st.processedFiles
  processed_file : ∀ k, k ∈ st.processedFiles →
    w.stat k = some ⟨false⟩ ∧ Ext k ∈ supportedExtensions
  processed_read : ∀ k, k ∈ st.processedFiles → ∀ c, w.readFile k = some c →
    mapGet st.results k = some c
  results_content : ∀ k c, mapGet st.results k = some c → w.readFile k = some c

/-! ## Auxiliary definitions: the shape of cleaned paths -/

/-- Output of `filepath.Clean` for the kept elements `comps`, outermost
first. -/
def render (rooted : Bool) (comps : List (List Char)) : List Char :=
  if rooted then '/' :: joinSlash comps
  else if comps = [] then ['.']
  else joinSlash comps

/-- A path element that `filepath.Clean` keeps: not empty, without
separator, and not `.`. -/
def Seg (c : List Char) : Prop := c ≠ [] ∧ '/' ∉ c ∧ c ≠ ['.']

/-- Shape of the element stack of `filepath.Clean` (innermost first): kept
elements only, and `..` occurs only in unrooted paths, below every other
element. -/
def stackOK (rooted : Bool) : List (List Char) → Prop
  | [] => True
  | c :: rest =>
    Seg c ∧ (c = ['.', '.'] → rooted = false ∧ ∀ c' ∈ rest, c' = ['.', '.']) ∧ stackOK rooted rest

/-- A supported extension is a dot followed by characters other than the
dot and the separator. -/
def dotExt (e : String) : Bool :=
  match e.data with
  | '.' :: c :: cs => !(c :: cs).contains '/' && !(c :: cs).contains '.'
  | _ => false

/-- The list `files` holds every file a run with project root `root` goes on
to from a file of the list: whatever the iteration orders, an import of a
listed file whose cleaned path is a regular file with a supported extension
is listed as well.  When the files that imports lead to from a file are
finitely many, their paths form such a list; the condition speaks of the
files a run reaches, not of the strings that name them. -/
def World.ClosedBy (w : World) (root : String) (files : List String) : Prop :=
  ∀ q, q ∈ files → ∀ t r, r ∈ (importsOf w q root t).1 →
    w.stat (Clean r) = some ⟨false⟩ → Ext (Clean r) ∈ supportedExtensions → Clean r ∈ files

/-- A path for which the extension completion of `ProcessFile` finds
nothing: when the cleaned path is missing and has no extension, it is missing
with every supported extension appended as well. -/
def Stable (w : World) (r : String) : Prop :=
  w.stat (Clean r) = none → Ext (Clean r) = "" →
    ∀ ext, ext ∈ supportedExtensions → w.stat (Clean r ++ ext) = none

/-- Number of files of the listing not yet in `processedFiles`. -/
def pending (files : List String) (st : State) : Nat :=
  (files.dedup.filter (fun f => decide (f ∉ st.processedFiles))).length

/-- The test of `ExtractImports` that lets a captured string through. -/
def isLocalImport (importPath fileExt : String) : Bool :=
  HasPrefix importPath "." || HasPrefix importPath "/" || HasPrefix importPath "@" ||
    HasPrefix importPath "~" ||
    (!ContainsSlash importPath && !isBuiltinModule importPath fileExt)

/-! ## Concrete worlds -/

/-- Node of a listed filesystem. -/
inductive FsEntry where
  | dir
  | file (content : String)
  | unreadable
  deriving DecidableEq, Repr

/-- What `os.Stat` reports for a node. -/
def FsEntry.info : FsEntry → FileInfo
  | .dir => ⟨true⟩
  | .file _ => ⟨false⟩
  | .unreadable => ⟨false⟩

/-- What `ioutil.ReadFile` returns for a node. -/
def FsEntry.content : FsEntry → Option String
  | .file c => some c
  | _ => none

/-- The world of a listed filesystem: a path names the node listed under
exactly that string, the working directory is `cwd`, and every `range` over
`supportedExtensions` follows the order of `order`. -/
def listedWorld (fs : List (String × FsEntry)) (cwd : String) (order : Nat → List String) :
    World where
  stat p := (mapGet fs p).map FsEntry.info
  readFile p := (mapGet fs p).bind FsEntry.content
  getwd := some cwd
  rangeOrder := order

/-- States a run can be in: the empty state, and every state left behind by
a call of `ProcessFile` made in such a state. -/
inductive Reachable (w : World) : State → Prop where
  | init (t : Nat) : Reachable w ⟨[], [], t⟩
  | step {st st' : State} {fuel : Nat} {p root : String} {e : Option GoError} :
      Reachable w st → ProcessFile w fuel p root st = some (e, st') → Reachable w st'

/-- A project with one unreadable source file. -/
def fsUnreadable : List (String × FsEntry) :=
  [("/p", .dir), ("/p/a.js", .unreadable)]

/-- A project with a source file, a directory and an image. -/
def fsSkips : List (String × FsEntry) :=
  [("/p", .dir), ("/p/a.js", .file "import './lib'\n"), ("/p/lib", .dir),
   ("/p/logo.png", .file "PNG")]

/-- The raw import strings captured in a file's content: for each pattern of
the extension, in table order, the first capture group of every match. -/
def capturedStrings (fileExt content : String) : List String :=
  match mapGet importPatterns fileExt with
  | none => []
  | some patterns =>
    patterns.flatMap (fun re => (FindAllSubmatch re content).map (fun m => m.getD 1 ""))

/-- The directory and the single file of `TestExtractImports`. -/
def fsExtractTest : List (String × FsEntry) :=
  [("/tmp", .dir), ("/tmp/x", .dir),
   ("/tmp/x/test.js", .file
      "\nimport React from 'react';\nimport { useState } from 'react';\nimport './styles.css';\nimport AuthContext from '../context/AuthContext';\nimport { getData } from '@/lib/api/data';\nconst utils = require('./utils');\n")]

deriving instance DecidableEq for Except

/-- The world of `TestExtractImports`. -/
def worldExtractTest : World := listedWorld fsExtractTest "/tmp/x" (fun _ => supportedExtensions)

/-- The local imports of the file `x` resolve to the file `y`, whatever the
iteration orders: every extraction from `x` succeeds and returns a path
whose cleaned form is `y`. -/
def ImportsResolveTo (w : World) (root x y : String) : Prop :=
  ∀ t, ∃ imports t', ExtractImports w x root t = (.ok imports, t') ∧
    ∃ r, r ∈ imports ∧ Clean r = y

/-- Two source files importing each other. -/
def fsCycle : List (String × FsEntry) :=
  [("/p", .dir), ("/p/a.js", .file "import { b } from './b'\n"),
   ("/p/b.js", .file "import { a } from './a'\n")]

/-- The world of `fsCycle`. -/
def worldCycle : World := listedWorld fsCycle "/p" (fun _ => supportedExtensions)

/-- A source file importing a missing file, then a file that can not be
read, then a readable one. -/
def fsLocked : List (String × FsEntry) :=
  [("/p", .dir),
   ("/p/a.js", .file "import './gone'\nimport './locked'\nimport './ok'\n"),
   ("/p/locked.js", .unreadable), ("/p/ok.js", .file "export {}\n")]

/-- The world of `fsLocked`. -/
def worldLocked : World := listedWorld fsLocked "/p" (fun _ => supportedExtensions)

/-- The files of `TestProcessFile`. -/
def fsProcessTest : List (String × FsEntry) :=
  [("/t", .dir), ("/t/src", .dir), ("/t/src/components", .dir), ("/t/src/context", .dir),
   ("/t/src/lib", .dir), ("/t/src/lib/api", .dir),
   ("/t/src/components/Component.tsx", .file
      "\nimport React from 'react';\nimport { useAuth } from '../context/Auth';\nimport { getData } from '../lib/api/data';\n"),
   ("/t/src/context/Auth.tsx", .file
      "\nimport React, { createContext } from 'react';\nexport const useAuth = () => {};\n"),
   ("/t/src/lib/api/data.ts", .file "\nexport const getData = () => {};\n")]

/-- The world of `TestProcessFile`. -/
def worldProcessTest : World := listedWorld fsProcessTest "/t" (fun _ => supportedExtensions)

/-- An import string with one of the four path prefixes `.`, `/`, `~`, `@`. -/
def hasPathPrefix (s : String) : Bool :=
  HasPrefix s "." || HasPrefix s "/" || HasPrefix s "~" || HasPrefix s "@"

/-- The world of a listed filesystem in which a relative path names the node
at that path below the working directory: `p` is looked up at its absolute
form. -/
def cwdWorld (fs : List (String × FsEntry)) (cwd : String) (order : Nat → List String) :
    World where
  stat p := (mapGet fs (if IsAbs p then Clean p else Join [cwd, p])).map FsEntry.info
  readFile p := (mapGet fs (if IsAbs p then Clean p else Join [cwd, p])).bind FsEntry.content
  getwd := some cwd
  rangeOrder := order

/-- A project whose main file imports the same module once by a bare name
and once by a relative path. -/
def fsBare : List (String × FsEntry) :=
  [("/proj", .dir),
   ("/proj/main.js", .file "import a from 'helper'\nimport b from './helper'\n"),
   ("/proj/helper.js", .file "export default 1\n")]

/-- The world of `fsBare`, run from the project directory. -/
def worldBare : World := cwdWorld fsBare "/proj" (fun _ => supportedExtensions)

/-- The files of `fsLocked`, run from the directory `/p`, with paths looked
up however they are spelled. -/
def worldLockedCwd : World := cwdWorld fsLocked "/p" (fun _ => supportedExtensions)

/-- The files of `fsSkips`, run from the directory `/p`, with paths looked
up however they are spelled. -/
def worldSkipsCwd : World := cwdWorld fsSkips "/p" (fun _ => supportedExtensions)

/-- Two source files importing each other, the first naming the second once
by a bare name and once by a relative path. -/
def fsBareCycle : List (String × FsEntry) :=
  [("/proj", .dir),
   ("/proj/a.js", .file "import x from 'b'\nimport y from './b'\n"),
   ("/proj/b.js", .file "import z from './a'\n")]

/-- The world of `fsBareCycle`, run from the project directory. -/
def worldBareCycle : World := cwdWorld fsBareCycle "/proj" (fun _ => supportedExtensions)

/-- A directory in which the missing path `/p/a` has two completions. -/
def fsTwoExt : List (String × FsEntry) :=
  [("/p", .dir), ("/p/a.js", .file "export const a = 1\n"),
   ("/p/a.ts", .file "export const a: number = 1\n")]

/-- Iteration orders that differ from one `range` to the next: the first
follows the order of the literal, every later one meets `.ts` first. -/
def orderTwoExt (n : Nat) : List String :=
  if n = 0 then supportedExtensions else ".ts" :: supportedExtensions.erase ".ts"

/-- The world of `fsTwoExt` under the orders `orderTwoExt`. -/
def worldTwoExt : World := listedWorld fsTwoExt "/p" orderTwoExt

/-! ## `formatter.go` -/

/-- `strings.HasSuffix(content, "\n")`. -/
def endsWithNewline (content : String) : Bool := content.data.getLast? = some '\n'

/-- `strings.Count(content, "\n")`. -/
def countNewlines (content : String) : Nat := content.data.count '\n'

/-- Body of the first loop of `FormatResults`: what is written for one
entry of `results`. -/
def formatEntry (filePath content : String) : String :=
  "\x7b\x7b BEGIN CONTENTS OF " ++ filePath ++ " \x7d\x7d\n" ++ content ++
    (if endsWithNewline content then "" else "\n") ++
    "\x7b\x7b END CONTENTS OF " ++ filePath ++ " \x7d\x7d\n\n"

/-- The second loop of `FormatResults`: the line total.  It is a sum, so it
does not depend on the order in which this second `range` visits the map. -/
def totalLines (results : List (String × String)) : Nat :=
  results.foldl (fun total entry => total + (countNewlines entry.2 + 1)) 0

/-- The function `FormatResults`.  The order of the list `results` stands
for the order in which `range` visits the map. -/
def FormatResults (results : List (String × String)) : String :=
  let builder := results.foldl (fun builder entry => builder ++ formatEntry entry.1 entry.2) ""
  builder ++ "------------------------------\n" ++
    ("Generated " ++ toString (totalLines results) ++ " lines of code from " ++
      toString results.length ++ " files\n")

/-- The map of `TestFormatResults`. -/
def resultsFormatTest : List (String × String) :=
  [("/path/to/file1.js", "console.log('Hello');\n"),
   ("/path/to/file2.js", "function test() \x7b return true; \x7d")]

/-- A project with two candidate completions of `@/lib/api/climate` and a
directory whose name carries a dot next to a file completing it. -/
def fsAlias : List (String × FsEntry) :=
  [("/R/src/lib/api/climate.ts", .file "export const a = 1\n"),
   ("/R/src/lib/api/climate.js", .file "exports.a = 1\n"),
   ("/R/src/lib/api.v2", .dir),
   ("/R/src/lib/api.v2.ts", .file "export const b = 2\n")]

def worldAlias : World := listedWorld fsAlias "/R" (fun _ => supportedExtensions)

/-- A project in which only `/R/src/lib/api/climate.ts` completes the
alias import `@/lib/api/climate`. -/
def fsAliasOne : List (String × FsEntry) :=
  [("/R/src/lib/api/climate.ts", .file "export const a = 1\n"),
   ("/R/src/components/Chart.tsx", .file "import \x7b a \x7d from '@/lib/api/climate'\n")]

def worldAliasOne : World := listedWorld fsAliasOne "/R" (fun _ => supportedExtensions)

/-- A directory holding `styles.module.css`, `user.service.ts` and
`utils.ts`. -/
def fsDotted : List (String × FsEntry) :=
  [("/p/styles.module.css", .file ".a \x7b color: red \x7d\n"),
   ("/p/user.service.ts", .file "export class UserService \x7b\x7d\n"),
   ("/p/utils.ts", .file "export const u = 1\n"),
   ("/p/logo.svg", .file "<svg/>\n")]

def worldDotted : World := listedWorld fsDotted "/p" (fun _ => supportedExtensions)

/-- The inner loop of `FindProjectRoot`: `os.Stat` succeeds for one of the
marker names joined to `dir`. -/
def hasMarker (w : World) (dir : String) : Bool :=
  indicators.any (fun indicator => (w.stat (Join [dir, indicator])).isSome)

/-- The project of `TestFindProjectRoot`: `package.json` in the project
directory, started from its `src/components` subdirectory. -/
def fsRootTest : List (String × FsEntry) :=
  [("/tmp/proj", .dir),
   ("/tmp/proj/src", .dir),
   ("/tmp/proj/src/components", .dir),
   ("/tmp/proj/package.json", .file "\x7b\x7d")]

def worldRootTest : World := listedWorld fsRootTest "/tmp/proj" (fun _ => supportedExtensions)

/-- The same module source under the extensions `.js`, `.mjs` and `.cjs`,
and the same style sheet under `.css`, `.less` and `.sass`. -/
def fsAliased : List (String × FsEntry) :=
  [("/p/a.js", .file "import React from 'react';\nimport \x7b helper \x7d from './helper';\n"),
   ("/p/a.mjs", .file "import React from 'react';\nimport \x7b helper \x7d from './helper';\n"),
   ("/p/a.cjs", .file "import React from 'react';\nimport \x7b helper \x7d from './helper';\n"),
   ("/p/helper.js", .file "export const helper = 1;\n"),
   ("/p/s.css", .file "@import './base.css';\n"),
   ("/p/s.less", .file "@import './base.css';\n"),
   ("/p/s.sass", .file "@import './base.css';\n"),
   ("/p/base.css", .file "body \x7b margin: 0 \x7d\n")]

def worldAliased : World := listedWorld fsAliased "/p" (fun _ => supportedExtensions)

/-- The extensions `init` gives an empty pattern list. -/
def noImports : List String := [".json", ".svg", ".png", ".jpg", ".jpeg", ".gif"]

/-- Files of the kinds the pattern table treats differently: a data file, a
file with an extension the table does not know, and a Rust and a Swift source
file. -/
def fsTable : List (String × FsEntry) :=
  [("/p/data.json", .file "[1, 2]\n"),
   ("/p/logo.svg", .file "<svg/>\n"),
   ("/p/notes.xyz", .file "import './a'\n"),
   ("/p/locked.xyz", .unreadable),
   ("/p/main.rs", .file "use crate::util;\n"),
   ("/p/App.swift", .file "import Foundation\n")]

def worldTable : World := listedWorld fsTable "/p" (fun _ => supportedExtensions)

/-- A project holding the package `pkg` under `vendor` and under `lib`, and
the package `left` under all three dependency directories. -/
def fsVendor : List (String × FsEntry) :=
  [("/R/vendor/pkg", .dir),
   ("/R/lib/pkg", .dir),
   ("/R/node_modules/left", .dir),
   ("/R/vendor/left", .dir),
   ("/R/lib/left", .dir),
   ("/R/lib/only", .dir)]

def worldVendor : World := listedWorld fsVendor "/R" (fun _ => supportedExtensions)

/-- A directory `comp` holding `index.ts` and `index.tsx`. -/
def fsIndex : List (String × FsEntry) :=
  [("/p/comp", .dir),
   ("/p/comp/index.ts", .file "export const c = 1\n"),
   ("/p/comp/index.tsx", .file "export const d = 2\n")]

def worldIndex : World := listedWorld fsIndex "/p" (fun _ => supportedExtensions)

/-! # Theorems -/


theorem ProcessFile_succ (w : World) (fuel : Nat) (p root : String) (st : State) :
    ProcessFile w (fuel + 1) p root st =
      if Clean p ∈ st.processedFiles then some (none, st)
      else
        match locateFile w (Clean p) st.tick with
        | (.error err, t) => some (some err, { st with tick := t })
        | (.ok (q, info), t) =>
          if info.isDir then some (none, { st with tick := t })
          else if Ext q ∉ supportedExtensions then some (none, { st with tick := t })
          else
            match w.readFile q with
            | none => some (some (.readFailed q), ⟨markProcessed st.processedFiles q, st.results, t⟩)
            | some content =>
              match processImports (fun importPath s => ProcessFile w fuel importPath root s)
                  (importsOf w q root t).1
                  ⟨markProcessed st.processedFiles q, mapSet st.results q content,
                    (importsOf w q root t).2⟩ with
              | none => none
              | some st' => some (none, st') := by
  by_cases hmem : Clean p ∈ st.processedFiles
  · simp only [ProcessFile, hmem, if_true]
  · simp only [ProcessFile, importsOf, hmem, if_false]

theorem locateFile_of_stat {w : World} {p : String} {info : FileInfo} (t : Nat)
    (hs : w.stat p = some info) : locateFile w p t = (.ok (p, info), t) := by
  unfold locateFile
  rw [hs]

/-- `locateFile` on a path at which nothing exists: the index-file attempt
can not apply, and only extension completion is left. -/
theorem locateFile_of_missing {w : World} {p : String} (t : Nat) (hs : w.stat p = none) :
    locateFile w p t =
      if Ext p = "" then
        match probeExt w p (w.rangeOrder t) with
        | some q =>
          match w.stat q with
          | none => (.error (.statFailed q), t + 1)
          | some info => (.ok (q, info), t + 1)
        | none => (.error (.fileNotFound p), t + 1)
      else (.error (.fileNotFound p), t) := by
  unfold locateFile
  rw [hs]
  by_cases hext : Ext p = ""
  · simp only [hext, if_true]
    cases probeExt w p (w.rangeOrder t) <;> rfl
  · simp only [hext, if_false]

theorem locateFile_ok {w : World} {p q : String} {info : FileInfo} {t t' : Nat}
    (h : locateFile w p t = (.ok (q, info), t')) : w.stat q = some info := by
  cases hs : w.stat p with
  | some info' =>
    rw [locateFile_of_stat t hs] at h
    simp only [Prod.mk.injEq, Except.ok.injEq] at h
    obtain ⟨⟨rfl, rfl⟩, -⟩ := h
    exact hs
  | none =>
    rw [locateFile_of_missing t hs] at h
    split at h
    · split at h
      · split at h
        · simp at h
        · next hq =>
          simp only [Prod.mk.injEq, Except.ok.injEq] at h
          obtain ⟨⟨rfl, rfl⟩, -⟩ := h
          exact hq
      · simp at h
    · simp at h

theorem processImports_rel {R : State → State → Prop}
    (hrefl : ∀ st, R st st) (htrans : ∀ a b c, R a b → R b c → R a c)
    {process : String → State → Option (Option GoError × State)}
    (hp : ∀ p st e st', process p st = some (e, st') → R st st') :
    ∀ (l : List String) (st st' : State), processImports process l st = some st' → R st st' := by
  intro l
  induction l with
  | nil =>
    intro st st' h
    simp only [processImports, Option.some.injEq] at h
    subst h
    exact hrefl _
  | cons x xs ih =>
    intro st st' h
    simp only [processImports] at h
    split at h
    · simp at h
    · next e st1 h1 => exact htrans _ _ _ (hp _ _ _ _ h1) (ih _ _ h)

/-- Every relation between states that is reflexive, transitive and contains
the three state changes of `ProcessFile` relates the state before a call to
the state after it.  The path `q` marked as processed is one `locateFile`
settled on. -/
theorem ProcessFile_rel_located (w : World) (root : String) (R : State → State → Prop)
    (hrefl : ∀ st, R st st) (htrans : ∀ a b c, R a b → R b c → R a c)
    (htick : ∀ st t, R st { st with tick := t })
    (hfail : ∀ (st : State) q t,
      (∃ p t0, locateFile w (Clean p) t0 = (.ok (q, ⟨false⟩), t)) →
      Ext q ∈ supportedExtensions →
      w.readFile q = none → R st ⟨markProcessed st.processedFiles q, st.results, t⟩)
    (hadd : ∀ (st : State) q t content,
      (∃ p t0, locateFile w (Clean p) t0 = (.ok (q, ⟨false⟩), t)) →
      Ext q ∈ supportedExtensions → w.readFile q = some content →
      R st ⟨markProcessed st.processedFiles q, mapSet st.results q content, t⟩) :
    ∀ fuel p st e st', ProcessFile w fuel p root st = some (e, st') → R st st' := by
  intro fuel
  induction fuel with
  | zero => intro p st e st' h; simp [ProcessFile] at h
  | succ n ih =>
    intro p st e st' h
    rw [ProcessFile_succ] at h
    split at h
    · simp only [Option.some.injEq, Prod.mk.injEq] at h
      rw [← h.2]; exact hrefl _
    · split at h
      · simp only [Option.some.injEq, Prod.mk.injEq] at h
        rw [← h.2]; exact htick _ _
      · next q info t hloc =>
        split at h
        · simp only [Option.some.injEq, Prod.mk.injEq] at h
          rw [← h.2]; exact htick _ _
        · next hdir =>
          have hinfo : info = ⟨false⟩ := by
            cases info with
            | mk d => simp only [Bool.not_eq_true] at hdir; simp [hdir]
          rw [hinfo] at hloc
          split at h
          · simp only [Option.some.injEq, Prod.mk.injEq] at h
            rw [← h.2]; exact htick _ _
          · next hext =>
            rw [not_not] at hext
            split at h
            · next hread =>
              simp only [Option.some.injEq, Prod.mk.injEq] at h
              rw [← h.2]; exact hfail _ _ _ ⟨p, st.tick, hloc⟩ hext hread
            · next content hread =>
              split at h
              · simp at h
              · next st2 hpi =>
                simp only [Option.some.injEq, Prod.mk.injEq] at h
                rw [← h.2]
                exact htrans _ _ _
                  (htrans _ _ _ (hadd st q t content ⟨p, st.tick, hloc⟩ hext hread)
                    (htick _ (importsOf w q root t).2))
                  (processImports_rel hrefl htrans (fun p s e s' hh => ih p s e s' hh) _ _ _ hpi)

/-- The same with the path `q` known only as a regular file. -/
theorem ProcessFile_rel (w : World) (root : String) (R : State → State → Prop)
    (hrefl : ∀ st, R st st) (htrans : ∀ a b c, R a b → R b c → R a c)
    (htick : ∀ st t, R st { st with tick := t })
    (hfail : ∀ (st : State) q t, w.stat q = some ⟨false⟩ → Ext q ∈ supportedExtensions →
      w.readFile q = none → R st ⟨markProcessed st.processedFiles q, st.results, t⟩)
    (hadd : ∀ (st : State) q t content, w.stat q = some ⟨false⟩ →
      Ext q ∈ supportedExtensions → w.readFile q = some content →
      R st ⟨markProcessed st.processedFiles q, mapSet st.results q content, t⟩) :
    ∀ fuel p st e st', ProcessFile w fuel p root st = some (e, st') → R st st' :=
  ProcessFile_rel_located w root R hrefl htrans htick
    (fun st q t hloc he hr => by
      obtain ⟨p, t0, hl⟩ := hloc
      exact hfail st q t (locateFile_ok hl) he hr)
    (fun st q t content hloc he hr => by
      obtain ⟨p, t0, hl⟩ := hloc
      exact hadd st q t content (locateFile_ok hl) he hr)

/-! ### Maps as association lists -/

theorem mapGet_mapSet {β : Type} (m : List (String × β)) (k k' : String) (v : β) :
    mapGet (mapSet m k v) k' = if k = k' then some v else mapGet m k' := by
  induction m with
  | nil => simp [mapSet, mapGet]
  | cons hd tl ih =>
    obtain ⟨a, b⟩ := hd
    by_cases hak : a = k
    · subst hak
      by_cases hk : a = k' <;> simp [mapSet, mapGet, hk]
    · by_cases hk : k = k'
      · subst hk
        simp [mapSet, mapGet, hak, ih]
      · by_cases hak' : a = k'
        · subst hak'
          simp [mapSet, mapGet, hak, hk]
        · simp [mapSet, mapGet, hak, hak', hk, ih]

theorem mem_keys_iff {β : Type} (m : List (String × β)) (k : String) :
    k ∈ keys m ↔ ∃ v, mapGet m k = some v := by
  induction m with
  | nil => simp [keys, mapGet]
  | cons hd tl ih =>
    obtain ⟨a, b⟩ := hd
    by_cases hak : a = k
    · subst hak; simp [keys, mapGet]
    · have : k ∈ keys ((a, b) :: tl) ↔ k ∈ keys tl := by
        simp [keys, Ne.symm hak]
      rw [this, ih]
      simp [mapGet, hak]

theorem keys_mapSet {β : Type} (m : List (String × β)) (k : String) (v : β) :
    keys (mapSet m k v) = if k ∈ keys m then keys m else keys m ++ [k] := by
  induction m with
  | nil => simp [mapSet, keys]
  | cons hd tl ih =>
    obtain ⟨a, b⟩ := hd
    by_cases hak : a = k
    · subst hak; simp [mapSet, keys]
    · have h1 : keys (mapSet ((a, b) :: tl) k v) = a :: keys (mapSet tl k v) := by
        simp [mapSet, hak, keys]
      have h2 : keys ((a, b) :: tl) = a :: keys tl := rfl
      rw [h1, h2, ih]
      by_cases hk : k ∈ keys tl
      · simp [hk]
      · simp [hk, Ne.symm hak]

theorem keys_mapSet_nodup {β : Type} (m : List (String × β)) (k : String) (v : β)
    (h : (keys m).Nodup) : (keys (mapSet m k v)).Nodup := by
  rw [keys_mapSet]
  split
  · exact h
  · next hk =>
    rw [List.nodup_append]
    refine ⟨h, List.nodup_singleton _, ?_⟩
    intro a ha hb
    simp only [List.mem_singleton] at hb
    subst hb
    exact hk ha

theorem mem_markProcessed (ps : List String) (p k : String) :
    k ∈ markProcessed ps p ↔ k ∈ ps ∨ k = p := by
  unfold markProcessed
  split
  · next h =>
    constructor
    · exact Or.inl
    · rintro (h' | rfl)
      · exact h'
      · exact h
  · simp

theorem markProcessed_nodup (ps : List String) (p : String) (h : ps.Nodup) :
    (markProcessed ps p).Nodup := by
  unfold markProcessed
  split
  · exact h
  · next hp =>
    rw [List.nodup_append]
    refine ⟨h, List.nodup_singleton _, ?_⟩
    intro a ha hb
    simp only [List.mem_singleton] at hb
    subst hb
    exact hp ha

/-! ### The invariant of the traversal state -/

theorem Inv_empty (w : World) (t : Nat) : Inv w ⟨[], [], t⟩ where
  keys_nodup := List.nodup_nil
  processed_nodup := List.nodup_nil
  keys_processed := by intro k hk; simp [keys] at hk
  processed_file := by intro k hk; simp at hk
  processed_read := by intro k hk; simp at hk
  results_content := by intro k c h; simp [mapGet] at h

theorem Inv_tick {w : World} {st : State} (h : Inv w st) (t : Nat) :
    Inv w { st with tick := t } :=
  ⟨h.keys_nodup, h.processed_nodup, h.keys_processed, h.processed_file, h.processed_read,
    h.results_content⟩

theorem Inv_fail {w : World} {st : State} (h : Inv w st) {q : String} (t : Nat)
    (hs : w.stat q = some ⟨false⟩) (he : Ext q ∈ supportedExtensions)
    (hr : w.readFile q = none) :
    Inv w ⟨markProcessed st.processedFiles q, st.results, t⟩ where
  keys_nodup := h.keys_nodup
  processed_nodup := markProcessed_nodup _ _ h.processed_nodup
  keys_processed := by
    intro k hk
    exact (mem_markProcessed _ _ _).2 (Or.inl (h.keys_processed k hk))
  processed_file := by
    intro k hk
    rcases (mem_markProcessed _ _ _).1 hk with hk | rfl
    · exact h.processed_file k hk
    · exact ⟨hs, he⟩
  processed_read := by
    intro k hk c hc
    rcases (mem_markProcessed _ _ _).1 hk with hk | rfl
    · exact h.processed_read k hk c hc
    · rw [hr] at hc; cases hc
  results_content := h.results_content

theorem Inv_add {w : World} {st : State} (h : Inv w st) {q content : String} (t : Nat)
    (hs : w.stat q = some ⟨false⟩) (he : Ext q ∈ supportedExtensions)
    (hr : w.readFile q = some content) :
    Inv w ⟨markProcessed st.processedFiles q, mapSet st.results q content, t⟩ where
  keys_nodup := keys_mapSet_nodup _ _ _ h.keys_nodup
  processed_nodup := markProcessed_nodup _ _ h.processed_nodup
  keys_processed := by
    intro k hk
    rw [mem_markProcessed]
    by_cases hkq : k = q
    · exact Or.inr hkq
    · left
      apply h.keys_processed
      obtain ⟨v, hv⟩ := (mem_keys_iff _ _).1 hk
      rw [mapGet_mapSet, if_neg (Ne.symm hkq)] at hv
      exact (mem_keys_iff _ _).2 ⟨v, hv⟩
  processed_file := by
    intro k hk
    rcases (mem_markProcessed _ _ _).1 hk with hk | rfl
    · exact h.processed_file k hk
    · exact ⟨hs, he⟩
  processed_read := by
    intro k hk c hc
    show mapGet (mapSet st.results q content) k = some c
    rw [mapGet_mapSet]
    by_cases hkq : q = k
    · subst hkq
      rw [if_pos rfl, ← hr, hc]
    · rw [if_neg hkq]
      rcases (mem_markProcessed _ _ _).1 hk with hk | rfl
      · exact h.processed_read k hk c hc
      · exact absurd rfl hkq
  results_content := by
    intro k c hc
    change mapGet (mapSet st.results q content) k = some c at hc
    rw [mapGet_mapSet] at hc
    by_cases hkq : q = k
    · subst hkq
      rw [if_pos rfl] at hc
      rw [hr, hc]
    · rw [if_neg hkq] at hc
      exact h.results_content k c hc

/-- A call of `ProcessFile` keeps the invariant and only adds to
`processedFiles`. -/
theorem ProcessFile_inv (w : World) (root : String) (fuel : Nat) (p : String) (st : State)
    (e : Option GoError) (st' : State) (h : ProcessFile w fuel p root st = some (e, st')) :
    (Inv w st → Inv w st') ∧ (∀ k, k ∈ st.processedFiles → k ∈ st'.processedFiles) := by
  refine ProcessFile_rel w root
    (fun a b => (Inv w a → Inv w b) ∧ (∀ k, k ∈ a.processedFiles → k ∈ b.processedFiles))
    ?_ ?_ ?_ ?_ ?_ fuel p st e st' h
  · intro a; exact ⟨id, fun _ hk => hk⟩
  · intro a b c hab hbc
    exact ⟨fun ha => hbc.1 (hab.1 ha), fun k hk => hbc.2 k (hab.2 k hk)⟩
  · intro a t; exact ⟨fun ha => Inv_tick ha t, fun _ hk => hk⟩
  · intro a q t hs he hr
    exact ⟨fun ha => Inv_fail ha t hs he hr, fun k hk => (mem_markProcessed _ _ _).2 (Or.inl hk)⟩
  · intro a q t c hs he hr
    exact ⟨fun ha => Inv_add ha t hs he hr, fun k hk => (mem_markProcessed _ _ _).2 (Or.inl hk)⟩

/-! ### Path library -/

theorem splitSlash_ne_nil (s : List Char) : splitSlash s ≠ [] := by
  cases s with
  | nil => simp [splitSlash]
  | cons c cs =>
    simp only [splitSlash]
    split
    · simp
    · split <;> simp

theorem splitSlash_no_slash (s : List Char) : ∀ seg ∈ splitSlash s, '/' ∉ seg := by
  induction s with
  | nil => simp [splitSlash]
  | cons c cs ih =>
    simp only [splitSlash]
    split
    · intro seg hseg
      rcases List.mem_cons.1 hseg with rfl | h
      · simp
      · exact ih seg h
    · next hc =>
      split
      · intro seg hseg
        simp only [List.mem_singleton] at hseg
        subst hseg
        simpa using Ne.symm hc
      · next seg0 rest heq =>
        intro seg hseg
        rcases List.mem_cons.1 hseg with rfl | h
        · have := ih seg0 (by rw [heq]; exact List.mem_cons_self _ _)
          simp only [List.mem_cons, not_or]
          exact ⟨Ne.symm hc, this⟩
        · exact ih seg (by rw [heq]; exact List.mem_cons_of_mem _ h)

theorem splitSlash_of_no_slash (s : List Char) (h : '/' ∉ s) : splitSlash s = [s] := by
  induction s with
  | nil => rfl
  | cons c cs ih =>
    simp only [List.mem_cons, not_or] at h
    simp only [splitSlash, if_neg (Ne.symm h.1), ih h.2]

theorem splitSlash_append (a b : List Char) (h : '/' ∉ a) :
    splitSlash (a ++ '/' :: b) = a :: splitSlash b := by
  induction a with
  | nil => simp [splitSlash]
  | cons c cs ih =>
    simp only [List.mem_cons, not_or] at h
    show splitSlash (c :: (cs ++ '/' :: b)) = (c :: cs) :: splitSlash b
    simp only [splitSlash, if_neg (Ne.symm h.1), ih h.2]

theorem splitSlash_joinSlash (comps : List (List Char)) (hne : comps ≠ [])
    (h : ∀ c ∈ comps, '/' ∉ c) : splitSlash (joinSlash comps) = comps := by
  induction comps with
  | nil => exact absurd rfl hne
  | cons c rest ih =>
    cases rest with
    | nil => simpa [joinSlash] using splitSlash_of_no_slash c (h c (List.mem_cons_self _ _))
    | cons d rest' =>
      simp only [joinSlash]
      rw [splitSlash_append _ _ (h c (List.mem_cons_self _ _))]
      rw [ih (by simp) (fun x hx => h x (List.mem_cons_of_mem _ hx))]

theorem stackOK_suffix {rooted : Bool} (a b : List (List Char)) (h : stackOK rooted (a ++ b)) :
    stackOK rooted b := by
  induction a with
  | nil => exact h
  | cons c cs ih => exact ih h.2.2

theorem cleanStep_push {rooted : Bool} {acc : List (List Char)} {x : List Char}
    (h : stackOK rooted (x :: acc)) : cleanStep rooted acc x = x :: acc := by
  obtain ⟨⟨hne, -, hdot⟩, hdd, -⟩ := h
  unfold cleanStep
  rw [if_neg (by simp [hne, hdot])]
  split
  · next hx =>
    obtain ⟨hr, hall⟩ := hdd hx
    cases acc with
    | nil => simp [hr, hx]
    | cons top rest =>
      have : top = ['.', '.'] := hall top (List.mem_cons_self _ _)
      simp [this, hx]
  · rfl

/-- Cleaning the elements of a well-shaped stack again rebuilds the stack. -/
theorem foldl_cleanStep_stack {rooted : Bool} (xs acc : List (List Char))
    (h : stackOK rooted (xs.reverse ++ acc)) :
    xs.foldl (cleanStep rooted) acc = xs.reverse ++ acc := by
  induction xs generalizing acc with
  | nil => rfl
  | cons x xs ih =>
    have h' : stackOK rooted (xs.reverse ++ x :: acc) := by
      simpa [List.reverse_cons, List.append_assoc] using h
    rw [List.foldl_cons, cleanStep_push (stackOK_suffix _ _ h'), ih _ h']
    simp [List.reverse_cons, List.append_assoc]

theorem cleanStep_stackOK {rooted : Bool} {stack : List (List Char)} {seg : List Char}
    (h : stackOK rooted stack) (hseg : '/' ∉ seg) : stackOK rooted (cleanStep rooted stack seg) := by
  unfold cleanStep
  split
  · exact h
  · next h1 =>
    rw [not_or] at h1
    split
    · next hdd =>
      cases stack with
      | nil =>
        cases rooted with
        | true => simp [stackOK]
        | false =>
          subst hdd
          simp [stackOK, Seg]
      | cons top rest =>
        dsimp only
        split
        · next htop =>
          subst hdd
          refine ⟨⟨by simp, by simp, by simp⟩, fun _ => ?_, h⟩
          obtain ⟨hr, hall⟩ := h.2.1 htop
          refine ⟨hr, ?_⟩
          intro c' hc'
          rcases List.mem_cons.1 hc' with rfl | hc'
          · exact htop
          · exact hall c' hc'
        · exact h.2.2
    · next hdd => exact ⟨⟨h1.1, hseg, h1.2⟩, fun hx => absurd hx hdd, h⟩

theorem foldl_cleanStep_stackOK {rooted : Bool} (segs stack : List (List Char))
    (h : stackOK rooted stack) (hsegs : ∀ seg ∈ segs, '/' ∉ seg) :
    stackOK rooted (segs.foldl (cleanStep rooted) stack) := by
  induction segs generalizing stack with
  | nil => exact h
  | cons x xs ih =>
    exact ih _ (cleanStep_stackOK h (hsegs x (List.mem_cons_self _ _)))
      (fun seg hs => hsegs seg (List.mem_cons_of_mem _ hs))

theorem stackOK_seg {rooted : Bool} {stack : List (List Char)} (h : stackOK rooted stack) :
    ∀ c ∈ stack, Seg c := by
  induction stack with
  | nil => intro c hc; simp at hc
  | cons x xs ih =>
    intro c hc
    rcases List.mem_cons.1 hc with rfl | hc
    · exact h.1
    · exact ih h.2.2 c hc

/-- Every result of `filepath.Clean` is the rendering of a well-shaped
stack. -/
theorem cleanChars_form (s : List Char) :
    ∃ rooted stack, cleanChars s = render rooted stack.reverse ∧ stackOK rooted stack := by
  unfold cleanChars
  split
  · exact ⟨false, [], rfl, trivial⟩
  · refine ⟨decide (s.head? = some '/'), (splitSlash s).foldl (cleanStep _) [], ?_,
      foldl_cleanStep_stackOK _ _ trivial (splitSlash_no_slash s)⟩
    unfold render
    simp only [List.reverse_eq_nil_iff]

theorem foldl_cleanStep_nil_cons (rooted : Bool) (acc : List (List Char))
    (l : List (List Char)) :
    ([] :: l).foldl (cleanStep rooted) acc = l.foldl (cleanStep rooted) acc := by
  simp [cleanStep]

theorem joinSlash_head {c : List Char} {rest : List (List Char)} (hc : c ≠ []) :
    (joinSlash (c :: rest)).head? = c.head? := by
  cases c with
  | nil => exact absurd rfl hc
  | cons x xs => cases rest <;> simp [joinSlash]

/-- The rendering of a well-shaped stack is a fixed point of
`filepath.Clean`. -/
theorem cleanChars_render {rooted : Bool} {stack : List (List Char)}
    (h : stackOK rooted stack) :
    cleanChars (render rooted stack.reverse) = render rooted stack.reverse := by
  have hseg := stackOK_seg h
  have hslash : ∀ c ∈ stack.reverse, '/' ∉ c := fun c hc => (hseg c (List.mem_reverse.1 hc)).2.1
  have hfold : stack.reverse.foldl (cleanStep rooted) [] = stack := by
    have := @foldl_cleanStep_stack rooted stack.reverse [] (by simpa using h)
    simpa using this
  cases rooted with
  | true =>
    have hr : render true stack.reverse = '/' :: joinSlash stack.reverse := rfl
    rw [hr]
    unfold cleanChars
    rw [if_neg (by simp)]
    simp only [List.head?_cons, decide_True, if_true]
    congr 1
    by_cases hnil : stack = []
    · subst hnil
      simp [joinSlash, splitSlash, cleanStep]
    · have hne : stack.reverse ≠ [] := by simpa using hnil
      have : splitSlash ('/' :: joinSlash stack.reverse) = [] :: stack.reverse := by
        simp only [splitSlash, if_true]
        rw [splitSlash_joinSlash _ hne hslash]
      rw [this, foldl_cleanStep_nil_cons, hfold]
  | false =>
    by_cases hnil : stack = []
    · subst hnil
      decide
    · have hne : stack.reverse ≠ [] := by simpa using hnil
      have hr : render false stack.reverse = joinSlash stack.reverse := by
        simp [render, hnil]
      rw [hr]
      obtain ⟨c, rest, hcr⟩ := List.exists_cons_of_ne_nil hne
      have hc : Seg c := hseg c (List.mem_reverse.1 (by rw [hcr]; exact List.mem_cons_self _ _))
      have hhead : (joinSlash stack.reverse).head? ≠ some '/' := by
        rw [hcr, joinSlash_head hc.1]
        intro hh
        exact hc.2.1 (List.mem_of_mem_head? hh)
      have hjne : joinSlash stack.reverse ≠ [] := by
        intro hj
        have := @joinSlash_head _ rest hc.1
        rw [← hcr, hj] at this
        cases c with
        | nil => exact hc.1 rfl
        | cons x xs => simp at this
      unfold cleanChars
      rw [if_neg hjne]
      simp only [hhead, decide_False, Bool.false_eq_true, if_false]
      rw [splitSlash_joinSlash _ hne hslash, hfold, if_neg hnil]

theorem cleanChars_idem (s : List Char) : cleanChars (cleanChars s) = cleanChars s := by
  obtain ⟨rooted, stack, hform, hok⟩ := cleanChars_form s
  rw [hform, cleanChars_render hok]

theorem Clean_idem (p : String) : Clean (Clean p) = Clean p := by
  simp only [Clean, cleanChars_idem]

theorem joinSlash_cons_cons (c d : List Char) (rest : List (List Char)) :
    joinSlash (c :: d :: rest) = c ++ '/' :: joinSlash (d :: rest) := rfl

theorem joinSlash_append_last (init : List (List Char)) (last e : List Char) :
    joinSlash (init ++ [last ++ e]) = joinSlash (init ++ [last]) ++ e := by
  induction init with
  | nil => simp [joinSlash]
  | cons c rest ih =>
    cases rest with
    | nil => simp [joinSlash]
    | cons d rest' =>
      simp only [List.cons_append] at ih ⊢
      rw [joinSlash_cons_cons, joinSlash_cons_cons, ih]
      simp

/-- Appending an extension to a cleaned path gives a cleaned path. -/
theorem cleanChars_append_ext (s e : List Char) (hs : cleanChars s = s)
    (he : e ≠ []) (he1 : '/' ∉ e) (he2 : ∀ x, e.getLast? = some x → x ≠ '.')
    (he3 : 2 ≤ e.length) : cleanChars (s ++ e) = s ++ e := by
  obtain ⟨rooted, stack, hform, hok⟩ := cleanChars_form s
  rw [hs] at hform
  have hnew : ∀ c : List Char, '/' ∉ c → Seg (c ++ e) ∧ c ++ e ≠ ['.', '.'] := by
    intro c hc
    refine ⟨⟨by simp [he], ?_, ?_⟩, ?_⟩
    · simp only [List.mem_append, not_or]; exact ⟨hc, he1⟩
    · intro h
      have := congrArg List.length h
      simp only [List.length_append, List.length_singleton] at this
      omega
    · intro h
      have h2 : (c ++ e).getLast? = some '.' := by rw [h]; rfl
      rw [List.getLast?_append_of_ne_nil _ he] at h2
      exact he2 _ h2 rfl
  cases stack with
  | nil =>
    cases rooted with
    | true =>
      have hs' : s ++ e = render true ([e] : List (List Char)).reverse := by
        rw [hform]; simp [render, joinSlash]
      rw [hs']
      have := hnew [] (by simp)
      simp only [List.nil_append] at this
      exact @cleanChars_render true [e]
        ⟨this.1, fun h => absurd h this.2, trivial⟩
    | false =>
      have hs' : s ++ e = render false ([['.'] ++ e] : List (List Char)).reverse := by
        rw [hform]; simp [render, joinSlash]
      rw [hs']
      have := hnew ['.'] (by simp)
      exact @cleanChars_render false [['.'] ++ e]
        ⟨this.1, fun h => absurd h this.2, trivial⟩
  | cons top rest =>
    have hs' : s ++ e = render rooted ((top ++ e) :: rest).reverse := by
      rw [hform]
      cases rooted with
      | true => simp [render, joinSlash_append_last]
      | false => simp [render, joinSlash_append_last]
    rw [hs']
    have := hnew top hok.1.2.1
    exact @cleanChars_render rooted ((top ++ e) :: rest)
      ⟨this.1, fun h => absurd h this.2, hok.2.2⟩

/-- A non-empty name without separator that does not start with a dot is
already clean. -/
theorem cleanChars_bare (s : List Char) (hne : s ≠ []) (hs : '/' ∉ s)
    (hdot : s.head? ≠ some '.') : cleanChars s = s := by
  have hseg : Seg s := by
    refine ⟨hne, hs, ?_⟩
    intro h; rw [h] at hdot; exact hdot rfl
  have hdd : s ≠ ['.', '.'] := by
    intro h; rw [h] at hdot; exact hdot rfl
  have := @cleanChars_render false [s]
    ⟨hseg, fun h => absurd h hdd, trivial⟩
  simpa [render, joinSlash] using this

theorem extScan_append (l rest acc : List Char) (h1 : '/' ∉ l) (h2 : '.' ∉ l) :
    extScan (l ++ '.' :: rest) acc = '.' :: (l.reverse ++ acc) := by
  induction l generalizing acc with
  | nil => simp [extScan]
  | cons c cs ih =>
    simp only [List.mem_cons, not_or] at h1 h2
    show extScan (c :: (cs ++ '.' :: rest)) acc = _
    simp only [extScan, if_neg (Ne.symm h1.1), if_neg (Ne.symm h2.1), ih _ h1.2 h2.2]
    simp

theorem dotExt_shape {e : String} (h : dotExt e = true) :
    ∃ c cs, e.data = '.' :: c :: cs ∧ '/' ∉ (c :: cs) ∧ '.' ∉ (c :: cs) := by
  unfold dotExt at h
  split at h
  · next c cs heq =>
    simp only [Bool.and_eq_true, Bool.not_eq_true'] at h
    refine ⟨c, cs, heq, ?_, ?_⟩
    · intro hm
      have : (c :: cs).contains '/' = true := by simpa using hm
      rw [h.1] at this; cases this
    · intro hm
      have : (c :: cs).contains '.' = true := by simpa using hm
      rw [h.2] at this; cases this
  · simp at h

theorem supported_dotExt : ∀ ext ∈ supportedExtensions, dotExt ext = true := by decide

/-- `filepath.Ext` of a path to which a supported extension was appended is
that extension. -/
theorem Ext_append (p ext : String) (h : dotExt ext = true) : Ext (p ++ ext) = ext := by
  obtain ⟨c, cs, heq, h1, h2⟩ := dotExt_shape h
  have hd : (p ++ ext).data = p.data ++ ext.data := by simp
  unfold Ext
  apply String.ext
  show extScan (p ++ ext).data.reverse [] = ext.data
  rw [hd, heq, List.reverse_append, List.reverse_cons, List.append_assoc]
  rw [show [('.' : Char)] ++ p.data.reverse = '.' :: p.data.reverse from rfl]
  rw [extScan_append _ _ _ (by rw [List.mem_reverse]; exact h1)
    (by rw [List.mem_reverse]; exact h2)]
  simp

theorem Clean_append_ext (p ext : String) (hp : Clean p = p) (h : dotExt ext = true) :
    Clean (p ++ ext) = p ++ ext := by
  obtain ⟨c, cs, heq, h1, h2⟩ := dotExt_shape h
  have hp' : cleanChars p.data = p.data := by
    have := congrArg String.data hp
    simpa [Clean] using this
  apply String.ext
  show cleanChars (p ++ ext).data = (p ++ ext).data
  have hd : (p ++ ext).data = p.data ++ ext.data := by simp
  rw [hd]
  apply cleanChars_append_ext _ _ hp'
  · rw [heq]; simp
  · rw [heq]
    simp only [List.mem_cons, not_or]
    exact ⟨by decide, by simpa using h1⟩
  · intro x hx
    rw [heq] at hx
    have hx' : (c :: cs).getLast? = some x := by simpa [List.getLast?_cons_cons] using hx
    intro hxe
    subst hxe
    exact h2 (List.mem_of_getLast?_eq_some hx')
  · rw [heq]; simp

/-! ### Probing -/

theorem probeExt_some {w : World} {base q : String} {l : List String}
    (h : probeExt w base l = some q) : ∃ ext, ext ∈ l ∧ q = base ++ ext ∧ (w.stat q).isSome := by
  induction l with
  | nil => simp [probeExt] at h
  | cons e es ih =>
    simp only [probeExt] at h
    split at h
    · next hs =>
      simp only [Option.some.injEq] at h
      subst h
      exact ⟨e, List.mem_cons_self _ _, rfl, hs⟩
    · obtain ⟨ext, hm, hq, hs⟩ := ih h
      exact ⟨ext, List.mem_cons_of_mem _ hm, hq, hs⟩

theorem probeExt_none {w : World} {base : String} {l : List String}
    (h : probeExt w base l = none) : ∀ ext, ext ∈ l → w.stat (base ++ ext) = none := by
  induction l with
  | nil => intro ext hm; simp at hm
  | cons e es ih =>
    simp only [probeExt] at h
    split at h
    · simp at h
    · next hs =>
      intro ext hm
      rcases List.mem_cons.1 hm with rfl | hm
      · simpa using hs
      · exact ih h ext hm

theorem probeExt_of_all_none {w : World} {base : String} {l : List String}
    (h : ∀ ext, ext ∈ l → w.stat (base ++ ext) = none) : probeExt w base l = none := by
  induction l with
  | nil => rfl
  | cons e es ih =>
    simp only [probeExt, h e (List.mem_cons_self _ _), Option.isSome_none, Bool.false_eq_true,
      if_false]
    exact ih (fun ext hm => h ext (List.mem_cons_of_mem _ hm))

theorem probeJsIndex_some {w : World} {dir q : String} {l : List String}
    (h : probeJsIndex w dir l = some q) :
    ∃ ext, ext ∈ l ∧ q = Join [dir, "index" ++ ext] ∧ (w.stat q).isSome := by
  induction l with
  | nil => simp [probeJsIndex] at h
  | cons e es ih =>
    simp only [probeJsIndex] at h
    split at h
    · split at h
      · next hs =>
        simp only [Option.some.injEq] at h
        subst h
        exact ⟨e, List.mem_cons_self _ _, rfl, hs⟩
      · obtain ⟨ext, hm, hq, hs⟩ := ih h
        exact ⟨ext, List.mem_cons_of_mem _ hm, hq, hs⟩
    · obtain ⟨ext, hm, hq, hs⟩ := ih h
      exact ⟨ext, List.mem_cons_of_mem _ hm, hq, hs⟩

theorem World.Fair.mem_iff {w : World} (h : w.Fair) (n : Nat) (ext : String) :
    ext ∈ w.rangeOrder n ↔ ext ∈ supportedExtensions := (h n).mem_iff

/-! ### Cleaned results of the resolver -/

theorem Join_clean (l : List String) : Join l = "" ∨ Clean (Join l) = Join l := by
  induction l with
  | nil => exact Or.inl rfl
  | cons e rest ih =>
    simp only [Join]
    split
    · exact ih
    · right
      simp only [Clean, cleanChars_idem]

theorem render_ne_nil {rooted : Bool} {stack : List (List Char)} (h : stackOK rooted stack) :
    render rooted stack.reverse ≠ [] := by
  unfold render
  split
  · simp
  · split
    · simp
    · next hne =>
      obtain ⟨a, as, hr⟩ := List.exists_cons_of_ne_nil hne
      have ha : Seg a := by
        apply stackOK_seg h
        apply List.mem_reverse.1
        rw [hr]
        exact List.mem_cons_self _ _
      rw [hr]
      intro hj
      have := @joinSlash_head _ as ha.1
      rw [hj] at this
      cases a with
      | nil => exact ha.1 rfl
      | cons y ys => simp at this

theorem cleanChars_ne_nil (x : List Char) : cleanChars x ≠ [] := by
  obtain ⟨rooted, stack, hform, hok⟩ := cleanChars_form x
  rw [hform]
  exact render_ne_nil hok

theorem Join_ne_empty (l : List String) (h : ∃ e, e ∈ l ∧ e ≠ "") : Join l ≠ "" := by
  induction l with
  | nil => obtain ⟨e, he, -⟩ := h; simp at he
  | cons e rest ih =>
    simp only [Join]
    split
    · next he =>
      apply ih
      obtain ⟨x, hx, hxe⟩ := h
      rcases List.mem_cons.1 hx with rfl | hx
      · exact absurd he hxe
      · exact ⟨x, hx, hxe⟩
    · intro hj
      have := congrArg String.data hj
      exact cleanChars_ne_nil _ this

theorem index_ne_empty (ext : String) : "index" ++ ext ≠ "" := by
  intro h
  have := congrArg String.data h
  simp at this

theorem Clean_append_ext_or (p ext : String) (hp : Clean p = p ∨ p = "")
    (h : dotExt ext = true) : Clean (p ++ ext) = p ++ ext := by
  rcases hp with hp | rfl
  · exact Clean_append_ext p ext hp h
  · obtain ⟨c, cs, heq, h1, h2⟩ := dotExt_shape h
    have he : ("" : String) ++ ext = ext := by
      apply String.ext; simp
    rw [he]
    apply String.ext
    show cleanChars ext.data = ext.data
    have hseg : Seg ext.data := by
      rw [heq]
      refine ⟨by simp, ?_, by simp⟩
      simp only [List.mem_cons, not_or]
      exact ⟨by decide, by simpa using h1⟩
    have hdd : ext.data ≠ ['.', '.'] := by
      rw [heq]
      intro hh
      simp only [List.cons.injEq, true_and] at hh
      exact h2 (by rw [hh.1]; exact List.mem_cons_self _ _)
    have := @cleanChars_render false [ext.data]
      ⟨hseg, fun hh => absurd hh hdd, trivial⟩
    simpa [render, joinSlash] using this

theorem absPath_clean {gw : Option String} {p r : String} (h : absPath gw p = some r) :
    Clean r = r ∨ r = "" := by
  unfold absPath at h
  split at h
  · simp only [Option.some.injEq] at h
    subst h
    exact Or.inl (Clean_idem p)
  · split at h
    · simp at h
    · simp only [Option.some.injEq] at h
      subst h
      exact (Join_clean _).symm

theorem find?_stat_clean {w : World} {l : List String} {path : String}
    (hl : ∀ x ∈ l, Clean x = x ∨ x = "")
    (h : l.find? (fun path => (w.stat path).isSome) = some path) :
    Clean path = path ∨ path = "" := hl path (List.mem_of_find?_eq_some h)

theorem HasPrefix_dot_false {s : String} (h : HasPrefix s "." = false) :
    s.data.head? ≠ some '.' := by
  intro hh
  cases hd : s.data with
  | nil => rw [hd] at hh; simp at hh
  | cons c cs =>
    rw [hd] at hh
    simp only [List.head?_cons, Option.some.injEq] at hh
    subst hh
    have : HasPrefix s "." = true := by
      unfold HasPrefix
      rw [hd]
      show List.isPrefixOf ['.'] ('.' :: cs) = true
      simp [List.isPrefixOf]
    rw [h] at this
    cases this

/-- The path `resolveImportByType` computes for a string that passes the
test of `ExtractImports` is cleaned, or empty. -/
theorem resolveImportByType_clean {w : World} (hf : w.Fair) {s dir root e r : String}
    {t t' : Nat} (h : resolveImportByType w s dir root t = (.ok r, t'))
    (hloc : isLocalImport s e = true) : Clean r = r ∨ r = "" := by
  unfold resolveImportByType at h
  split at h
  · split at h
    · simp at h
    · next abs habs =>
      simp only [Prod.mk.injEq, Except.ok.injEq] at h
      rw [← h.1]
      exact absPath_clean habs
  · next h1 =>
    split at h
    · simp only [Prod.mk.injEq, Except.ok.injEq] at h
      rw [← h.1]
      exact (Join_clean _).symm
    · next h2 =>
      split at h
      · simp only [Prod.mk.injEq, Except.ok.injEq] at h
        rw [← h.1]
        exact (Join_clean _).symm
      · next h3 =>
        split at h
        · dsimp only at h
          split at h
          · simp only [Prod.mk.injEq, Except.ok.injEq] at h
            rw [← h.1]
            exact (Join_clean _).symm
          · split at h
            · next testPath hp =>
              simp only [Prod.mk.injEq, Except.ok.injEq] at h
              rw [← h.1]
              obtain ⟨ext, hm, hq, -⟩ := probeExt_some hp
              rw [hq]
              exact Or.inl (Clean_append_ext_or _ ext (Join_clean _).symm
                (supported_dotExt ext ((hf.mem_iff _ _).1 hm)))
            · simp only [Prod.mk.injEq, Except.ok.injEq] at h
              rw [← h.1]
              exact (Join_clean _).symm
        · next h4 =>
          dsimp only at h
          split at h
          · next path hfind =>
            simp only [Prod.mk.injEq, Except.ok.injEq] at h
            rw [← h.1]
            refine find?_stat_clean ?_ hfind
            intro x hx
            simp only [List.mem_cons, List.mem_singleton, List.not_mem_nil, or_false] at hx
            rcases hx with rfl | rfl | rfl <;> exact (Join_clean _).symm
          · simp only [Prod.mk.injEq, Except.ok.injEq] at h
            rw [← h.1]
            simp only [Bool.not_eq_true] at h1 h2 h3 h4
            have hns : ContainsSlash s = false := by
              simp only [isLocalImport, h1, h2, h3, h4, Bool.false_or, Bool.and_eq_true,
                Bool.not_eq_true'] at hloc
              exact hloc.1
            by_cases hemp : s = ""
            · exact Or.inr hemp
            · left
              apply String.ext
              show cleanChars s.data = s.data
              apply cleanChars_bare
              · intro hd
                apply hemp
                apply String.ext
                rw [hd]
              · intro hm
                have : ContainsSlash s = true := by
                  unfold ContainsSlash
                  simpa using hm
                rw [hns] at this
                cases this
              · exact HasPrefix_dot_false h1

/-- Every path `ResolveImportPath` returns for a string that passes the test
of `ExtractImports` is one for which `ProcessFile` finds nothing more by
appending extensions. -/
theorem ResolveImportPath_stable {w : World} (hf : w.Fair) {s dir root e r : String}
    {t t' : Nat} (h : ResolveImportPath w s dir root t = (.ok r, t'))
    (hloc : isLocalImport s e = true) : Stable w r := by
  unfold ResolveImportPath at h
  split at h
  · simp at h
  · next resolved t1 hres =>
    have hclean := resolveImportByType_clean hf hres hloc
    have hdot : Clean "" = "." := by decide
    have hextdot : Ext "." ≠ "" := by decide
    split at h
    · next hext =>
      have hr : r = resolved := by
        split at h <;> simp only [Prod.mk.injEq, Except.ok.injEq] at h <;> exact h.1.symm
      subst hr
      intro _ he
      rcases hclean with hc | hc
      · rw [hc] at he; exact absurd he hext
      · subst hc; rw [hdot] at he; exact absurd he hextdot
    · next hext =>
      rw [not_not] at hext
      split at h
      · next testPath hp =>
        simp only [Prod.mk.injEq, Except.ok.injEq] at h
        rw [← h.1]
        obtain ⟨ext, hm, hq, hs⟩ := probeExt_some hp
        intro hnone
        rw [hq, Clean_append_ext_or _ ext hclean
          (supported_dotExt ext ((hf.mem_iff _ _).1 hm)), ← hq] at hnone
        rw [hnone] at hs
        cases hs
      · next hp =>
        dsimp only at h
        split at h
        · next indexFile hi =>
          simp only [Prod.mk.injEq, Except.ok.injEq] at h
          rw [← h.1]
          obtain ⟨ext, -, hq, hs⟩ := probeJsIndex_some hi
          intro hnone
          have hc : Clean indexFile = indexFile := by
            rw [hq]
            rcases Join_clean [resolved, "index" ++ ext] with hj | hj
            · exact absurd hj (Join_ne_empty _ ⟨"index" ++ ext, by simp, index_ne_empty ext⟩)
            · exact hj
          rw [hc] at hnone
          rw [hnone] at hs
          cases hs
        · simp only [Prod.mk.injEq, Except.ok.injEq] at h
          rw [← h.1]
          intro hnone he ext hm
          rcases hclean with hc | hc
          · rw [hc]
            exact probeExt_none hp ext ((hf.mem_iff _ _).2 hm)
          · subst hc; rw [hdot] at he; exact absurd he hextdot

/-! ### Imports handed to the recursion -/

theorem foldl_invariant {α β : Type} (P : β → Prop) (f : β → α → β)
    (hf : ∀ b a, P b → P (f b a)) : ∀ (l : List α) (b : β), P b → P (l.foldl f b) := by
  intro l
  induction l with
  | nil => intro b hb; exact hb
  | cons x xs ih => intro b hb; exact ih _ (hf b x hb)

theorem extractMatch_stable {w : World} (hf : w.Fair) (e dir root : String)
    (acc : List String × Nat) (m : List String) (hacc : ∀ r ∈ acc.1, Stable w r) :
    ∀ r ∈ (extractMatch w e dir root acc m).1, Stable w r := by
  unfold extractMatch
  split
  · dsimp only
    split
    · exact hacc
    · next resolvedPath t hres =>
      split
      · next hloc =>
        intro r hr
        rcases List.mem_append.1 hr with hr | hr
        · exact hacc r hr
        · simp only [List.mem_singleton] at hr
          subst hr
          exact ResolveImportPath_stable hf hres (e := e) hloc
      · exact hacc
  · exact hacc

theorem ExtractImports_stable {w : World} (hf : w.Fair) {q root : String} {t t' : Nat}
    {imports : List String} (h : ExtractImports w q root t = (.ok imports, t')) :
    ∀ r ∈ imports, Stable w r := by
  unfold ExtractImports at h
  dsimp only at h
  split at h
  · simp at h
  · split at h
    · simp at h
    · next content _ =>
      simp only [Prod.mk.injEq, Except.ok.injEq] at h
      rw [← h.1]
      apply foldl_invariant (fun acc : List String × Nat => ∀ r ∈ acc.1, Stable w r)
      · intro acc pattern hacc
        apply foldl_invariant (fun acc : List String × Nat => ∀ r ∈ acc.1, Stable w r)
        · intro b a hb
          exact extractMatch_stable hf _ _ _ b a hb
        · exact hacc
      · intro r hr
        simp at hr

theorem importsOf_stable {w : World} (hf : w.Fair) (q root : String) (t : Nat) :
    ∀ r ∈ (importsOf w q root t).1, Stable w r := by
  unfold importsOf
  split
  · next imports t' h => exact ExtractImports_stable hf h
  · intro r hr; simp at hr

/-! ### Termination -/

theorem pending_mono {files : List String} {st st' : State}
    (h : ∀ k, k ∈ st.processedFiles → k ∈ st'.processedFiles) :
    pending files st' ≤ pending files st := by
  unfold pending
  apply List.Sublist.length_le
  apply List.monotone_filter_right
  intro a ha
  simp only [decide_eq_true_eq] at ha ⊢
  exact fun hm => ha (h a hm)

theorem pending_lt {files : List String} {st st' : State} {q : String}
    (h : ∀ k, k ∈ st.processedFiles → k ∈ st'.processedFiles)
    (hq : q ∈ files) (hq1 : q ∉ st.processedFiles) (hq2 : q ∈ st'.processedFiles) :
    pending files st' < pending files st := by
  unfold pending
  have hsub : List.Sublist (files.dedup.filter (fun f => decide (f ∉ st'.processedFiles)))
      (files.dedup.filter (fun f => decide (f ∉ st.processedFiles))) := by
    apply List.monotone_filter_right
    intro a ha
    simp only [decide_eq_true_eq] at ha ⊢
    exact fun hm => ha (h a hm)
  rcases Nat.lt_or_ge (files.dedup.filter (fun f => decide (f ∉ st'.processedFiles))).length
      (files.dedup.filter (fun f => decide (f ∉ st.processedFiles))).length with hlt | hge
  · exact hlt
  · exfalso
    have heq := hsub.eq_of_length_le hge
    have hin : q ∈ files.dedup.filter (fun f => decide (f ∉ st.processedFiles)) := by
      simp only [List.mem_filter, List.mem_dedup, decide_eq_true_eq]
      exact ⟨hq, hq1⟩
    rw [← heq] at hin
    simp only [List.mem_filter, List.mem_dedup, decide_eq_true_eq] at hin
    exact hin.2 hq2

theorem pending_le_length (files : List String) (st : State) :
    pending files st ≤ files.length := by
  unfold pending
  exact le_trans (List.length_filter_le _ _) (List.Sublist.length_le (List.dedup_sublist files))

theorem processImports_isSome {P : State → Prop}
    {process : String → State → Option (Option GoError × State)} :
    ∀ (l : List String) (st : State),
      (∀ p, p ∈ l → ∀ s, P s → ∃ e s', process p s = some (e, s') ∧ P s') → P st →
      ∃ st', processImports process l st = some st' := by
  intro l
  induction l with
  | nil => intro st _ _; exact ⟨st, rfl⟩
  | cons x xs ih =>
    intro st hp hst
    obtain ⟨e, st1, h1, hP⟩ := hp x (List.mem_cons_self _ _) st hst
    obtain ⟨st2, h2⟩ := ih st1 (fun p hm => hp p (List.mem_cons_of_mem _ hm)) hP
    exact ⟨st2, by simp only [processImports, h1, h2]⟩

theorem pending_congr (files : List String) (a b : State)
    (h : a.processedFiles = b.processedFiles) : pending files a = pending files b := by
  unfold pending
  rw [h]

/-- One call of `ProcessFile` returns when the nested calls on the stable
paths with the property `T` do, the imports of the file it settles on have
that property, and the state handed to the nested calls leaves fewer than `n`
files pending. -/
theorem ProcessFile_step_returns {w : World} (hf : w.Fair) {files : List String}
    (root : String) (n : Nat) (T : String → Prop)
    (H : ∀ p' s, Stable w p' → T p' → pending files s < n →
      ∃ e s', ProcessFile w n p' root s = some (e, s'))
    (p : String) (st : State)
    (hpend : ∀ q t, locateFile w (Clean p) st.tick = (.ok (q, ⟨false⟩), t) →
      Ext q ∈ supportedExtensions →
      pending files ⟨markProcessed st.processedFiles q, st.results, t⟩ < n ∧
        ∀ r, r ∈ (importsOf w q root t).1 → T r) :
    ∃ e st', ProcessFile w (n + 1) p root st = some (e, st') := by
  rw [ProcessFile_succ]
  split
  · exact ⟨_, _, rfl⟩
  · split
    · exact ⟨_, _, rfl⟩
    · next q info t hloc =>
      split
      · exact ⟨_, _, rfl⟩
      · next hdir =>
        have hinfo : info = ⟨false⟩ := by
          cases info with
          | mk d => simp only [Bool.not_eq_true] at hdir; simp [hdir]
        subst hinfo
        split
        · exact ⟨_, _, rfl⟩
        · next hext =>
          rw [not_not] at hext
          split
          · exact ⟨_, _, rfl⟩
          · next content hread =>
            obtain ⟨hstart, himp⟩ := hpend q t hloc hext
            obtain ⟨st2, h2⟩ := @processImports_isSome (fun s => pending files s < n)
              (fun importPath s => ProcessFile w n importPath root s)
              (importsOf w q root t).1
              ⟨markProcessed st.processedFiles q, mapSet st.results q content,
                (importsOf w q root t).2⟩
              (by
                intro p' hp' s hs
                obtain ⟨e, s', hrun⟩ :=
                  H p' s (importsOf_stable hf q root t p' hp') (himp p' hp') hs
                refine ⟨e, s', hrun, ?_⟩
                exact lt_of_le_of_lt (pending_mono (ProcessFile_inv w root n p' s e s' hrun).2) hs)
              (by
                exact lt_of_eq_of_lt (pending_congr files _ _ rfl) hstart)
            rw [h2]
            exact ⟨_, _, rfl⟩

/-- `locateFile` on a stable path either finds the cleaned path itself or
fails. -/
theorem locateFile_stable {w : World} (hf : w.Fair) {p q : String} {info : FileInfo}
    {t t' : Nat} (hst : Stable w p) (h : locateFile w (Clean p) t = (.ok (q, info), t')) :
    q = Clean p := by
  cases hs : w.stat (Clean p) with
  | some info' =>
    rw [locateFile_of_stat t hs] at h
    simp only [Prod.mk.injEq, Except.ok.injEq] at h
    exact h.1.1.symm
  | none =>
    rw [locateFile_of_missing t hs] at h
    split at h
    · next hext =>
      rw [probeExt_of_all_none (fun ext hm => hst hs hext ext ((hf.mem_iff _ _).1 hm))] at h
      simp at h
    · simp at h

/-- Calls on stable paths that lead into a list closed under imports return
once the fuel exceeds the number of pending files. -/
theorem ProcessFile_returns_stable {w : World} (hf : w.Fair) {files : List String}
    {root : String} (hcl : w.ClosedBy root files) :
    ∀ fuel p st, Stable w p →
      (w.stat (Clean p) = some ⟨false⟩ → Ext (Clean p) ∈ supportedExtensions →
        Clean p ∈ files) →
      pending files st < fuel →
      ∃ e st', ProcessFile w fuel p root st = some (e, st') := by
  intro fuel
  induction fuel with
  | zero => intro p st _ _ h; exact absurd h (Nat.not_lt_zero _)
  | succ n ih =>
    intro p st hst hT hlt
    by_cases hmem : Clean p ∈ st.processedFiles
    · rw [ProcessFile_succ, if_pos hmem]
      exact ⟨_, _, rfl⟩
    · apply ProcessFile_step_returns hf root n
        (fun r => w.stat (Clean r) = some ⟨false⟩ → Ext (Clean r) ∈ supportedExtensions →
          Clean r ∈ files) ih
      intro q t hloc hext
      have hq := locateFile_stable hf hst hloc
      have hstat := locateFile_ok hloc
      have hqf : q ∈ files := by
        rw [hq] at hstat hext ⊢
        exact hT hstat hext
      refine ⟨?_, fun r hr => hcl q hqf t r hr⟩
      have hlt' : pending files
          ⟨markProcessed st.processedFiles q, st.results, t⟩ < pending files st := by
        apply pending_lt (q := q)
        · intro k hk
          exact (mem_markProcessed _ _ _).2 (Or.inl hk)
        · exact hqf
        · rw [hq]; exact hmem
        · exact (mem_markProcessed _ _ _).2 (Or.inr rfl)
      omega

/-- Termination of `ProcessFile`: when the file the call settles on is in a
list closed under imports, the call returns as soon as the fuel exceeds the
length of the list by two. -/
theorem ProcessFile_returns {w : World} (hf : w.Fair) {files : List String}
    {root : String} (hcl : w.ClosedBy root files) (fuel : Nat)
    (hfuel : files.length + 2 ≤ fuel) (p : String) (st : State)
    (hp : ∀ q t, locateFile w (Clean p) st.tick = (.ok (q, ⟨false⟩), t) →
      Ext q ∈ supportedExtensions → q ∈ files) :
    ∃ e st', ProcessFile w fuel p root st = some (e, st') := by
  obtain ⟨n, rfl⟩ : ∃ n, fuel = n + 1 := ⟨fuel - 1, by omega⟩
  apply ProcessFile_step_returns hf root n
    (fun r => w.stat (Clean r) = some ⟨false⟩ → Ext (Clean r) ∈ supportedExtensions →
      Clean r ∈ files)
    (ProcessFile_returns_stable hf hcl n)
  intro q t hloc hext
  refine ⟨?_, fun r hr => hcl q (hp q t hloc hext) t r hr⟩
  have h1 : pending files ⟨markProcessed st.processedFiles q, st.results, t⟩ ≤ files.length :=
    pending_le_length _ _
  omega

/-- Termination for a path whose cleaned form exists. -/
theorem ProcessFile_returns_of_stat {w : World} (hf : w.Fair) {files : List String}
    {root : String} (hcl : w.ClosedBy root files) (fuel : Nat)
    (hfuel : files.length + 2 ≤ fuel) (p : String) (st : State) {info : FileInfo}
    (hs : w.stat (Clean p) = some info) (hmem : Clean p ∈ files) :
    ∃ e st', ProcessFile w fuel p root st = some (e, st') := by
  apply ProcessFile_returns hf hcl fuel hfuel p st
  intro q t hloc _
  rw [locateFile_of_stat _ hs] at hloc
  simp only [Prod.mk.injEq, Except.ok.injEq] at hloc
  rw [← hloc.1.1]
  exact hmem

/-! ### More fuel does not change a result -/

theorem processImports_congr {f g : String → State → Option (Option GoError × State)}
    (h : ∀ p s r, f p s = some r → g p s = some r) :
    ∀ (l : List String) (st st' : State), processImports f l st = some st' →
      processImports g l st = some st' := by
  intro l
  induction l with
  | nil => intro st st' hh; exact hh
  | cons x xs ih =>
    intro st st' hh
    simp only [processImports] at hh ⊢
    split at hh
    · simp at hh
    · next e s1 h1 =>
      rw [h x st _ h1]
      exact ih _ _ hh

theorem ProcessFile_fuel_succ (w : World) (root : String) :
    ∀ fuel p st r, ProcessFile w fuel p root st = some r →
      ProcessFile w (fuel + 1) p root st = some r := by
  intro fuel
  induction fuel with
  | zero => intro p st r h; simp [ProcessFile] at h
  | succ n ih =>
    intro p st r h
    rw [ProcessFile_succ] at h ⊢
    split
    · next hm => rw [if_pos hm] at h; exact h
    · next hm =>
      rw [if_neg hm] at h
      split
      · next err t hloc => rw [hloc] at h; exact h
      · next q info t hloc =>
        rw [hloc] at h
        dsimp only at h
        split
        · next hd => rw [if_pos hd] at h; exact h
        · next hd =>
          rw [if_neg hd] at h
          split
          · next he => rw [if_pos he] at h; exact h
          · next he =>
            rw [if_neg he] at h
            split
            · next hr => rw [hr] at h; exact h
            · next content hr =>
              rw [hr] at h
              dsimp only at h
              split at h
              · simp at h
              · next st2 hpi =>
                rw [processImports_congr (fun p s r hh => ih p s r hh) _ _ _ hpi]
                exact h

theorem ProcessFile_fuel_mono (w : World) (root : String) {fuel fuel' : Nat}
    (hle : fuel ≤ fuel') {p : String} {st : State} {r : Option GoError × State}
    (h : ProcessFile w fuel p root st = some r) : ProcessFile w fuel' p root st = some r := by
  induction hle with
  | refl => exact h
  | step _ ih => exact ProcessFile_fuel_succ w root _ _ _ _ ih

/-! ### Listed worlds -/

theorem listedWorld_fair (fs : List (String × FsEntry)) (cwd : String) :
    (listedWorld fs cwd (fun _ => supportedExtensions)).Fair := fun _ => List.Perm.refl _

theorem listedWorld_stat_mem {fs : List (String × FsEntry)} {cwd : String}
    {order : Nat → List String} {p : String} {info : FileInfo}
    (hs : (listedWorld fs cwd order).stat p = some info) : p ∈ keys fs := by
  apply (mem_keys_iff fs p).2
  cases h : mapGet fs p with
  | none =>
    have : (listedWorld fs cwd order).stat p = none := by
      show (mapGet fs p).map FsEntry.info = none
      rw [h]; rfl
    rw [this] at hs
    cases hs
  | some v => exact ⟨v, rfl⟩

theorem listedWorld_closed (fs : List (String × FsEntry)) (cwd : String)
    (order : Nat → List String) (root : String) :
    (listedWorld fs cwd order).ClosedBy root (keys fs) :=
  fun _ _ _ _ _ hs _ => listedWorld_stat_mem hs

theorem cwdWorld_fair (fs : List (String × FsEntry)) (cwd : String) :
    (cwdWorld fs cwd (fun _ => supportedExtensions)).Fair := fun _ => List.Perm.refl _

/-- The three source files of `fsLocked` are closed under imports, also in a
world that follows a path however it is spelled. -/
theorem worldLockedCwd_closed :
    worldLockedCwd.ClosedBy "/p" ["/p/a.js", "/p/locked.js", "/p/ok.js"] := by
  intro q hq t r hr hs he
  simp only [List.mem_cons, List.mem_singleton, List.not_mem_nil, or_false] at hq
  rcases hq with rfl | rfl | rfl
  · have himp : (importsOf worldLockedCwd "/p/a.js" "/p" t).1
        = ["/p/gone", "/p/locked.js", "/p/ok.js"] := rfl
    rw [himp] at hr
    simp only [List.mem_cons, List.mem_singleton, List.not_mem_nil, or_false] at hr
    rcases hr with rfl | rfl | rfl
    · exact absurd hs (by decide)
    · decide
    · decide
  · have himp : (importsOf worldLockedCwd "/p/locked.js" "/p" t).1 = [] := rfl
    rw [himp] at hr
    simp at hr
  · have himp : (importsOf worldLockedCwd "/p/ok.js" "/p" t).1 = [] := rfl
    rw [himp] at hr
    simp at hr

/-- The source file of `fsSkips` is closed under imports: its one import is
a directory. -/
theorem worldSkipsCwd_closed : worldSkipsCwd.ClosedBy "/p" ["/p/a.js"] := by
  intro q hq t r hr hs he
  simp only [List.mem_singleton] at hq
  subst hq
  have himp : (importsOf worldSkipsCwd "/p/a.js" "/p" t).1 = ["/p/lib"] := rfl
  rw [himp] at hr
  simp only [List.mem_singleton] at hr
  subst hr
  exact absurd hs (by decide)

/-! ### Frame properties of a call -/

theorem Reachable.inv {w : World} {st : State} (h : Reachable w st) : Inv w st := by
  induction h with
  | init t => exact Inv_empty w t
  | step _ hrun ih => exact (ProcessFile_inv w _ _ _ _ _ _ hrun).1 ih

/-- A call of `ProcessFile` on a path whose cleaned form is a regular file
with a supported extension leaves that path in `processedFiles`. -/
theorem ProcessFile_marks {w : World} {root p : String} {fuel : Nat} {st st' : State}
    {e : Option GoError} (hrun : ProcessFile w fuel p root st = some (e, st'))
    (hs : w.stat (Clean p) = some ⟨false⟩) (he : Ext (Clean p) ∈ supportedExtensions) :
    Clean p ∈ st'.processedFiles := by
  cases fuel with
  | zero => simp [ProcessFile] at hrun
  | succ n =>
    by_cases hm : Clean p ∈ st.processedFiles
    · exact (ProcessFile_inv w root _ p st e st' hrun).2 _ hm
    · rw [ProcessFile_succ, if_neg hm, locateFile_of_stat _ hs] at hrun
      simp only [Bool.false_eq_true, if_false, he, not_true_eq_false] at hrun
      split at hrun
      · simp only [Option.some.injEq, Prod.mk.injEq] at hrun
        rw [← hrun.2]
        exact (mem_markProcessed _ _ _).2 (Or.inr rfl)
      · split at hrun
        · simp at hrun
        · next st2 hpi =>
          simp only [Option.some.injEq, Prod.mk.injEq] at hrun
          rw [← hrun.2]
          have := processImports_rel
            (R := fun a b : State => ∀ k, k ∈ a.processedFiles → k ∈ b.processedFiles)
            (fun _ _ hk => hk) (fun a b c hab hbc k hk => hbc k (hab k hk))
            (fun p s e s' hh => (ProcessFile_inv w root n p s e s' hh).2) _ _ _ hpi
          exact this _ ((mem_markProcessed _ _ _).2 (Or.inr rfl))

/-- A call of `ProcessFile` on a path whose cleaned form is a readable
regular file with a supported extension returns `nil`. -/
theorem ProcessFile_nil_of_file {w : World} {root p : String} {fuel : Nat} {st st' : State}
    {e : Option GoError} {c : String} (hrun : ProcessFile w fuel p root st = some (e, st'))
    (hs : w.stat (Clean p) = some ⟨false⟩) (hr : w.readFile (Clean p) = some c) : e = none := by
  cases fuel with
  | zero => simp [ProcessFile] at hrun
  | succ n =>
    by_cases hm : Clean p ∈ st.processedFiles
    · rw [ProcessFile_succ, if_pos hm] at hrun
      simp only [Option.some.injEq, Prod.mk.injEq] at hrun
      exact hrun.1.symm
    · rw [ProcessFile_succ, if_neg hm, locateFile_of_stat _ hs] at hrun
      simp only [Bool.false_eq_true, if_false, hr] at hrun
      split at hrun
      · simp only [Option.some.injEq, Prod.mk.injEq] at hrun
        exact hrun.1.symm
      · split at hrun
        · simp at hrun
        · simp only [Option.some.injEq, Prod.mk.injEq] at hrun
          exact hrun.1.symm

theorem count_keys_eq_one {β : Type} {m : List (String × β)} {k : String}
    (hn : (keys m).Nodup) (hk : k ∈ keys m) : (keys m).count k = 1 :=
  List.count_eq_one_of_mem hn hk

/-- A call of `ProcessFile` keeps every entry of `results` that holds the
content of its file. -/
theorem ProcessFile_keeps (w : World) (root : String) (fuel : Nat) (p : String) (st : State)
    (e : Option GoError) (st' : State) (h : ProcessFile w fuel p root st = some (e, st')) :
    ∀ k c, w.readFile k = some c → mapGet st.results k = some c →
      mapGet st'.results k = some c := by
  refine ProcessFile_rel w root
    (fun a b => ∀ k c, w.readFile k = some c → mapGet a.results k = some c →
      mapGet b.results k = some c) ?_ ?_ ?_ ?_ ?_ fuel p st e st' h
  · intro a k c _ hk; exact hk
  · intro a b c hab hbc k v hr hk; exact hbc k v hr (hab k v hr hk)
  · intro a t k c _ hk; exact hk
  · intro a q t _ _ _ k c _ hk; exact hk
  · intro a q t content _ _ hr k c hrk hk
    show mapGet (mapSet a.results q content) k = some c
    rw [mapGet_mapSet]
    by_cases hqk : q = k
    · subst hqk
      rw [if_pos rfl, ← hr, hrk]
    · rw [if_neg hqk]; exact hk

/-- What a call does once `locateFile` has settled on the regular file `q`
with a supported extension: `q` is marked as processed; when `q` can be read
the call returns `nil` and `results` maps `q` to its content; when it can
not, the read error is returned. -/
theorem ProcessFile_located {w : World} {root p q : String} {fuel t : Nat} {st st' : State}
    {e : Option GoError} (hrun : ProcessFile w fuel p root st = some (e, st'))
    (hm : Clean p ∉ st.processedFiles)
    (hloc : locateFile w (Clean p) st.tick = (.ok (q, ⟨false⟩), t))
    (he : Ext q ∈ supportedExtensions) :
    q ∈ st'.processedFiles ∧
      (∀ c, w.readFile q = some c → e = none ∧ mapGet st'.results q = some c) ∧
      (w.readFile q = none → e = some (.readFailed q)) := by
  cases fuel with
  | zero => simp [ProcessFile] at hrun
  | succ n =>
    rw [ProcessFile_succ, if_neg hm, hloc] at hrun
    simp only [Bool.false_eq_true, if_false, he, not_true_eq_false] at hrun
    split at hrun
    · next hr =>
      simp only [Option.some.injEq, Prod.mk.injEq] at hrun
      rw [← hrun.2, ← hrun.1]
      refine ⟨(mem_markProcessed _ _ _).2 (Or.inr rfl), ?_, fun _ => rfl⟩
      intro c hc
      rw [hr] at hc
      cases hc
    · next content hr =>
      split at hrun
      · simp at hrun
      · next st2 hpi =>
        simp only [Option.some.injEq, Prod.mk.injEq] at hrun
        rw [← hrun.2, ← hrun.1]
        refine ⟨?_, ?_, ?_⟩
        · have := processImports_rel
            (R := fun a b : State => ∀ k, k ∈ a.processedFiles → k ∈ b.processedFiles)
            (fun _ _ hk => hk) (fun a b c hab hbc k hk => hbc k (hab k hk))
            (fun p s e s' hh => (ProcessFile_inv w root n p s e s' hh).2) _ _ _ hpi
          exact this _ ((mem_markProcessed _ _ _).2 (Or.inr rfl))
        · intro c hc
          refine ⟨rfl, ?_⟩
          have := processImports_rel
            (R := fun a b : State => ∀ k c, w.readFile k = some c →
              mapGet a.results k = some c → mapGet b.results k = some c)
            (fun _ _ _ _ hk => hk) (fun a b c hab hbc k v hr hk => hbc k v hr (hab k v hr hk))
            (fun p s e s' hh => ProcessFile_keeps w root n p s e s' hh) _ _ _ hpi
          apply this q c hc
          show mapGet (mapSet st.results q content) q = some c
          rw [mapGet_mapSet, if_pos rfl, ← hr, hc]
        · intro hn
          rw [hr] at hn
          cases hn

/-! ### Claims C2, C5, C6, C8 -/

/-- A path whose cleaned form is a directory, or a file with an extension
outside `supportedExtensions`, is skipped: `nil`, and the state as it was. -/
theorem ProcessFile_skip (w : World) (p root : String) (st : State) (fuel : Nat)
    (info : FileInfo) (hs : w.stat (Clean p) = some info)
    (h : info.isDir = true ∨ Ext (Clean p) ∉ supportedExtensions) :
    ProcessFile w (fuel + 1) p root st = some (none, st) := by
  rw [ProcessFile_succ]
  split
  · rfl
  · rw [locateFile_of_stat _ hs]
    dsimp only
    rcases h with h | h
    · rw [if_pos h]
    · split
      · rfl
      · rfl

/-- C6 (silent skips): when the cleaned path is an existing directory, or an
existing file whose extension is not in `supportedExtensions`, `ProcessFile`
returns `nil` and leaves the whole state, `results` and `processedFiles`
included, as it was. -/
theorem C6_silent_skips (w : World) (p root : String) (st : State) (fuel : Nat)
    (info : FileInfo) (hs : w.stat (Clean p) = some info)
    (h : info.isDir = true ∨ Ext (Clean p) ∉ supportedExtensions) :
    ProcessFile w (fuel + 1) p root st = some (none, st) :=
  ProcessFile_skip w p root st fuel info hs h

theorem C6_silent_skips_witness :
    ProcessFile (listedWorld fsSkips "/p" (fun _ => supportedExtensions)) 1 "/p/lib" "/p"
        ⟨[], [], 0⟩ = some (none, ⟨[], [], 0⟩) ∧
      ProcessFile (listedWorld fsSkips "/p" (fun _ => supportedExtensions)) 1 "/p/logo.png" "/p"
        ⟨[], [], 0⟩ = some (none, ⟨[], [], 0⟩) :=
  ⟨C6_silent_skips _ "/p/lib" "/p" ⟨[], [], 0⟩ 0 ⟨true⟩ (by decide) (Or.inl rfl),
   C6_silent_skips _ "/p/logo.png" "/p" ⟨[], [], 0⟩ 0 ⟨false⟩ (by decide) (Or.inr (by decide))⟩

/-- A missing path that extension completion does not rescue: `file not
found`, with `results` and `processedFiles` as they were. -/
theorem ProcessFile_not_found {w : World} (hf : w.Fair) (p root : String) (st : State)
    (hnp : Clean p ∉ st.processedFiles) (hs : w.stat (Clean p) = none)
    (h : Ext (Clean p) ≠ "" ∨
      ∀ ext, ext ∈ supportedExtensions → w.stat (Clean p ++ ext) = none) (fuel : Nat) :
    ∃ st', ProcessFile w (fuel + 1) p root st = some (some (.fileNotFound (Clean p)), st') ∧
      st'.results = st.results ∧ st'.processedFiles = st.processedFiles := by
  rw [ProcessFile_succ, if_neg hnp, locateFile_of_missing _ hs]
  by_cases hext : Ext (Clean p) = ""
  · rw [if_pos hext]
    have hall : ∀ ext, ext ∈ supportedExtensions → w.stat (Clean p ++ ext) = none := by
      rcases h with h | h
      · exact absurd hext h
      · exact h
    rw [probeExt_of_all_none (fun ext hm => hall ext ((hf.mem_iff _ _).1 hm))]
    exact ⟨_, rfl, rfl, rfl⟩
  · rw [if_neg hext]
    exact ⟨_, rfl, rfl, rfl⟩

/-- Processing a stable path a second time changes neither `results` nor
`processedFiles`. -/
theorem ProcessFile_twice {w : World} (hf : w.Fair) (root p : String) (st st1 : State)
    (fuel : Nat) (e1 : Option GoError) (hstable : Stable w p)
    (hrun : ProcessFile w fuel p root st = some (e1, st1)) :
    ∃ e2 st2, ProcessFile w fuel p root st1 = some (e2, st2) ∧
      st2.results = st1.results ∧ st2.processedFiles = st1.processedFiles := by
  obtain ⟨n, rfl⟩ : ∃ n, fuel = n + 1 := by
    cases fuel with
    | zero => simp [ProcessFile] at hrun
    | succ n => exact ⟨n, rfl⟩
  by_cases hm1 : Clean p ∈ st1.processedFiles
  · exact ⟨none, st1, by rw [ProcessFile_succ, if_pos hm1], rfl, rfl⟩
  · have hm : Clean p ∉ st.processedFiles :=
      fun h => hm1 ((ProcessFile_inv w root _ p st e1 st1 hrun).2 _ h)
    cases hs : w.stat (Clean p) with
    | some info =>
      by_cases hskip : info.isDir = true ∨ Ext (Clean p) ∉ supportedExtensions
      · exact ⟨none, st1, ProcessFile_skip w p root st1 n info hs hskip, rfl, rfl⟩
      · exfalso
        rw [not_or, not_not] at hskip
        have hinfo : info = ⟨false⟩ := by
          cases info with
          | mk d =>
            have := hskip.1
            simp only [Bool.not_eq_true] at this
            simp [this]
        rw [hinfo] at hs
        exact hm1 (ProcessFile_marks hrun hs hskip.2)
    | none =>
      have hnf : Ext (Clean p) ≠ "" ∨
          ∀ ext, ext ∈ supportedExtensions → w.stat (Clean p ++ ext) = none := by
        by_cases hext : Ext (Clean p) = ""
        · exact Or.inr (hstable hs hext)
        · exact Or.inl hext
      obtain ⟨st2, h2, hr2, hp2⟩ := ProcessFile_not_found hf p root st1 hm1 hs hnf n
      exact ⟨_, st2, h2, hr2, hp2⟩

/-- C2, as the code has it (idempotence): a call on a path whose cleaned
form is already in `processedFiles` returns `nil` at once and changes
nothing.  Hence processing a stable path a second time returns with
`results` and `processedFiles` as the first processing left them, and with
at most one entry for the path.  Stable are the paths that exist, the
missing paths with an extension, and every path the import loop hands to
`ProcessFile`; only a missing extension-less path that extension completion
completes is not.  A readable regular file with a supported extension has
exactly one entry after the first processing, holding its content, and the
second call on it is the immediate `nil`. -/
theorem C2_idempotence (w : World) (hf : w.Fair) (root : String) :
    (∀ p st fuel, Clean p ∈ st.processedFiles →
      ProcessFile w (fuel + 1) p root st = some (none, st)) ∧
    (∀ p st fuel e1 st1, Inv w st → Stable w p →
      ProcessFile w fuel p root st = some (e1, st1) →
      (keys st1.results).count (Clean p) ≤ 1 ∧
      ∃ e2 st2, ProcessFile w fuel p root st1 = some (e2, st2) ∧
        st2.results = st1.results ∧ st2.processedFiles = st1.processedFiles) ∧
    (∀ p, ((w.stat (Clean p)).isSome = true ∨ Ext (Clean p) ≠ "") → Stable w p) ∧
    (∀ q t r, r ∈ (importsOf w q root t).1 → Stable w r) ∧
    (∀ p st c fuel e1 st1, Inv w st → w.stat (Clean p) = some ⟨false⟩ →
      Ext (Clean p) ∈ supportedExtensions → w.readFile (Clean p) = some c →
      ProcessFile w fuel p root st = some (e1, st1) →
      e1 = none ∧ (keys st1.results).count (Clean p) = 1 ∧
        mapGet st1.results (Clean p) = some c ∧
        ProcessFile w fuel p root st1 = some (none, st1)) := by
  have h1 : ∀ p st fuel, Clean p ∈ st.processedFiles →
      ProcessFile w (fuel + 1) p root st = some (none, st) := by
    intro p st fuel hm
    rw [ProcessFile_succ, if_pos hm]
  refine ⟨h1, ?_, ?_, ?_, ?_⟩
  · intro p st fuel e1 st1 hinv hstable hrun
    have hinv1 : Inv w st1 := (ProcessFile_inv w root fuel p st _ st1 hrun).1 hinv
    exact ⟨List.nodup_iff_count_le_one.1 hinv1.keys_nodup _,
      ProcessFile_twice hf root p st st1 fuel e1 hstable hrun⟩
  · rintro p (h | h) hnone hext
    · rw [hnone] at h
      exact absurd h (by simp)
    · exact absurd hext h
  · intro q t r hr
    exact importsOf_stable hf q root t r hr
  · intro p st c fuel e1 st1 hinv hs he hr hrun
    have henil : e1 = none := ProcessFile_nil_of_file hrun hs hr
    subst henil
    have hinv1 : Inv w st1 := (ProcessFile_inv w root fuel p st _ st1 hrun).1 hinv
    have hmem : Clean p ∈ st1.processedFiles := ProcessFile_marks hrun hs he
    have hget : mapGet st1.results (Clean p) = some c := hinv1.processed_read _ hmem c hr
    refine ⟨rfl, ?_, hget, ?_⟩
    · exact count_keys_eq_one hinv1.keys_nodup ((mem_keys_iff _ _).2 ⟨c, hget⟩)
    · obtain ⟨n, rfl⟩ : ∃ n, fuel = n + 1 := by
        cases fuel with
        | zero => simp [ProcessFile] at hrun
        | succ n => exact ⟨n, rfl⟩
      exact h1 p st1 n hmem

/-- C2 fails as stated: `/p/a` is missing and `/p/a.js` and `/p/a.ts` both
exist.  The first processing of `/p/a` settles on `/p/a.js` and enters that
path, not `/p/a`, in `processedFiles`; so the second processing of `/p/a`
completes it afresh and, this iteration meeting `.ts` first, adds an entry
for `/p/a.ts`. -/
theorem C2_counterexample :
    worldTwoExt.Fair ∧
    Clean "/p/a" = "/p/a" ∧
    ProcessFile worldTwoExt 2 "/p/a" "/p" ⟨[], [], 0⟩ =
      some (none, ⟨["/p/a.js"], [("/p/a.js", "export const a = 1\n")], 1⟩) ∧
    ProcessFile worldTwoExt 2 "/p/a" "/p"
        ⟨["/p/a.js"], [("/p/a.js", "export const a = 1\n")], 1⟩ =
      some (none, ⟨["/p/a.js", "/p/a.ts"],
        [("/p/a.js", "export const a = 1\n"), ("/p/a.ts", "export const a: number = 1\n")],
        2⟩) := by
  refine ⟨?_, by decide, by decide, by decide⟩
  intro n
  show (orderTwoExt n).Perm supportedExtensions
  unfold orderTwoExt
  split
  · exact List.Perm.refl _
  · exact (List.perm_cons_erase (by decide)).symm

/-- C8, as the code has it: in every state a run reaches from the empty
state, a path is a key of `results` exactly when it is in `processedFiles`
and its content could be read, and every path in `processedFiles` is a
non-directory with an extension in `supportedExtensions`. -/
theorem C8_result_visited_invariant (w : World) (st : State) (h : Reachable w st) :
    (∀ k, k ∈ keys st.results ↔ (k ∈ st.processedFiles ∧ (w.readFile k).isSome)) ∧
    (∀ k, k ∈ st.processedFiles →
      w.stat k = some ⟨false⟩ ∧ Ext k ∈ supportedExtensions) := by
  have hinv := h.inv
  refine ⟨?_, hinv.processed_file⟩
  intro k
  constructor
  · intro hk
    refine ⟨hinv.keys_processed k hk, ?_⟩
    obtain ⟨v, hv⟩ := (mem_keys_iff _ _).1 hk
    rw [hinv.results_content k v hv]
    rfl
  · rintro ⟨hk, hr⟩
    obtain ⟨c, hc⟩ := Option.isSome_iff_exists.1 hr
    exact (mem_keys_iff _ _).2 ⟨c, hinv.processed_read k hk c hc⟩

/-- C8 fails as stated: a file that exists but can not be read ends up in
`processedFiles` without becoming a key of `results`. -/
theorem C8_counterexample :
    ProcessFile (listedWorld fsUnreadable "/p" (fun _ => supportedExtensions)) 1 "/p/a.js" "/p"
        ⟨[], [], 0⟩ = some (some (.readFailed "/p/a.js"), ⟨["/p/a.js"], [], 0⟩) ∧
      "/p/a.js" ∈ (["/p/a.js"] : List String) ∧
      "/p/a.js" ∉ keys ([] : List (String × String)) := by
  decide

set_option maxRecDepth 100000 in
theorem C2_idempotence_witness :
    ∃ e2 st2, ProcessFile worldSkipsCwd 3 "/p/a.js" "/p"
        ⟨["/p/a.js"], [("/p/a.js", "import './lib'\n")], 1⟩ = some (e2, st2) ∧
      st2.results = [("/p/a.js", "import './lib'\n")] ∧ st2.processedFiles = ["/p/a.js"] :=
  ((C2_idempotence worldSkipsCwd (cwdWorld_fair _ _) "/p").2.1 "/p/a.js" ⟨[], [], 0⟩ 3 none
    ⟨["/p/a.js"], [("/p/a.js", "import './lib'\n")], 1⟩ (Inv_empty _ 0)
    (fun h => absurd h (by decide)) (by decide)).2

theorem C8_result_visited_invariant_witness :
    (∀ k, k ∈ keys [("/p/a.js", "import './lib'\n")] ↔
      (k ∈ ["/p/a.js"] ∧
        ((listedWorld fsSkips "/p" (fun _ => supportedExtensions)).readFile k).isSome)) ∧
    (∀ k, k ∈ ["/p/a.js"] →
      (listedWorld fsSkips "/p" (fun _ => supportedExtensions)).stat k = some ⟨false⟩ ∧
        Ext k ∈ supportedExtensions) :=
  C8_result_visited_invariant (listedWorld fsSkips "/p" (fun _ => supportedExtensions))
    ⟨["/p/a.js"], [("/p/a.js", "import './lib'\n")], 1⟩
    (@Reachable.step _ _ _ 2 "/p/a.js" "/p" none (Reachable.init 0) (by decide))

/-- C5 (missing file): let the cleaned path be neither processed nor
existing.  If it has an extension, or exists with no supported extension
appended, `ProcessFile` fails with `file not found` and leaves `results` and
`processedFiles` as they were.  If it has no extension and exists with some
supported extension appended, `ProcessFile` settles on one such completed
path and goes on with it: when the files that imports lead to from there are
finitely many (they are in a list closed under imports), the call returns,
not with `file not found`, and a completed path that is a regular file is in
`processedFiles` afterwards and, when it can be read, the call returns `nil`
and `results` holds its content. -/
theorem C5_missing_file (w : World) (hf : w.Fair) (p root : String) (st : State)
    (hnp : Clean p ∉ st.processedFiles) (hs : w.stat (Clean p) = none) :
    ((Ext (Clean p) ≠ "" ∨ ∀ ext, ext ∈ supportedExtensions → w.stat (Clean p ++ ext) = none) →
      ∀ fuel, ∃ st', ProcessFile w (fuel + 1) p root st
          = some (some (.fileNotFound (Clean p)), st') ∧
        st'.results = st.results ∧ st'.processedFiles = st.processedFiles) ∧
    (Ext (Clean p) = "" →
      (∃ ext, ext ∈ supportedExtensions ∧ (w.stat (Clean p ++ ext)).isSome) →
      ∃ ext info, ext ∈ supportedExtensions ∧ w.stat (Clean p ++ ext) = some info ∧
        locateFile w (Clean p) st.tick = (.ok (Clean p ++ ext, info), st.tick + 1) ∧
        ∀ files, w.ClosedBy root files → (info.isDir = false → Clean p ++ ext ∈ files) →
          ∀ fuel, files.length + 2 ≤ fuel →
          ∃ e st', ProcessFile w fuel p root st = some (e, st') ∧
            e ≠ some (.fileNotFound (Clean p)) ∧
            (info.isDir = false →
              Clean p ++ ext ∈ st'.processedFiles ∧
              ∀ c, w.readFile (Clean p ++ ext) = some c →
                e = none ∧ mapGet st'.results (Clean p ++ ext) = some c)) := by
  constructor
  · intro h fuel
    exact ProcessFile_not_found hf p root st hnp hs h fuel
  · intro hext hex
    have hloc0 := locateFile_of_missing (w := w) st.tick hs
    rw [if_pos hext] at hloc0
    cases hp : probeExt w (Clean p) (w.rangeOrder st.tick) with
    | none =>
      exfalso
      obtain ⟨ext, hm, hsome⟩ := hex
      have := probeExt_none hp ext ((hf.mem_iff _ _).2 hm)
      rw [this] at hsome
      cases hsome
    | some q =>
      obtain ⟨ext, hm, hq, hsome⟩ := probeExt_some hp
      have hsupp : ext ∈ supportedExtensions := (hf.mem_iff _ _).1 hm
      obtain ⟨info, hinfo⟩ := Option.isSome_iff_exists.1 hsome
      rw [hp] at hloc0
      simp only [hinfo] at hloc0
      subst hq
      refine ⟨ext, info, hsupp, hinfo, hloc0, ?_⟩
      intro files hcl hmemf fuel hfuel
      obtain ⟨e, st', hrun⟩ := ProcessFile_returns hf hcl fuel hfuel p st (by
        intro q t hloc _
        rw [hloc0] at hloc
        simp only [Prod.mk.injEq, Except.ok.injEq] at hloc
        rw [← hloc.1.1]
        exact hmemf (by rw [hloc.1.2]))
      refine ⟨e, st', hrun, ?_, ?_⟩
      · obtain ⟨n, rfl⟩ : ∃ n, fuel = n + 1 := ⟨fuel - 1, by omega⟩
        have hrun' := hrun
        rw [ProcessFile_succ, if_neg hnp, hloc0] at hrun'
        dsimp only at hrun'
        intro hbad
        subst hbad
        split at hrun'
        · simp at hrun'
        · split at hrun'
          · simp at hrun'
          · split at hrun'
            · simp at hrun'
            · split at hrun'
              · simp at hrun'
              · simp at hrun'
      · intro hdir
        have hinfo' : info = ⟨false⟩ := by
          cases info with
          | mk d => simp only at hdir; simp [hdir]
        subst hinfo'
        have hE : Ext (Clean p ++ ext) ∈ supportedExtensions := by
          rw [Ext_append _ _ (supported_dotExt ext hsupp)]
          exact hsupp
        obtain ⟨h1, h2, -⟩ := ProcessFile_located hrun hnp hloc0 hE
        exact ⟨h1, h2⟩

set_option maxRecDepth 100000 in
theorem C5_missing_file_witness :
    (∀ fuel, ∃ st', ProcessFile worldSkipsCwd (fuel + 1) "/p/zzz.js" "/p" ⟨[], [], 0⟩
          = some (some (.fileNotFound (Clean "/p/zzz.js")), st') ∧
        st'.results = [] ∧ st'.processedFiles = []) ∧
    (∃ e st', ProcessFile worldSkipsCwd 3 "/p/a" "/p" ⟨[], [], 0⟩ = some (e, st') ∧
      e ≠ some (.fileNotFound (Clean "/p/a")) ∧ "/p/a.js" ∈ st'.processedFiles ∧
      e = none ∧ mapGet st'.results "/p/a.js" = some "import './lib'\n") := by
  refine ⟨(C5_missing_file worldSkipsCwd (cwdWorld_fair _ _) "/p/zzz.js" "/p" ⟨[], [], 0⟩
      (by decide) (by decide)).1 (Or.inl (by decide)), ?_⟩
  obtain ⟨ext, info, -, -, hloc, h⟩ :=
    (C5_missing_file worldSkipsCwd (cwdWorld_fair _ _) "/p/a" "/p" ⟨[], [], 0⟩
      (by decide) (by decide)).2 (by decide) ⟨".js", by decide, by decide⟩
  have hloc' : locateFile worldSkipsCwd (Clean "/p/a") 0 = (.ok ("/p/a.js", ⟨false⟩), 0 + 1) := by
    decide
  have heq : (Clean "/p/a" ++ ext, info) = ("/p/a.js", (⟨false⟩ : FileInfo)) := by
    have := hloc.symm.trans hloc'
    simp only [Prod.mk.injEq, Except.ok.injEq] at this
    exact Prod.ext this.1.1 this.1.2
  simp only [Prod.mk.injEq] at heq
  obtain ⟨hpath, hinfo⟩ := heq
  subst hinfo
  rw [hpath] at h
  obtain ⟨e, st', hrun, hne, hrest⟩ :=
    h ["/p/a.js"] worldSkipsCwd_closed (fun _ => by decide) 3 (by decide)
  obtain ⟨hmem, hread⟩ := hrest rfl
  obtain ⟨henil, hget⟩ := hread "import './lib'\n" (by decide)
  exact ⟨e, st', hrun, hne, hmem, henil, hget⟩

/-! ### Extraction -/

theorem findAllFrom_length (re : Regexp) :
    ∀ (s : List Char) (skip : Nat), ∀ m ∈ findAllFrom re s skip, m.length = 2 := by
  intro s
  induction s with
  | nil => intro skip m hm; simp [findAllFrom] at hm
  | cons c cs ih =>
    intro skip m hm
    cases skip with
    | succ k =>
      simp only [findAllFrom] at hm
      exact ih k m hm
    | zero =>
      simp only [findAllFrom] at hm
      split at hm
      · rcases List.mem_cons.1 hm with rfl | hm
        · rfl
        · exact ih _ m hm
      · exact ih _ m hm

theorem FindAllSubmatch_length (re : Regexp) (content : String) :
    ∀ m ∈ FindAllSubmatch re content, m.length = 2 := findAllFrom_length re _ _

/-- Resolution fails only when the working directory can not be determined. -/
theorem ResolveImportPath_ok {w : World} {wd : String} (hwd : w.getwd = some wd)
    (s dir root : String) (t : Nat) :
    ∃ r t', ResolveImportPath w s dir root t = (.ok r, t') := by
  have h1 : ∃ r t', resolveImportByType w s dir root t = (.ok r, t') := by
    unfold resolveImportByType
    split
    · have : ∃ a, absPath w.getwd (Join [dir, s]) = some a := by
        unfold absPath
        split
        · exact ⟨_, rfl⟩
        · rw [hwd]; exact ⟨_, rfl⟩
      obtain ⟨a, ha⟩ := this
      rw [ha]
      exact ⟨_, _, rfl⟩
    · split
      · exact ⟨_, _, rfl⟩
      · split
        · exact ⟨_, _, rfl⟩
        · split
          · dsimp only
            split
            · exact ⟨_, _, rfl⟩
            · split <;> exact ⟨_, _, rfl⟩
          · dsimp only
            split <;> exact ⟨_, _, rfl⟩
  obtain ⟨r1, t1, hr1⟩ := h1
  unfold ResolveImportPath
  rw [hr1]
  dsimp only
  split
  · split <;> exact ⟨_, _, rfl⟩
  · split
    · exact ⟨_, _, rfl⟩
    · split <;> exact ⟨_, _, rfl⟩

/-- One match in the loop of `ExtractImports`: when the captured string
resolves, its resolved path is appended exactly when the string passes
`isLocalImport`. -/
theorem extractMatch_eq {w : World} (e dir root : String) (acc : List String × Nat)
    (m : List String) (hm : m.length = 2) {r : String} {t' : Nat}
    (hres : ResolveImportPath w (m.getD 1 "") dir root acc.2 = (.ok r, t')) :
    extractMatch w e dir root acc m =
      (if isLocalImport (m.getD 1 "") e = true then acc.1 ++ [r] else acc.1, t') := by
  unfold extractMatch
  rw [if_pos (by omega)]
  dsimp only
  rw [hres]
  dsimp only
  unfold isLocalImport
  split <;> rfl

theorem extractMatch_fold {w : World} {wd : String} (hwd : w.getwd = some wd)
    (e dir root : String) :
    ∀ (ms : List (List String)), (∀ m ∈ ms, m.length = 2) → ∀ (acc : List String × Nat),
      ∃ l, (ms.foldl (extractMatch w e dir root) acc).1 = acc.1 ++ l ∧
        List.Forall₂ (fun s r => ∃ t t', ResolveImportPath w s dir root t = (.ok r, t'))
          ((ms.map (fun m => m.getD 1 "")).filter (fun s => isLocalImport s e)) l := by
  intro ms
  induction ms with
  | nil => intro _ acc; exact ⟨[], by simp, List.Forall₂.nil⟩
  | cons m ms ih =>
    intro hms acc
    obtain ⟨r, t', hres⟩ := ResolveImportPath_ok hwd (m.getD 1 "") dir root acc.2
    have hstep := extractMatch_eq e dir root acc m (hms m (List.mem_cons_self _ _)) hres
    obtain ⟨l, hl, hrel⟩ := ih (fun x hx => hms x (List.mem_cons_of_mem _ hx))
      (extractMatch w e dir root acc m)
    rw [List.foldl_cons, hl, hstep]
    by_cases hloc : isLocalImport (m.getD 1 "") e = true
    · refine ⟨r :: l, by rw [if_pos hloc, List.append_assoc]; rfl, ?_⟩
      simp only [List.map_cons, List.filter_cons, hloc, if_true]
      exact List.Forall₂.cons ⟨_, _, hres⟩ hrel
    · refine ⟨l, by rw [if_neg hloc], ?_⟩
      simp only [List.map_cons, List.filter_cons, hloc, if_false]
      exact hrel

/-- The list `ExtractImports` returns consists of the resolved paths of
exactly those captured strings that pass `isLocalImport`, in order. -/
theorem ExtractImports_spec {w : World} {wd : String} (hwd : w.getwd = some wd)
    {p root content : String} {t t' : Nat} {imports : List String}
    (hread : w.readFile p = some content)
    (h : ExtractImports w p root t = (.ok imports, t')) :
    List.Forall₂ (fun s r => ∃ t1 t2, ResolveImportPath w s (Dir p) root t1 = (.ok r, t2))
      ((capturedStrings (Ext p) content).filter (fun s => isLocalImport s (Ext p))) imports := by
  unfold ExtractImports at h
  dsimp only at h
  unfold capturedStrings
  split at h
  · simp at h
  · next patterns hpat =>
    rw [hpat, hread] at *
    simp only [Prod.mk.injEq, Except.ok.injEq] at h
    rw [← h.1]
    have key : ∀ (pats : List Regexp) (acc : List String × Nat),
        ∃ l, (pats.foldl (fun acc pattern =>
            (FindAllSubmatch pattern content).foldl (extractMatch w (Ext p) (Dir p) root) acc)
            acc).1 = acc.1 ++ l ∧
          List.Forall₂ (fun s r => ∃ t1 t2, ResolveImportPath w s (Dir p) root t1 = (.ok r, t2))
            ((pats.flatMap (fun re => (FindAllSubmatch re content).map
              (fun m => m.getD 1 ""))).filter (fun s => isLocalImport s (Ext p))) l := by
      intro pats
      induction pats with
      | nil => intro acc; exact ⟨[], by simp, List.Forall₂.nil⟩
      | cons re res ih =>
        intro acc
        obtain ⟨l1, hl1, hrel1⟩ := extractMatch_fold hwd (Ext p) (Dir p) root
          (FindAllSubmatch re content) (FindAllSubmatch_length re content) acc
        obtain ⟨l2, hl2, hrel2⟩ := ih
          ((FindAllSubmatch re content).foldl (extractMatch w (Ext p) (Dir p) root) acc)
        refine ⟨l1 ++ l2, ?_, ?_⟩
        · rw [List.foldl_cons, hl2, hl1, List.append_assoc]
        · rw [List.flatMap_cons, List.filter_append]
          exact List.rel_append hrel1 hrel2
    obtain ⟨l, hl, hrel⟩ := key patterns ([], t)
    rw [hl]
    simpa using hrel

/-! ### Claims C7 and C10 -/

/-- C10 (local/external classification): the list `ExtractImports` returns
is made of the resolved paths of exactly those captured strings that start
with `.`, `/`, `~` or `@`, or contain no `/` and are no built-in module for
the file's extension, in the order of capture.  In a `.tsx` or `.js` file
`react` is left out and `../context/Auth` is kept, and the file of
`TestExtractImports` yields four imports. -/
theorem C10_local_external_classification (w : World) (wd : String)
    (hwd : w.getwd = some wd) (p root content : String) (t t' : Nat) (imports : List String)
    (hread : w.readFile p = some content)
    (h : ExtractImports w p root t = (.ok imports, t')) :
    List.Forall₂ (fun s r => ∃ t1 t2, ResolveImportPath w s (Dir p) root t1 = (.ok r, t2))
        ((capturedStrings (Ext p) content).filter (fun s => isLocalImport s (Ext p))) imports ∧
      (∀ s e, isLocalImport s e = true ↔
        (HasPrefix s "." = true ∨ HasPrefix s "/" = true ∨ HasPrefix s "~" = true ∨
          HasPrefix s "@" = true ∨ (ContainsSlash s = false ∧ isBuiltinModule s e = false))) ∧
      (isLocalImport "react" ".tsx" = false ∧ isLocalImport "react" ".js" = false ∧
        isLocalImport "../context/Auth" ".tsx" = true ∧
        isLocalImport "../context/Auth" ".js" = true) ∧
      (ExtractImports worldExtractTest "/tmp/x/test.js" "/tmp/x" 0).1 =
        .ok ["/tmp/context/AuthContext", "/tmp/x/lib/api/data", "/tmp/x/styles.css",
          "/tmp/x/utils"] := by
  refine ⟨ExtractImports_spec hwd hread h, ?_, by decide, by decide⟩
  intro s e
  unfold isLocalImport
  cases HasPrefix s "." <;> cases HasPrefix s "/" <;> cases HasPrefix s "~" <;>
    cases HasPrefix s "@" <;> cases ContainsSlash s <;> cases isBuiltinModule s e <;> decide

set_option maxRecDepth 100000 in
theorem C10_local_external_classification_witness :
    List.Forall₂
      (fun s r => ∃ t1 t2,
        ResolveImportPath worldExtractTest s (Dir "/tmp/x/test.js") "/tmp/x" t1 = (.ok r, t2))
      ((capturedStrings (Ext "/tmp/x/test.js")
          "\nimport React from 'react';\nimport { useState } from 'react';\nimport './styles.css';\nimport AuthContext from '../context/AuthContext';\nimport { getData } from '@/lib/api/data';\nconst utils = require('./utils');\n").filter
        (fun s => isLocalImport s (Ext "/tmp/x/test.js")))
      ["/tmp/context/AuthContext", "/tmp/x/lib/api/data", "/tmp/x/styles.css", "/tmp/x/utils"] :=
  (C10_local_external_classification worldExtractTest "/tmp/x" rfl "/tmp/x/test.js" "/tmp/x"
    _ 0 6 _ (by decide) (by decide)).1

/-- C7, as the code has it: a top-level path at which nothing exists and
which extension completion does not rescue, and a top-level regular file
with a supported extension that can not be read, make `ProcessFile` return
an error and `main` exit with code 1; a top-level directory makes
`ProcessFile` return `nil` and `main` exit with code 0 and an empty result
set. -/
theorem C7_top_level_outcomes (w : World) (hf : w.Fair) (fuel : Nat) (arg abs root : String)
    (rest : List String) (habs : absPath w.getwd arg = some abs)
    (hroot : FindProjectRoot w (fuel + 1) abs = some root) :
    ((w.stat (Clean abs) = none ∧
        (Ext (Clean abs) ≠ "" ∨
          ∀ ext, ext ∈ supportedExtensions → w.stat (Clean abs ++ ext) = none)) →
      (∃ st, ProcessFile w (fuel + 1) abs root ⟨[], [], 0⟩
          = some (some (.fileNotFound (Clean abs)), st)) ∧
        main w (fuel + 1) (arg :: rest) = some (1, none)) ∧
    ((w.stat (Clean abs) = some ⟨false⟩ ∧ Ext (Clean abs) ∈ supportedExtensions ∧
        w.readFile (Clean abs) = none) →
      (∃ st, ProcessFile w (fuel + 1) abs root ⟨[], [], 0⟩
          = some (some (.readFailed (Clean abs)), st)) ∧
        main w (fuel + 1) (arg :: rest) = some (1, none)) ∧
    (w.stat (Clean abs) = some ⟨true⟩ →
      ProcessFile w (fuel + 1) abs root ⟨[], [], 0⟩ = some (none, ⟨[], [], 0⟩) ∧
        main w (fuel + 1) (arg :: rest) = some (0, some [])) := by
  have hmain : ∀ r, ProcessFile w (fuel + 1) abs root ⟨[], [], 0⟩ = some r →
      main w (fuel + 1) (arg :: rest) =
        match r with
        | (some _, _) => some (1, none)
        | (none, st) => some (0, some st.results) := by
    intro r hr
    simp only [main, habs, hroot, hr]
    rcases r with ⟨(_ | _), _⟩ <;> rfl
  refine ⟨?_, ?_, ?_⟩
  · rintro ⟨hs, hext⟩
    obtain ⟨st', hrun, -, -⟩ :=
      ProcessFile_not_found hf abs root ⟨[], [], 0⟩ (by simp) hs hext fuel
    exact ⟨⟨st', hrun⟩, by rw [hmain _ hrun]⟩
  · rintro ⟨hs, he, hr⟩
    have hrun : ProcessFile w (fuel + 1) abs root ⟨[], [], 0⟩ =
        some (some (.readFailed (Clean abs)), ⟨markProcessed [] (Clean abs), [], 0⟩) := by
      rw [ProcessFile_succ, if_neg (by simp), locateFile_of_stat _ hs]
      simp only [Bool.false_eq_true, if_false, he, not_true_eq_false, hr]
    exact ⟨⟨_, hrun⟩, by rw [hmain _ hrun]⟩
  · intro hs
    have hrun := ProcessFile_skip w abs root ⟨[], [], 0⟩ fuel ⟨true⟩ hs (Or.inl rfl)
    exact ⟨hrun, by rw [hmain _ hrun]⟩

/-- C7 fails as stated: for a top-level directory `ProcessFile` returns `nil`
and `main` exits with code 0; so does a missing top-level path that
extension completion rescues. -/
theorem C7_counterexample :
    (listedWorld fsSkips "/p" (fun _ => supportedExtensions)).stat "/p/lib" = some ⟨true⟩ ∧
      ProcessFile (listedWorld fsSkips "/p" (fun _ => supportedExtensions)) 5 "/p/lib" "/p"
        ⟨[], [], 0⟩ = some (none, ⟨[], [], 0⟩) ∧
      main (listedWorld fsSkips "/p" (fun _ => supportedExtensions)) 5 ["/p/lib"]
        = some (0, some []) ∧
      (listedWorld fsSkips "/p" (fun _ => supportedExtensions)).stat "/p/a" = none ∧
      main (listedWorld fsSkips "/p" (fun _ => supportedExtensions)) 5 ["/p/a"]
        = some (0, some [("/p/a.js", "import './lib'\n")]) := by
  decide

theorem C7_top_level_outcomes_witness :
    main (listedWorld fsUnreadable "/p" (fun _ => supportedExtensions)) 5 ["/p/a.js"]
        = some (1, none) ∧
      main (listedWorld fsSkips "/p" (fun _ => supportedExtensions)) 5 ["/p/zzz.js"]
        = some (1, none) :=
  ⟨((C7_top_level_outcomes (listedWorld fsUnreadable "/p" (fun _ => supportedExtensions))
      (listedWorld_fair _ _) 4 "/p/a.js" "/p/a.js" "/p" [] (by decide) (by decide)).2.1
      ⟨by decide, by decide, by decide⟩).2,
   ((C7_top_level_outcomes (listedWorld fsSkips "/p" (fun _ => supportedExtensions))
      (listedWorld_fair _ _) 4 "/p/zzz.js" "/p/zzz.js" "/p" [] (by decide) (by decide)).1
      ⟨by decide, Or.inl (by decide)⟩).2⟩

/-! ### Closure under imports -/

theorem importsOf_of_ok {w : World} {q root : String} {t t' : Nat} {imports : List String}
    (h : ExtractImports w q root t = (.ok imports, t')) : importsOf w q root t = (imports, t') := by
  unfold importsOf
  rw [h]

/-- After the import loop every listed path whose cleaned form is a regular
file with a supported extension is in `processedFiles`. -/
theorem processImports_marks {w : World} {root : String} {n : Nat} :
    ∀ (l : List String) (st st' : State),
      processImports (fun p s => ProcessFile w n p root s) l st = some st' →
      ∀ r, r ∈ l → w.stat (Clean r) = some ⟨false⟩ → Ext (Clean r) ∈ supportedExtensions →
        Clean r ∈ st'.processedFiles := by
  intro l
  induction l with
  | nil => intro st st' _ r hr; simp at hr
  | cons x xs ih =>
    intro st st' h r hr hs he
    simp only [processImports] at h
    split at h
    · simp at h
    · next e st1 h1 =>
      rcases List.mem_cons.1 hr with rfl | hr
      · have hm : Clean r ∈ st1.processedFiles := ProcessFile_marks h1 hs he
        have := processImports_rel
          (R := fun a b : State => ∀ k, k ∈ a.processedFiles → k ∈ b.processedFiles)
          (fun _ _ hk => hk) (fun a b c hab hbc k hk => hbc k (hab k hk))
          (fun p s e s' hh => (ProcessFile_inv w root n p s e s' hh).2) _ _ _ h
        exact this _ hm
      · exact ih st1 st' h r hr hs he

/-- A call that processes the readable regular file at the cleaned path
leaves every import of that file which is a regular file with a supported
extension in `processedFiles`. -/
theorem ProcessFile_imports_marked {w : World} {root p c : String} {fuel : Nat}
    {st st' : State} {e : Option GoError}
    (hrun : ProcessFile w fuel p root st = some (e, st'))
    (hm : Clean p ∉ st.processedFiles) (hs : w.stat (Clean p) = some ⟨false⟩)
    (he : Ext (Clean p) ∈ supportedExtensions) (hr : w.readFile (Clean p) = some c) :
    ∀ r, r ∈ (importsOf w (Clean p) root st.tick).1 → w.stat (Clean r) = some ⟨false⟩ →
      Ext (Clean r) ∈ supportedExtensions → Clean r ∈ st'.processedFiles := by
  cases fuel with
  | zero => simp [ProcessFile] at hrun
  | succ n =>
    rw [ProcessFile_succ, if_neg hm, locateFile_of_stat _ hs] at hrun
    simp only [Bool.false_eq_true, if_false, he, not_true_eq_false, hr] at hrun
    split at hrun
    · simp at hrun
    · next st2 hpi =>
      simp only [Option.some.injEq, Prod.mk.injEq] at hrun
      rw [← hrun.2]
      exact processImports_marks _ _ _ hpi

/-! ### Claims C1 and C4 -/

/-- C4, as the code has it (best-effort traversal): for a readable regular
file `F` with a supported extension that is not yet in `processedFiles`, when
the files that imports lead to from `F` are finitely many (`F` is in a list
closed under imports), the call returns `nil` whatever the imports of `F`
resolve to, and every import of `F` whose cleaned path is a readable regular
file with a supported extension is in `results` afterwards with its content,
no matter what happened to the imports before it. -/
theorem C4_best_effort (w : World) (hf : w.Fair) (files : List String) (root : String)
    (hcl : w.ClosedBy root files) (F c : String) (hF : Clean F ∈ files) (st : State)
    (hst : Reachable w st)
    (hnp : Clean F ∉ st.processedFiles) (hs : w.stat (Clean F) = some ⟨false⟩)
    (he : Ext (Clean F) ∈ supportedExtensions) (hr : w.readFile (Clean F) = some c)
    (fuel : Nat) (hfuel : files.length + 2 ≤ fuel) :
    ∃ st', ProcessFile w fuel F root st = some (none, st') ∧
      ∀ imports t', ExtractImports w (Clean F) root st.tick = (.ok imports, t') →
        ∀ r c', r ∈ imports → w.stat (Clean r) = some ⟨false⟩ →
          Ext (Clean r) ∈ supportedExtensions → w.readFile (Clean r) = some c' →
          mapGet st'.results (Clean r) = some c' := by
  obtain ⟨e, st', hrun⟩ := ProcessFile_returns_of_stat hf hcl fuel hfuel F st hs hF
  have henil : e = none := ProcessFile_nil_of_file hrun hs hr
  subst henil
  refine ⟨st', hrun, ?_⟩
  intro imports t' hex r c' hmem hrs hre hrr
  have hinv' : Inv w st' := (ProcessFile_inv w root fuel F st _ st' hrun).1 hst.inv
  apply hinv'.processed_read _ _ c' hrr
  apply ProcessFile_imports_marked hrun hnp hs he hr r _ hrs hre
  rw [importsOf_of_ok hex]
  exact hmem

/-- C4 fails as stated: a later import that resolves to an existing file
with a supported extension is not in `results` when that file can not be
read. -/
theorem C4_counterexample :
    ProcessFile worldLocked 6 "/p/a.js" "/p" ⟨[], [], 0⟩ =
        some (none, ⟨["/p/a.js", "/p/locked.js", "/p/ok.js"],
          [("/p/a.js", "import './gone'\nimport './locked'\nimport './ok'\n"),
           ("/p/ok.js", "export {}\n")], 4⟩) ∧
      ExtractImports worldLocked "/p/a.js" "/p" 0 =
        (.ok ["/p/gone", "/p/locked.js", "/p/ok.js"], 3) ∧
      worldLocked.stat "/p/locked.js" = some ⟨false⟩ ∧
      Ext "/p/locked.js" ∈ supportedExtensions ∧
      "/p/locked.js" ∉ keys [("/p/a.js", "import './gone'\nimport './locked'\nimport './ok'\n"),
           ("/p/ok.js", "export {}\n")] := by
  decide

set_option maxRecDepth 100000 in
theorem C4_best_effort_witness :
    ∃ st', ProcessFile worldLockedCwd 5 "/p/a.js" "/p" ⟨[], [], 0⟩ = some (none, st') ∧
      ∀ imports t', ExtractImports worldLockedCwd (Clean "/p/a.js") "/p" 0 = (.ok imports, t') →
        ∀ r c', r ∈ imports → worldLockedCwd.stat (Clean r) = some ⟨false⟩ →
          Ext (Clean r) ∈ supportedExtensions → worldLockedCwd.readFile (Clean r) = some c' →
          mapGet st'.results (Clean r) = some c' :=
  C4_best_effort worldLockedCwd (cwdWorld_fair _ _) ["/p/a.js", "/p/locked.js", "/p/ok.js"] "/p"
    worldLockedCwd_closed "/p/a.js" "import './gone'\nimport './locked'\nimport './ok'\n"
    (by decide) ⟨[], [], 0⟩ (Reachable.init 0) (by decide) (by decide) (by decide) (by decide)
    5 (by decide)

/-- Cycles are cut: when the files that imports lead to from `A` are
finitely many, the imports of the supported file `A` resolve to the supported
file `B` and the imports of `B` lead back to `A`, `ProcessFile` on `A` from
the empty state returns `nil` as soon as the fuel exceeds the number of
listed files by two, and `results` then has the path of `A` and the path `B`
as keys, each once. -/
theorem ProcessFile_cycle (w : World) (hf : w.Fair) (files : List String) (root : String)
    (hcl : w.ClosedBy root files) (A B cA cB : String) (hA : Clean A ∈ files) (t0 : Nat)
    (hAs : w.stat (Clean A) = some ⟨false⟩) (hAe : Ext (Clean A) ∈ supportedExtensions)
    (hAr : w.readFile (Clean A) = some cA)
    (hBs : w.stat B = some ⟨false⟩) (hBe : Ext B ∈ supportedExtensions)
    (hBr : w.readFile B = some cB)
    (hAB : ImportsResolveTo w root (Clean A) B)
    (_hBA : Relation.TransGen (ImportsResolveTo w root) B (Clean A))
    (fuel : Nat) (hfuel : files.length + 2 ≤ fuel) :
    ∃ st', ProcessFile w fuel A root ⟨[], [], t0⟩ = some (none, st') ∧
      (keys st'.results).count (Clean A) = 1 ∧ (keys st'.results).count B = 1 := by
  obtain ⟨e, st', hrun⟩ :=
    ProcessFile_returns_of_stat hf hcl fuel hfuel A ⟨[], [], t0⟩ hAs hA
  have henil : e = none := ProcessFile_nil_of_file hrun hAs hAr
  subst henil
  have hinv' : Inv w st' := (ProcessFile_inv w root fuel A _ _ st' hrun).1 (Inv_empty w t0)
  refine ⟨st', hrun, ?_, ?_⟩
  · apply count_keys_eq_one hinv'.keys_nodup
    exact (mem_keys_iff _ _).2
      ⟨cA, hinv'.processed_read _ (ProcessFile_marks hrun hAs hAe) cA hAr⟩
  · apply count_keys_eq_one hinv'.keys_nodup
    obtain ⟨imports, t', hex, r, hmem, hrB⟩ := hAB t0
    have hB : Clean r ∈ st'.processedFiles := by
      apply ProcessFile_imports_marked hrun (by simp) hAs hAe hAr r
      · show r ∈ (importsOf w (Clean A) root t0).1
        rw [importsOf_of_ok hex]
        exact hmem
      · rw [hrB]; exact hBs
      · rw [hrB]; exact hBe
    rw [hrB] at hB
    exact (mem_keys_iff _ _).2 ⟨cB, hinv'.processed_read _ hB cB hBr⟩

theorem worldCycle_a_imports_b : ImportsResolveTo worldCycle "/p" "/p/a.js" "/p/b.js" := by
  intro t
  exact ⟨["/p/b.js"], t + 1, rfl, "/p/b.js", by simp, by decide⟩

theorem worldCycle_b_imports_a : ImportsResolveTo worldCycle "/p" "/p/b.js" "/p/a.js" := by
  intro t
  exact ⟨["/p/a.js"], t + 1, rfl, "/p/a.js", by simp, by decide⟩

set_option maxRecDepth 100000 in
/-- C1, where the code departs from it: in the project directory `/proj` the
file `a.js` imports `b.js` once by the bare name `b` and once as `./b`, and
`b.js` imports `./a`.  `ProcessFile` on `/proj/a.js` from the empty state
terminates with `nil`, but the bare name is found relative to the working
directory and recorded as `b.js`, so `results` holds two entries for the one
file `/proj/b.js`: one under `b.js` and one under `/proj/b.js`. -/
theorem C1_cycle_duplicate_entry :
    (ExtractImports worldBareCycle "/proj/a.js" "/proj" 0).1 = .ok ["b.js", "/proj/b.js"] ∧
    (ExtractImports worldBareCycle "/proj/b.js" "/proj" 0).1 = .ok ["/proj/a.js"] ∧
    (ExtractImports worldBareCycle "b.js" "/proj" 0).1 = .ok ["/proj/a.js"] ∧
    ProcessFile worldBareCycle 3 "/proj/a.js" "/proj" ⟨[], [], 0⟩ =
      some (none, ⟨["/proj/a.js", "b.js", "/proj/b.js"],
        [("/proj/a.js", "import x from 'b'\nimport y from './b'\n"),
         ("b.js", "import z from './a'\n"), ("/proj/b.js", "import z from './a'\n")], 4⟩) ∧
    worldBareCycle.getwd = some "/proj" ∧
    absPath worldBareCycle.getwd "b.js" = some "/proj/b.js" ∧
    absPath worldBareCycle.getwd "/proj/b.js" = some "/proj/b.js" := by
  decide

/-! ### Claim C3 -/

/-- A call on a readable regular file with a supported extension whose
extraction yields no import returns `nil` and adds at most that file to
`processedFiles`. -/
theorem ProcessFile_leaf {w : World} {root g c : String} (n : Nat) (st : State)
    (hs : w.stat (Clean g) = some ⟨false⟩) (he : Ext (Clean g) ∈ supportedExtensions)
    (hr : w.readFile (Clean g) = some c)
    (hleaf : ∀ t, ∃ t', ExtractImports w (Clean g) root t = (.ok [], t')) :
    ∃ st', ProcessFile w (n + 1) g root st = some (none, st') ∧
      ∀ k, k ∈ st'.processedFiles ↔ (k ∈ st.processedFiles ∨ k = Clean g) := by
  by_cases hm : Clean g ∈ st.processedFiles
  · refine ⟨st, by rw [ProcessFile_succ, if_pos hm], ?_⟩
    intro k
    constructor
    · exact Or.inl
    · rintro (h | rfl)
      · exact h
      · exact hm
  · obtain ⟨t', ht'⟩ := hleaf st.tick
    rw [ProcessFile_succ, if_neg hm, locateFile_of_stat _ hs]
    simp only [Bool.false_eq_true, if_false, he, not_true_eq_false, hr, importsOf_of_ok ht',
      processImports]
    exact ⟨_, rfl, fun k => mem_markProcessed _ _ k⟩

theorem processImports_leaves {w : World} {root : String} (n : Nat) :
    ∀ (gs : List String) (st : State),
      (∀ g, g ∈ gs → w.stat (Clean g) = some ⟨false⟩ ∧ Ext (Clean g) ∈ supportedExtensions ∧
        (∃ c, w.readFile (Clean g) = some c) ∧
        ∀ t, ∃ t', ExtractImports w (Clean g) root t = (.ok [], t')) →
      ∃ st', processImports (fun p s => ProcessFile w (n + 1) p root s) gs st = some st' ∧
        ∀ k, k ∈ st'.processedFiles ↔ (k ∈ st.processedFiles ∨ ∃ g, g ∈ gs ∧ k = Clean g) := by
  intro gs
  induction gs with
  | nil =>
    intro st _
    exact ⟨st, rfl, fun k => by simp⟩
  | cons g gs ih =>
    intro st hgs
    obtain ⟨hs, he, ⟨c, hr⟩, hleaf⟩ := hgs g (List.mem_cons_self _ _)
    obtain ⟨st1, h1, hk1⟩ := ProcessFile_leaf n st hs he hr hleaf
    obtain ⟨st2, h2, hk2⟩ := ih st1 (fun x hx => hgs x (List.mem_cons_of_mem _ hx))
    refine ⟨st2, by simp only [processImports, h1, h2], ?_⟩
    intro k
    rw [hk2, hk1]
    constructor
    · rintro ((h | rfl) | ⟨x, hx, rfl⟩)
      · exact Or.inl h
      · exact Or.inr ⟨g, List.mem_cons_self _ _, rfl⟩
      · exact Or.inr ⟨x, List.mem_cons_of_mem _ hx, rfl⟩
    · rintro (h | ⟨x, hx, rfl⟩)
      · exact Or.inl (Or.inl h)
      · rcases List.mem_cons.1 hx with rfl | hx
        · exact Or.inl (Or.inr rfl)
        · exact Or.inr ⟨x, hx, rfl⟩

/-- C3 (end-to-end closure): let `F` be a readable regular file with a
supported extension whose extraction yields the paths `gs`, each of them
cleaning to a readable regular file with a supported extension whose own
extraction yields nothing.  Then `ProcessFile` on `F` from the empty state
returns `nil` with any fuel of at least two, the keys of `results` are
exactly `F` and the files of `gs`, every key is mapped to the content of its
file, and the number of entries is the number of distinct files among them. -/
theorem C3_end_to_end (w : World) (root F cF : String) (gs : List String) (t0 : Nat)
    (hs : w.stat (Clean F) = some ⟨false⟩) (he : Ext (Clean F) ∈ supportedExtensions)
    (hr : w.readFile (Clean F) = some cF)
    (himp : ∀ t, ∃ t', ExtractImports w (Clean F) root t = (.ok gs, t'))
    (hgs : ∀ g, g ∈ gs → w.stat (Clean g) = some ⟨false⟩ ∧
      Ext (Clean g) ∈ supportedExtensions ∧ (∃ c, w.readFile (Clean g) = some c) ∧
      ∀ t, ∃ t', ExtractImports w (Clean g) root t = (.ok [], t'))
    (fuel : Nat) (hfuel : 2 ≤ fuel) :
    ∃ st', ProcessFile w fuel F root ⟨[], [], t0⟩ = some (none, st') ∧
      (∀ k, k ∈ keys st'.results ↔ (k = Clean F ∨ ∃ g, g ∈ gs ∧ k = Clean g)) ∧
      (∀ k, k ∈ keys st'.results → mapGet st'.results k = w.readFile k) ∧
      st'.results.length = ((Clean F :: gs.map Clean).dedup).length := by
  obtain ⟨n, rfl⟩ : ∃ n, fuel = n + 2 := ⟨fuel - 2, by omega⟩
  obtain ⟨t', ht'⟩ := himp t0
  obtain ⟨st', hloop, hk⟩ := @processImports_leaves w root n gs
    ⟨markProcessed [] (Clean F), mapSet [] (Clean F) cF, t'⟩ hgs
  have hrun : ProcessFile w (n + 2) F root ⟨[], [], t0⟩ = some (none, st') := by
    rw [ProcessFile_succ, if_neg (by simp), locateFile_of_stat _ hs]
    simp only [Bool.false_eq_true, if_false, he, not_true_eq_false, hr, importsOf_of_ok ht',
      hloop]
  have hinv : Inv w st' := (ProcessFile_inv w root _ F _ _ st' hrun).1 (Inv_empty w t0)
  have hproc : ∀ k, k ∈ st'.processedFiles ↔ (k = Clean F ∨ ∃ g, g ∈ gs ∧ k = Clean g) := by
    intro k
    rw [hk]
    simp only [mem_markProcessed, List.not_mem_nil, false_or]
  have hread : ∀ k, k ∈ st'.processedFiles → ∃ c, w.readFile k = some c := by
    intro k hkm
    rcases (hproc k).1 hkm with rfl | ⟨g, hg, rfl⟩
    · exact ⟨cF, hr⟩
    · exact (hgs g hg).2.2.1
  have hkeys : ∀ k, k ∈ keys st'.results ↔ (k = Clean F ∨ ∃ g, g ∈ gs ∧ k = Clean g) := by
    intro k
    rw [← hproc]
    constructor
    · exact hinv.keys_processed k
    · intro hkm
      obtain ⟨c, hc⟩ := hread k hkm
      exact (mem_keys_iff _ _).2 ⟨c, hinv.processed_read k hkm c hc⟩
  refine ⟨st', hrun, hkeys, ?_, ?_⟩
  · intro k hkm
    obtain ⟨v, hv⟩ := (mem_keys_iff _ _).1 hkm
    rw [hv, hinv.results_content k v hv]
  · have hperm : (keys st'.results).Perm ((Clean F :: gs.map Clean).dedup) := by
      apply (List.perm_ext_iff_of_nodup hinv.keys_nodup (List.nodup_dedup _)).2
      intro k
      rw [hkeys, List.mem_dedup, List.mem_cons, List.mem_map]
      constructor
      · rintro (rfl | ⟨g, hg, rfl⟩)
        · exact Or.inl rfl
        · exact Or.inr ⟨g, hg, rfl⟩
      · rintro (rfl | ⟨g, hg, rfl⟩)
        · exact Or.inl rfl
        · exact Or.inr ⟨g, hg, rfl⟩
    have := hperm.length_eq
    simpa [keys] using this

set_option maxRecDepth 100000 in
theorem C3_end_to_end_witness :
    ∃ st', ProcessFile worldProcessTest 2 "/t/src/components/Component.tsx" "/t" ⟨[], [], 0⟩
        = some (none, st') ∧
      (∀ k, k ∈ keys st'.results ↔
        (k = Clean "/t/src/components/Component.tsx" ∨
          ∃ g, g ∈ ["/t/src/context/Auth.tsx", "/t/src/lib/api/data.ts"] ∧ k = Clean g)) ∧
      (∀ k, k ∈ keys st'.results → mapGet st'.results k = worldProcessTest.readFile k) ∧
      st'.results.length = 3 :=
  C3_end_to_end worldProcessTest "/t" "/t/src/components/Component.tsx"
    "\nimport React from 'react';\nimport { useAuth } from '../context/Auth';\nimport { getData } from '../lib/api/data';\n"
    ["/t/src/context/Auth.tsx", "/t/src/lib/api/data.ts"] 0 (by decide) (by decide) (by decide)
    (fun t => ⟨t + 3, rfl⟩)
    (by
      intro g hg
      simp only [List.mem_cons, List.mem_singleton, List.not_mem_nil, or_false] at hg
      rcases hg with rfl | rfl
      · exact ⟨by decide, by decide, ⟨_, rfl⟩, fun t => ⟨t + 1, rfl⟩⟩
      · exact ⟨by decide, by decide, ⟨_, rfl⟩, fun t => ⟨t, rfl⟩⟩)
    2 (by decide)

/-! ### Absolute paths -/

theorem render_head {rooted : Bool} {stack : List (List Char)} (h : stackOK rooted stack) :
    ((render rooted stack.reverse).head? = some '/') ↔ rooted = true := by
  cases rooted with
  | true => simp [render]
  | false =>
    simp only [Bool.false_eq_true, iff_false]
    unfold render
    simp only [Bool.false_eq_true, if_false]
    split
    · simp
    · next hne =>
      obtain ⟨a, as, hr⟩ := List.exists_cons_of_ne_nil hne
      have ha : Seg a := by
        apply stackOK_seg h
        apply List.mem_reverse.1
        rw [hr]
        exact List.mem_cons_self _ _
      rw [hr, joinSlash_head ha.1]
      intro hh
      exact ha.2.1 (List.mem_of_mem_head? hh)

theorem cleanChars_head (s : List Char) :
    ((cleanChars s).head? = some '/') ↔ s.head? = some '/' := by
  by_cases hs : s = []
  · subst hs
    simp [cleanChars]
  · have hok : stackOK (decide (s.head? = some '/'))
        ((splitSlash s).foldl (cleanStep (decide (s.head? = some '/'))) []) :=
      foldl_cleanStep_stackOK _ _ trivial (splitSlash_no_slash s)
    have hform : cleanChars s = render (decide (s.head? = some '/'))
        ((splitSlash s).foldl (cleanStep (decide (s.head? = some '/'))) []).reverse := by
      unfold cleanChars render
      simp only [hs, if_false, List.reverse_eq_nil_iff]
    rw [hform, render_head hok]
    simp

theorem IsAbs_Clean (p : String) : IsAbs (Clean p) = IsAbs p := by
  unfold IsAbs Clean
  have := cleanChars_head p.data
  by_cases h : p.data.head? = some '/'
  · simp [h, this.2 h]
  · have h' : ¬ (cleanChars p.data).head? = some '/' := fun hh => h (this.1 hh)
    simp [h, h']

theorem IsAbs_append {p : String} (e : String) (h : IsAbs p = true) : IsAbs (p ++ e) = true := by
  unfold IsAbs at h ⊢
  have hd : (p ++ e).data = p.data ++ e.data := by simp
  rw [hd]
  cases hp : p.data with
  | nil => rw [hp] at h; simp at h
  | cons c cs =>
    rw [hp] at h
    simpa using h

theorem IsAbs_Join {a : String} (rest : List String) (h : IsAbs a = true) :
    IsAbs (Join (a :: rest)) = true := by
  have hne : a ≠ "" := by
    intro ha
    subst ha
    simp [IsAbs] at h
  simp only [Join, if_neg hne]
  unfold IsAbs at h ⊢
  have hdne : a.data ≠ [] := by
    intro hd
    apply hne
    apply String.ext
    rw [hd]
  have hhead : (joinSlash (List.map String.data (a :: rest))).head? = some '/' := by
    rw [List.map_cons, joinSlash_head hdne]
    simpa using h
  have := (cleanChars_head _).2 hhead
  simpa using this

theorem dropWhile_append_stop {α : Type} (P : α → Bool) (a : List α) (c : α) (hc : P c = false) :
    ∃ x, (a ++ [c]).dropWhile P = x ++ [c] := by
  induction a with
  | nil => exact ⟨[], by simp [List.dropWhile, hc]⟩
  | cons y ys ih =>
    by_cases hy : P y = true
    · obtain ⟨x, hx⟩ := ih
      exact ⟨x, by simp [List.dropWhile, hy, hx]⟩
    · exact ⟨y :: ys, by simp [List.dropWhile, hy]⟩

theorem IsAbs_Dir {p : String} (h : IsAbs p = true) : IsAbs (Dir p) = true := by
  unfold IsAbs at h
  cases hp : p.data with
  | nil => rw [hp] at h; simp at h
  | cons c cs =>
    rw [hp] at h
    have hc : c = '/' := by simpa using h
    subst hc
    obtain ⟨x, hx⟩ := dropWhile_append_stop (fun c => decide (c ≠ '/')) cs.reverse '/'
      (by simp)
    unfold IsAbs Dir
    have hrev : ('/' :: cs).reverse = cs.reverse ++ ['/'] := by simp
    rw [hp, hrev, hx]
    have hhead : ((x ++ ['/']).reverse).head? = some '/' := by simp
    have := (cleanChars_head _).2 hhead
    simpa using this

/-! ### Cleaned keys -/

theorem locateFile_clean {w : World} (hf : w.Fair) {p q : String} {info : FileInfo}
    {t t' : Nat} (h : locateFile w (Clean p) t = (.ok (q, info), t')) : Clean q = q := by
  cases hs : w.stat (Clean p) with
  | some info' =>
    rw [locateFile_of_stat t hs] at h
    simp only [Prod.mk.injEq, Except.ok.injEq] at h
    rw [← h.1.1]
    exact Clean_idem p
  | none =>
    rw [locateFile_of_missing t hs] at h
    split at h
    · split at h
      · next q' hp =>
        obtain ⟨ext, hm, hq, -⟩ := probeExt_some hp
        split at h
        · simp at h
        · simp only [Prod.mk.injEq, Except.ok.injEq] at h
          rw [← h.1.1, hq]
          exact Clean_append_ext _ ext (Clean_idem p)
            (supported_dotExt ext ((hf.mem_iff _ _).1 hm))
      · simp at h
    · simp at h

theorem locateFile_abs {w : World} {p q : String} {info : FileInfo}
    {t t' : Nat} (h : locateFile w (Clean p) t = (.ok (q, info), t'))
    (hp : IsAbs p = true) : IsAbs q = true := by
  have hcp : IsAbs (Clean p) = true := by rw [IsAbs_Clean]; exact hp
  cases hs : w.stat (Clean p) with
  | some info' =>
    rw [locateFile_of_stat t hs] at h
    simp only [Prod.mk.injEq, Except.ok.injEq] at h
    rw [← h.1.1]
    exact hcp
  | none =>
    rw [locateFile_of_missing t hs] at h
    split at h
    · split at h
      · next q' hpr =>
        obtain ⟨ext, -, hq, -⟩ := probeExt_some hpr
        split at h
        · simp at h
        · simp only [Prod.mk.injEq, Except.ok.injEq] at h
          rw [← h.1.1, hq]
          exact IsAbs_append ext hcp
      · simp at h
    · simp at h

/-- Every path a run marks as processed is a fixed point of
`filepath.Clean`. -/
theorem ProcessFile_clean_keys {w : World} (hf : w.Fair) (root : String) (fuel : Nat)
    (p : String) (st : State) (e : Option GoError) (st' : State)
    (h : ProcessFile w fuel p root st = some (e, st')) :
    (∀ k, k ∈ st.processedFiles → Clean k = k) → ∀ k, k ∈ st'.processedFiles → Clean k = k := by
  refine ProcessFile_rel_located w root
    (fun a b => (∀ k, k ∈ a.processedFiles → Clean k = k) →
      ∀ k, k ∈ b.processedFiles → Clean k = k) ?_ ?_ ?_ ?_ ?_ fuel p st e st' h
  · intro a ha; exact ha
  · intro a b c hab hbc ha; exact hbc (hab ha)
  · intro a t ha; exact ha
  · intro a q t hloc _ _ ha k hk
    obtain ⟨p', t0, hl⟩ := hloc
    rcases (mem_markProcessed _ _ _).1 hk with hk | rfl
    · exact ha k hk
    · exact locateFile_clean hf hl
  · intro a q t content hloc _ _ ha k hk
    obtain ⟨p', t0, hl⟩ := hloc
    rcases (mem_markProcessed _ _ _).1 hk with hk | rfl
    · exact ha k hk
    · exact locateFile_clean hf hl

/-! ### Absolute keys -/

theorem resolveImportByType_abs {w : World} {s dir root r : String} {t t' : Nat}
    (hroot : IsAbs root = true) (hdir : IsAbs dir = true) (hpre : hasPathPrefix s = true)
    (h : resolveImportByType w s dir root t = (.ok r, t')) : IsAbs r = true := by
  unfold resolveImportByType at h
  split at h
  · have habs : absPath w.getwd (Join [dir, s]) = some (Clean (Join [dir, s])) := by
      unfold absPath
      rw [if_pos (IsAbs_Join _ hdir)]
    rw [habs] at h
    simp only [Prod.mk.injEq, Except.ok.injEq] at h
    rw [← h.1, IsAbs_Clean]
    exact IsAbs_Join _ hdir
  · next h1 =>
    split at h
    · simp only [Prod.mk.injEq, Except.ok.injEq] at h
      rw [← h.1]
      exact IsAbs_Join _ hroot
    · next h2 =>
      split at h
      · simp only [Prod.mk.injEq, Except.ok.injEq] at h
        rw [← h.1]
        exact IsAbs_Join _ hroot
      · next h3 =>
        split at h
        · dsimp only at h
          split at h
          · simp only [Prod.mk.injEq, Except.ok.injEq] at h
            rw [← h.1]
            exact IsAbs_Join _ hroot
          · split at h
            · next testPath hp =>
              simp only [Prod.mk.injEq, Except.ok.injEq] at h
              rw [← h.1]
              obtain ⟨ext, -, hq, -⟩ := probeExt_some hp
              rw [hq]
              exact IsAbs_append ext (IsAbs_Join _ hroot)
            · simp only [Prod.mk.injEq, Except.ok.injEq] at h
              rw [← h.1]
              exact IsAbs_Join _ hroot
        · next h4 =>
          exfalso
          simp only [Bool.not_eq_true] at h1 h2 h3 h4
          simp [hasPathPrefix, h1, h2, h3, h4] at hpre

theorem ResolveImportPath_abs {w : World} {s dir root r : String} {t t' : Nat}
    (hroot : IsAbs root = true) (hdir : IsAbs dir = true) (hpre : hasPathPrefix s = true)
    (h : ResolveImportPath w s dir root t = (.ok r, t')) : IsAbs r = true := by
  unfold ResolveImportPath at h
  split at h
  · simp at h
  · next resolved t1 hres =>
    have habs := resolveImportByType_abs hroot hdir hpre hres
    split at h
    · have hr : r = resolved := by
        split at h <;> simp only [Prod.mk.injEq, Except.ok.injEq] at h <;> exact h.1.symm
      rw [hr]; exact habs
    · split at h
      · next testPath hp =>
        simp only [Prod.mk.injEq, Except.ok.injEq] at h
        rw [← h.1]
        obtain ⟨ext, -, hq, -⟩ := probeExt_some hp
        rw [hq]
        exact IsAbs_append ext habs
      · dsimp only at h
        split at h
        · next indexFile hi =>
          simp only [Prod.mk.injEq, Except.ok.injEq] at h
          rw [← h.1]
          obtain ⟨ext, -, hq, -⟩ := probeJsIndex_some hi
          rw [hq]
          exact IsAbs_Join _ habs
        · simp only [Prod.mk.injEq, Except.ok.injEq] at h
          rw [← h.1]; exact habs

theorem foldl_invariant_mem {α β : Type} (P : β → Prop) (f : β → α → β) :
    ∀ (l : List α) (b : β), (∀ b a, a ∈ l → P b → P (f b a)) → P b → P (l.foldl f b) := by
  intro l
  induction l with
  | nil => intro b _ hb; exact hb
  | cons x xs ih =>
    intro b hf hb
    exact ih _ (fun b a ha => hf b a (List.mem_cons_of_mem _ ha))
      (hf b x (List.mem_cons_self _ _) hb)

/-- Every path `ExtractImports` returns is the resolution of a captured
string that passes `isLocalImport`. -/
theorem ExtractImports_mem {w : World} {p root content : String} {t t' : Nat}
    {imports : List String} (hread : w.readFile p = some content)
    (h : ExtractImports w p root t = (.ok imports, t')) :
    ∀ r, r ∈ imports → ∃ s, s ∈ capturedStrings (Ext p) content ∧
      isLocalImport s (Ext p) = true ∧
      ∃ t1 t2, ResolveImportPath w s (Dir p) root t1 = (.ok r, t2) := by
  unfold ExtractImports at h
  dsimp only at h
  split at h
  · simp at h
  · next patterns hpat =>
    rw [hread] at h
    simp only [Prod.mk.injEq, Except.ok.injEq] at h
    rw [← h.1]
    have hcap : ∀ re, re ∈ patterns → ∀ m, m ∈ FindAllSubmatch re content →
        m.getD 1 "" ∈ capturedStrings (Ext p) content := by
      intro re hre m hm
      unfold capturedStrings
      rw [hpat]
      exact List.mem_flatMap.2 ⟨re, hre, List.mem_map.2 ⟨m, hm, rfl⟩⟩
    apply foldl_invariant_mem (fun acc : List String × Nat => ∀ r, r ∈ acc.1 →
      ∃ s, s ∈ capturedStrings (Ext p) content ∧ isLocalImport s (Ext p) = true ∧
        ∃ t1 t2, ResolveImportPath w s (Dir p) root t1 = (.ok r, t2))
    · intro acc re hre hacc
      apply foldl_invariant_mem (fun acc : List String × Nat => ∀ r, r ∈ acc.1 →
        ∃ s, s ∈ capturedStrings (Ext p) content ∧ isLocalImport s (Ext p) = true ∧
          ∃ t1 t2, ResolveImportPath w s (Dir p) root t1 = (.ok r, t2))
      · intro b m hm hb
        unfold extractMatch
        split
        · dsimp only
          split
          · exact hb
          · next resolvedPath t2 hres =>
            split
            · next hloc =>
              intro r hr
              rcases List.mem_append.1 hr with hr | hr
              · exact hb r hr
              · simp only [List.mem_singleton] at hr
                subst hr
                exact ⟨m.getD 1 "", hcap re hre m hm, hloc, _, _, hres⟩
            · exact hb
        · exact hb
      · exact hacc
    · intro r hr
      simp at hr

/-- When every import string that is followed has a path prefix, a run
started on an absolute path with an absolute project root marks absolute
paths only. -/
theorem ProcessFile_abs_keys {w : World} {root : String} (hroot : IsAbs root = true)
    (hpre : ∀ q content s, w.readFile q = some content → s ∈ capturedStrings (Ext q) content →
      isLocalImport s (Ext q) = true → hasPathPrefix s = true) :
    ∀ fuel p st e st', IsAbs p = true → (∀ k, k ∈ st.processedFiles → IsAbs k = true) →
      ProcessFile w fuel p root st = some (e, st') →
      ∀ k, k ∈ st'.processedFiles → IsAbs k = true := by
  intro fuel
  induction fuel with
  | zero => intro p st e st' _ _ h; simp [ProcessFile] at h
  | succ n ih =>
    intro p st e st' hp hst h
    rw [ProcessFile_succ] at h
    split at h
    · simp only [Option.some.injEq, Prod.mk.injEq] at h
      rw [← h.2]; exact hst
    · split at h
      · simp only [Option.some.injEq, Prod.mk.injEq] at h
        rw [← h.2]; exact hst
      · next q info t hloc =>
        have hq : IsAbs q = true := locateFile_abs hloc hp
        have hmark : ∀ k, k ∈ markProcessed st.processedFiles q → IsAbs k = true := by
          intro k hk
          rcases (mem_markProcessed _ _ _).1 hk with hk | rfl
          · exact hst k hk
          · exact hq
        split at h
        · simp only [Option.some.injEq, Prod.mk.injEq] at h
          rw [← h.2]; exact hst
        · split at h
          · simp only [Option.some.injEq, Prod.mk.injEq] at h
            rw [← h.2]; exact hst
          · split at h
            · simp only [Option.some.injEq, Prod.mk.injEq] at h
              rw [← h.2]; exact hmark
            · next content hread =>
              split at h
              · simp at h
              · next st2 hpi =>
                simp only [Option.some.injEq, Prod.mk.injEq] at h
                rw [← h.2]
                have himp : ∀ r, r ∈ (importsOf w q root t).1 → IsAbs r = true := by
                  intro r hr
                  unfold importsOf at hr
                  split at hr
                  · next imports t2 hex =>
                    obtain ⟨s, hs, hloc', t1, t3, hres⟩ := ExtractImports_mem hread hex r hr
                    exact ResolveImportPath_abs hroot (IsAbs_Dir hq)
                      (hpre q content s hread hs hloc') hres
                  · simp at hr
                have hloop : ∀ (l : List String) (a b : State),
                    (∀ r, r ∈ l → IsAbs r = true) →
                    (∀ k, k ∈ a.processedFiles → IsAbs k = true) →
                    processImports (fun importPath s => ProcessFile w n importPath root s) l a
                      = some b →
                    ∀ k, k ∈ b.processedFiles → IsAbs k = true := by
                  intro l
                  induction l with
                  | nil =>
                    intro a b _ ha hab
                    simp only [processImports, Option.some.injEq] at hab
                    rw [← hab]; exact ha
                  | cons x xs ihl =>
                    intro a b hl ha hab
                    simp only [processImports] at hab
                    split at hab
                    · simp at hab
                    · next e1 a1 h1 =>
                      exact ihl a1 b (fun r hr => hl r (List.mem_cons_of_mem _ hr))
                        (ih x a e1 a1 (hl x (List.mem_cons_self _ _)) ha h1) hab
                exact hloop _ _ _ himp hmark hpi

/-! ### Claim C9 -/

set_option maxRecDepth 100000 in
/-- C9, where the code departs from it: run from the project directory on
an absolute path with an absolute project root, the bare name `helper` is
found as `helper.js` relative to the working directory and recorded under
that relative key, and the file it names, `/proj/helper.js`, is recorded a
second time under its absolute path when it is reached as `./helper`. -/
theorem C9_relative_key :
    IsAbs "/proj/main.js" = true ∧ IsAbs "/proj" = true ∧
    ProcessFile worldBare 3 "/proj/main.js" "/proj" ⟨[], [], 0⟩ =
      some (none, ⟨["/proj/main.js", "helper.js", "/proj/helper.js"],
        [("/proj/main.js", "import a from 'helper'\nimport b from './helper'\n"),
         ("helper.js", "export default 1\n"), ("/proj/helper.js", "export default 1\n")],
        2⟩) ∧
    IsAbs "helper.js" = false ∧
    worldBare.getwd = some "/proj" ∧
    absPath worldBare.getwd "helper.js" = some "/proj/helper.js" ∧
    absPath worldBare.getwd "/proj/helper.js" = some "/proj/helper.js" := by
  decide

/-! ### Formatting -/

theorem foldl_formatEntry (results : List (String × String)) (b : String) :
    results.foldl (fun builder entry => builder ++ formatEntry entry.1 entry.2) b =
      b ++ results.foldl (fun builder entry => builder ++ formatEntry entry.1 entry.2) "" := by
  induction results generalizing b with
  | nil => simp
  | cons e es ih =>
    simp only [List.foldl_cons]
    rw [ih (b ++ formatEntry e.1 e.2), ih ("" ++ formatEntry e.1 e.2)]
    simp [String.append_assoc]

theorem foldl_totalLines (results : List (String × String)) (n : Nat) :
    results.foldl (fun total entry => total + (countNewlines entry.2 + 1)) n =
      n + (results.map (fun entry => countNewlines entry.2 + 1)).sum := by
  induction results generalizing n with
  | nil => simp
  | cons e es ih =>
    simp only [List.foldl_cons, List.map_cons, List.sum_cons]
    rw [ih]
    omega

theorem totalLines_eq (results : List (String × String)) :
    totalLines results = (results.map (fun entry => countNewlines entry.2 + 1)).sum := by
  unfold totalLines
  rw [foldl_totalLines]
  simp

/-- The line total does not depend on the order in which the map is
visited. -/
theorem totalLines_perm {a b : List (String × String)} (h : a.Perm b) :
    totalLines a = totalLines b := by
  rw [totalLines_eq, totalLines_eq]
  exact (h.map _).sum_eq

/-- The block of an entry stands in the output as one piece. -/
theorem builder_contains (results : List (String × String)) (path content : String)
    (h : (path, content) ∈ results) :
    ∃ pre post, results.foldl (fun builder entry => builder ++ formatEntry entry.1 entry.2) ""
      = pre ++ formatEntry path content ++ post := by
  induction results with
  | nil => simp at h
  | cons e es ih =>
    simp only [List.foldl_cons]
    rw [foldl_formatEntry]
    rcases List.mem_cons.1 h with rfl | h
    · exact ⟨"", es.foldl (fun builder entry => builder ++ formatEntry entry.1 entry.2) "",
        by simp [String.append_assoc]⟩
    · obtain ⟨pre, post, hpp⟩ := ih h
      refine ⟨formatEntry e.1 e.2 ++ pre, post, ?_⟩
      rw [hpp]
      simp [String.append_assoc]

theorem builder_ends (results : List (String × String)) :
    results.foldl (fun builder entry => builder ++ formatEntry entry.1 entry.2) "" = "" ∨
      ∃ pre, results.foldl (fun builder entry => builder ++ formatEntry entry.1 entry.2) ""
        = pre ++ "\n" := by
  induction results with
  | nil => exact Or.inl rfl
  | cons e es ih =>
    right
    simp only [List.foldl_cons]
    rw [foldl_formatEntry]
    rcases ih with h | ⟨pre, h⟩
    · rw [h]
      refine ⟨"\x7b\x7b BEGIN CONTENTS OF " ++ e.1 ++ " \x7d\x7d\n" ++ e.2 ++
        (if endsWithNewline e.2 then "" else "\n") ++ "\x7b\x7b END CONTENTS OF " ++ e.1 ++ " \x7d\x7d\n", ?_⟩
      apply String.ext
      simp [formatEntry, String.data_append]
    · rw [h]
      exact ⟨"" ++ formatEntry e.1 e.2 ++ pre, by simp [String.append_assoc]⟩

/-! ### Claims C16, C17, C18 -/

/-- C16 (summary counts): the output of `FormatResults` ends with a line of
30 dashes followed by the line `Generated N lines of code from M files`,
where `M` is the number of entries of `results` and `N` is the sum over the
entries of the number of newline characters of the content plus one; what
stands before the dashes is empty or ends with a newline. -/
theorem C16_summary_counts (results : List (String × String)) :
    ∃ pre, (pre = "" ∨ ∃ pre', pre = pre' ++ "\n") ∧
      FormatResults results =
        pre ++ String.mk (List.replicate 30 '-') ++ "\n" ++
          ("Generated " ++
            toString ((results.map (fun entry => entry.2.data.count '\n' + 1)).sum) ++
            " lines of code from " ++ toString results.length ++ " files") ++ "\n" := by
  refine ⟨results.foldl (fun builder entry => builder ++ formatEntry entry.1 entry.2) "",
    ?_, ?_⟩
  · exact builder_ends results
  have hdash : "------------------------------\n" = String.mk (List.replicate 30 '-') ++ "\n" := by
    decide
  have hfiles : " files\n" = " files" ++ "\n" := by decide
  unfold FormatResults
  rw [totalLines_eq]
  simp only [countNewlines]
  rw [hdash, hfiles]
  simp only [String.append_assoc]

/-- C17, as the code has it: for every entry of `results` the text between
its header line and its footer line is the content itself when the content
ends with a newline, and the content followed by one newline otherwise.  It
therefore always ends with a newline, and it ends with two newlines only when
the content itself does. -/
theorem C17_trailing_newline (results : List (String × String)) (path content : String)
    (h : (path, content) ∈ results) :
    ∃ pre post body,
      FormatResults results =
        pre ++ ("\x7b\x7b BEGIN CONTENTS OF " ++ path ++ " \x7d\x7d" ++ "\n") ++ body ++
          ("\x7b\x7b END CONTENTS OF " ++ path ++ " \x7d\x7d" ++ "\n") ++ post ∧
      body = (if endsWithNewline content then content else content ++ "\n") ∧
      body.data.getLast? = some '\n' ∧
      ((¬ ∃ l, content.data = l ++ ['\n', '\n']) → ¬ ∃ l, body.data = l ++ ['\n', '\n']) := by
  obtain ⟨pre, post, hpp⟩ := builder_contains results path content h
  refine ⟨pre, "\n" ++ post ++ "------------------------------\n" ++
      ("Generated " ++ toString (totalLines results) ++ " lines of code from " ++
        toString results.length ++ " files\n"),
    (if endsWithNewline content then content else content ++ "\n"), ?_, rfl, ?_, ?_⟩
  · unfold FormatResults
    dsimp only
    rw [hpp]
    apply String.ext
    by_cases hc : endsWithNewline content = true
    · simp [formatEntry, String.data_append, hc]
    · simp [formatEntry, String.data_append, hc]
  · by_cases hc : endsWithNewline content = true
    · rw [if_pos hc]
      simpa [endsWithNewline] using hc
    · rw [if_neg hc]
      simp [String.data_append]
  · intro hno
    by_cases hc : endsWithNewline content = true
    · rw [if_pos hc]
      exact hno
    · rw [if_neg hc]
      rintro ⟨l, hl⟩
      apply hc
      have hl' : content.data ++ ['\n'] = (l ++ ['\n']) ++ ['\n'] := by
        simpa [String.data_append] using hl
      have := List.append_cancel_right hl'
      unfold endsWithNewline
      rw [this]
      simp

/-- C17 fails as stated: a content that ends with two newlines is written
as it is, so two newlines stand before the footer line. -/
theorem C17_counterexample :
    FormatResults [("/a.js", "x\n\n")] =
      "\x7b\x7b BEGIN CONTENTS OF /a.js \x7d\x7d\n" ++ "x\n\n" ++ "\x7b\x7b END CONTENTS OF /a.js \x7d\x7d\n" ++ "\n" ++
        "------------------------------\n" ++ "Generated 3 lines of code from 1 files\n" := by
  decide

set_option maxRecDepth 100000 in
theorem C17_trailing_newline_witness :
    ∃ pre post body,
      FormatResults resultsFormatTest =
        pre ++ ("\x7b\x7b BEGIN CONTENTS OF " ++ "/path/to/file2.js" ++ " \x7d\x7d" ++ "\n") ++ body ++
          ("\x7b\x7b END CONTENTS OF " ++ "/path/to/file2.js" ++ " \x7d\x7d" ++ "\n") ++ post ∧
      body = (if endsWithNewline "function test() \x7b return true; \x7d" then
          "function test() \x7b return true; \x7d" else "function test() \x7b return true; \x7d" ++ "\n") ∧
      body.data.getLast? = some '\n' ∧
      ((¬ ∃ l, ("function test() \x7b return true; \x7d" : String).data = l ++ ['\n', '\n']) →
        ¬ ∃ l, body.data = l ++ ['\n', '\n']) :=
  C17_trailing_newline resultsFormatTest "/path/to/file2.js" "function test() \x7b return true; \x7d"
    (by decide)

/-- C18 (block format): for every entry of `results` the output of
`FormatResults` contains, as one piece, the header line, the content, a
newline when the content does not end with one, the footer line and an empty
line; for a map with a single entry the output is exactly that block followed
by the line of dashes and the summary line. -/
theorem C18_block_format (results : List (String × String)) (path content : String)
    (h : (path, content) ∈ results) :
    (∃ pre post, FormatResults results =
      pre ++ ("\x7b\x7b BEGIN CONTENTS OF " ++ path ++ " \x7d\x7d" ++ "\n" ++ content ++
        (if endsWithNewline content then "" else "\n") ++
        "\x7b\x7b END CONTENTS OF " ++ path ++ " \x7d\x7d" ++ "\n" ++ "\n") ++ post) ∧
    FormatResults [(path, content)] =
      ("\x7b\x7b BEGIN CONTENTS OF " ++ path ++ " \x7d\x7d" ++ "\n" ++ content ++
        (if endsWithNewline content then "" else "\n") ++
        "\x7b\x7b END CONTENTS OF " ++ path ++ " \x7d\x7d" ++ "\n" ++ "\n") ++
      String.mk (List.replicate 30 '-') ++ "\n" ++
      ("Generated " ++ toString (content.data.count '\n' + 1) ++ " lines of code from " ++
        toString 1 ++ " files") ++ "\n" := by
  constructor
  · obtain ⟨pre, post, hpp⟩ := builder_contains results path content h
    refine ⟨pre, post ++ "------------------------------\n" ++
      ("Generated " ++ toString (totalLines results) ++ " lines of code from " ++
        toString results.length ++ " files\n"), ?_⟩
    unfold FormatResults
    dsimp only
    rw [hpp]
    apply String.ext
    simp [formatEntry, String.data_append]
  · have hdash : "------------------------------\n" = String.mk (List.replicate 30 '-') ++ "\n" := by
      decide
    have hfiles : " files\n" = " files" ++ "\n" := by decide
    have hbrace : " \x7d\x7d\n" = " \x7d\x7d" ++ "\n" := by decide
    have hend : " \x7d\x7d\n\n" = " \x7d\x7d" ++ "\n" ++ "\n" := by decide
    unfold FormatResults
    simp only [List.foldl_cons, List.foldl_nil, formatEntry, totalLines, countNewlines,
      List.length_singleton, Nat.zero_add]
    rw [hdash, hfiles, hbrace, hend]
    simp only [String.append_assoc, String.empty_append]

set_option maxRecDepth 100000 in
theorem C18_block_format_witness :
    ∃ pre post, FormatResults resultsFormatTest =
      pre ++ ("\x7b\x7b BEGIN CONTENTS OF " ++ "/path/to/file1.js" ++ " \x7d\x7d" ++ "\n" ++
        "console.log('Hello');\n" ++
        (if endsWithNewline "console.log('Hello');\n" then "" else "\n") ++
        "\x7b\x7b END CONTENTS OF " ++ "/path/to/file1.js" ++ " \x7d\x7d" ++ "\n" ++ "\n") ++ post :=
  (C18_block_format resultsFormatTest "/path/to/file1.js" "console.log('Hello');\n"
    (by decide)).1

set_option maxRecDepth 100000 in
/-- The output for the map of `TestFormatResults`, in the order file1, file2. -/
theorem FormatResults_test : FormatResults resultsFormatTest =
    "\x7b\x7b BEGIN CONTENTS OF /path/to/file1.js \x7d\x7d\nconsole.log('Hello');\n\x7b\x7b END CONTENTS OF /path/to/file1.js \x7d\x7d\n\n\x7b\x7b BEGIN CONTENTS OF /path/to/file2.js \x7d\x7d\nfunction test() \x7b return true; \x7d\n\x7b\x7b END CONTENTS OF /path/to/file2.js \x7d\x7d\n\n------------------------------\nGenerated 3 lines of code from 2 files\n" := by
  decide

/-! ### Stage 1 and stage 2 of the resolver -/

theorem Clean_Join_of_abs {a : String} (rest : List String) (h : IsAbs a = true) :
    Clean (Join (a :: rest)) = Join (a :: rest) := by
  rcases Join_clean (a :: rest) with h0 | h0
  · have := IsAbs_Join rest h
    rw [h0] at this
    exact absurd this (by decide)
  · exact h0

theorem resolveImportByType_rel (w : World) {raw dir : String} (root : String) (t : Nat)
    (hrel : HasPrefix raw "." = true) (hdir : IsAbs dir = true) :
    resolveImportByType w raw dir root t = (.ok (Join [dir, raw]), t) := by
  unfold resolveImportByType
  rw [if_pos hrel]
  simp only [absPath, IsAbs_Join [raw] hdir, if_true, Clean_Join_of_abs [raw] hdir]

theorem resolveImportByType_ok_of_abs (w : World) (raw : String) {dir : String} (root : String)
    (t : Nat) (hdir : IsAbs dir = true) :
    ∃ p t1, resolveImportByType w raw dir root t = (.ok p, t1) := by
  by_cases hrel : HasPrefix raw "." = true
  · exact ⟨_, _, resolveImportByType_rel w root t hrel hdir⟩
  · unfold resolveImportByType
    rw [if_neg hrel]
    split
    · exact ⟨_, _, rfl⟩
    · split
      · exact ⟨_, _, rfl⟩
      · split
        · dsimp only
          split
          · exact ⟨_, _, rfl⟩
          · split <;> exact ⟨_, _, rfl⟩
        · dsimp only
          split <;> exact ⟨_, _, rfl⟩

theorem ResolveImportPath_ext {w : World} {raw dir root p : String} {t t1 : Nat}
    (h : resolveImportByType w raw dir root t = (.ok p, t1)) (hext : Ext p ≠ "") :
    ResolveImportPath w raw dir root t = (.ok p, t1) := by
  unfold ResolveImportPath
  rw [h]
  simp only [hext, ne_eq, not_false_eq_true, if_true, ite_self]

theorem ResolveImportPath_probe {w : World} {raw dir root p q : String} {t t1 : Nat}
    (h : resolveImportByType w raw dir root t = (.ok p, t1)) (hext : Ext p = "")
    (hq : probeExt w p (w.rangeOrder t1) = some q) :
    ResolveImportPath w raw dir root t = (.ok q, t1 + 1) := by
  unfold ResolveImportPath
  rw [h]
  simp only [hext, ne_eq, not_true_eq_false, if_false, hq]

theorem ResolveImportPath_fallback {w : World} {raw dir root p : String} {t t1 : Nat}
    (h : resolveImportByType w raw dir root t = (.ok p, t1)) (hext : Ext p = "")
    (hq : probeExt w p (w.rangeOrder t1) = none)
    (hi : probeJsIndex w p [".js", ".jsx", ".ts", ".tsx"] = none) :
    ResolveImportPath w raw dir root t = (.ok p, t1 + 1) := by
  unfold ResolveImportPath
  rw [h]
  simp only [hext, ne_eq, not_true_eq_false, if_false, hq, hi]

theorem probeJsIndex_of_all_none {w : World} {dir : String} {l : List String}
    (h : ∀ ext, ext ∈ l → w.stat (Join [dir, "index" ++ ext]) = none) :
    probeJsIndex w dir l = none := by
  induction l with
  | nil => rfl
  | cons e rest ih =>
    simp only [probeJsIndex]
    have he := h e (List.mem_cons_self _ _)
    have hrest := ih (fun ext hext => h ext (List.mem_cons_of_mem _ hext))
    simp [he, hrest]

theorem probeExt_first {w : World} {base ext : String} (pre post : List String)
    (hex : (w.stat (base ++ ext)).isSome = true)
    (hpre : ∀ e, e ∈ pre → w.stat (base ++ e) = none) :
    probeExt w base (pre ++ ext :: post) = some (base ++ ext) := by
  induction pre with
  | nil => simp [probeExt, hex]
  | cons e rest ih =>
    simp only [List.cons_append, probeExt]
    rw [hpre e (List.mem_cons_self _ _)]
    simpa using ih (fun x hx => hpre x (List.mem_cons_of_mem _ hx))

theorem probeExt_unique {w : World} {base ext : String} {l : List String} (hmem : ext ∈ l)
    (hex : (w.stat (base ++ ext)).isSome = true)
    (hothers : ∀ e, e ∈ l → e ≠ ext → w.stat (base ++ e) = none) :
    probeExt w base l = some (base ++ ext) := by
  induction l with
  | nil => simp at hmem
  | cons e rest ih =>
    simp only [probeExt]
    by_cases he : e = ext
    · subst he
      simp [hex]
    · rw [hothers e (List.mem_cons_self _ _) he]
      have hmem' : ext ∈ rest := by
        rcases List.mem_cons.1 hmem with h | h
        · exact absurd h.symm he
        · exact h
      simpa using ih hmem' (fun x hx => hothers x (List.mem_cons_of_mem _ hx))

theorem alias_prefixes (p : String) :
    HasPrefix ("@/" ++ p) "." = false ∧ HasPrefix ("@/" ++ p) "/" = false ∧
      HasPrefix ("@/" ++ p) "~" = false ∧ HasPrefix ("@/" ++ p) "@" = true ∧
      TrimPrefix ("@/" ++ p) "@/" = p := by
  have hd : ("@/" ++ p).data = '@' :: '/' :: p.data := by simp [String.data_append]
  refine ⟨?_, ?_, ?_, ?_, ?_⟩
  · simp [HasPrefix, hd, List.isPrefixOf]
  · simp [HasPrefix, hd, List.isPrefixOf]
  · simp [HasPrefix, hd, List.isPrefixOf]
  · simp [HasPrefix, hd]
  · simp [TrimPrefix, hd, stripPrefixChars]

theorem ResolveImportPath_index {w : World} {raw dir root p q : String} {t t1 : Nat}
    (h : resolveImportByType w raw dir root t = (.ok p, t1)) (hext : Ext p = "")
    (hq : probeExt w p (w.rangeOrder t1) = none)
    (hi : probeJsIndex w p [".js", ".jsx", ".ts", ".tsx"] = some q) :
    ResolveImportPath w raw dir root t = (.ok q, t1 + 1) := by
  unfold ResolveImportPath
  rw [h]
  simp only [hext, ne_eq, not_true_eq_false, if_false, hq, hi]

/-! ### Claims C12, C13, C15 -/

/-- C12 (resolution never fails): for every raw import string, absolute
`currentDir`, `projectRoot` and filesystem, `resolveImportByType` yields a
stage-1 path and `ResolveImportPath` returns a path with a nil error; and
when neither the stage-1 path with a supported extension appended nor an
`index` file inside it exists, the path returned is exactly the stage-1
path (whether or not the stage-1 path itself exists). -/
theorem C12_resolution_never_fails (w : World) (hfair : w.Fair) (raw dir root : String)
    (t : Nat) (hdir : IsAbs dir = true) :
    ∃ stage1 t1, resolveImportByType w raw dir root t = (.ok stage1, t1) ∧
      (∃ r t', ResolveImportPath w raw dir root t = (.ok r, t')) ∧
      ((∀ ext, ext ∈ supportedExtensions → w.stat (stage1 ++ ext) = none) →
        (∀ ext, ext ∈ [".js", ".jsx", ".ts", ".tsx"] →
          w.stat (Join [stage1, "index" ++ ext]) = none) →
        ∃ t', ResolveImportPath w raw dir root t = (.ok stage1, t')) := by
  obtain ⟨p, t1, h⟩ := resolveImportByType_ok_of_abs w raw root t hdir
  refine ⟨p, t1, h, ?_, ?_⟩
  · by_cases hext : Ext p = ""
    · cases hq : probeExt w p (w.rangeOrder t1) with
      | some q => exact ⟨_, _, ResolveImportPath_probe h hext hq⟩
      | none =>
        cases hi : probeJsIndex w p [".js", ".jsx", ".ts", ".tsx"] with
        | some q => exact ⟨_, _, ResolveImportPath_index h hext hq hi⟩
        | none => exact ⟨_, _, ResolveImportPath_fallback h hext hq hi⟩
    · exact ⟨_, _, ResolveImportPath_ext h hext⟩
  · intro hnone hindex
    by_cases hext : Ext p = ""
    · refine ⟨_, ResolveImportPath_fallback h hext ?_ (probeJsIndex_of_all_none hindex)⟩
      exact probeExt_of_all_none (fun ext hm => hnone ext ((hfair.mem_iff t1 ext).1 hm))
    · exact ⟨_, ResolveImportPath_ext h hext⟩

set_option maxRecDepth 100000 in
theorem C12_resolution_never_fails_witness :
    ∃ t', ResolveImportPath worldDotted "./missing" "/p" "/p" 0 = (.ok "/p/missing", t') := by
  obtain ⟨stage1, t1, h1, -, h3⟩ := C12_resolution_never_fails worldDotted
    (listedWorld_fair _ _) "./missing" "/p" "/p" 0 (by decide)
  have h1' : resolveImportByType worldDotted "./missing" "/p" "/p" 0 = (.ok "/p/missing", 0) := by
    decide
  rw [h1'] at h1
  have hs : "/p/missing" = stage1 := by
    injection h1 with ha hb
    injection ha
  subst hs
  exact h3 (by decide) (by decide)

/-- C13, as the code has it: for every project root `R`, relative path `p`
and `currentDir`, if `Join(R, "src", p) + ".ts"` exists, no other supported
extension completes `Join(R, "src", p)` to an existing path, and
`Join(R, "src", p)` itself does not exist or has an empty `filepath.Ext`,
then `ResolveImportPath("@/" + p, currentDir, R)` returns
`Join(R, "src", p) + ".ts"`, whatever `currentDir` is. -/
theorem C13_alias_resolution (w : World) (hfair : w.Fair) (R p currentDir : String) (t : Nat)
    (hts : (w.stat (Join [R, "src", p] ++ ".ts")).isSome = true)
    (hothers : ∀ ext, ext ∈ supportedExtensions → ext ≠ ".ts" →
      w.stat (Join [R, "src", p] ++ ext) = none)
    (hsrc : w.stat (Join [R, "src", p]) = none ∨ Ext (Join [R, "src", p]) = "") :
    ∃ t', ResolveImportPath w ("@/" ++ p) currentDir R t
      = (.ok (Join [R, "src", p] ++ ".ts"), t') := by
  obtain ⟨h1, h2, h3, h4, h5⟩ := alias_prefixes p
  have hprobe : ∀ n, probeExt w (Join [R, "src", p]) (w.rangeOrder n)
      = some (Join [R, "src", p] ++ ".ts") := fun n =>
    probeExt_unique ((hfair.mem_iff n ".ts").2 (by decide)) hts
      (fun e he hne => hothers e ((hfair.mem_iff n e).1 he) hne)
  by_cases hex : (w.stat (Join [R, "src", p])).isSome = true
  · have hext : Ext (Join [R, "src", p]) = "" := by
      rcases hsrc with h | h
      · rw [h] at hex
        simp at hex
      · exact h
    have hstage : resolveImportByType w ("@/" ++ p) currentDir R t
        = (.ok (Join [R, "src", p]), t) := by
      unfold resolveImportByType
      simp [h1, h2, h3, h4, h5, hex]
    exact ⟨_, ResolveImportPath_probe hstage hext (hprobe t)⟩
  · have hstage : resolveImportByType w ("@/" ++ p) currentDir R t
        = (.ok (Join [R, "src", p] ++ ".ts"), t + 1) := by
      unfold resolveImportByType
      simp [h1, h2, h3, h4, h5, hex, hprobe t]
    refine ⟨_, ResolveImportPath_ext hstage ?_⟩
    rw [Ext_append _ _ (by decide)]
    decide

/-- C13 fails as stated: with `/R/src/lib/api/climate.ts` and
`/R/src/lib/api/climate.js` both present and `.js` ranged over first,
`@/lib/api/climate` resolves to the `.js` file; and with the directory
`/R/src/lib/api.v2` next to the file `/R/src/lib/api.v2.ts`,
`@/lib/api.v2` resolves to the directory. -/
theorem C13_counterexample :
    (worldAlias.stat "/R/src/lib/api/climate.ts").isSome = true ∧
    ResolveImportPath worldAlias "@/lib/api/climate" "/R/src/components" "/R" 0
      = (.ok "/R/src/lib/api/climate.js", 1) ∧
    (worldAlias.stat "/R/src/lib/api.v2.ts").isSome = true ∧
    ResolveImportPath worldAlias "@/lib/api.v2" "/R/src/components" "/R" 0
      = (.ok "/R/src/lib/api.v2", 0) := by
  decide

set_option maxRecDepth 100000 in
theorem C13_alias_resolution_witness :
    ∃ t', ResolveImportPath worldAliasOne ("@/" ++ "lib/api/climate") "/R/src/components" "/R" 0
      = (.ok (Join ["/R", "src", "lib/api/climate"] ++ ".ts"), t') :=
  C13_alias_resolution worldAliasOne (listedWorld_fair _ _) "/R" "lib/api/climate"
    "/R/src/components" 0 (by decide) (by decide) (Or.inl (by decide))

/-- C15, as the code has it: when the stage-1 path has an empty
`filepath.Ext` and stage-1 path + ext exists for some supported extension,
`ResolveImportPath` returns an existing path of the form stage-1 path + ext
with ext supported; when the stage-1 path has a non-empty `filepath.Ext`,
supported or not, it is returned unchanged without any probing. -/
theorem C15_extension_completion (w : World) (hfair : w.Fair) (raw dir root stage1 : String)
    (t t1 : Nat) (h1 : resolveImportByType w raw dir root t = (.ok stage1, t1)) :
    (Ext stage1 = "" →
      (∃ ext, ext ∈ supportedExtensions ∧ (w.stat (stage1 ++ ext)).isSome = true) →
      ∃ ext, ext ∈ supportedExtensions ∧ (w.stat (stage1 ++ ext)).isSome = true ∧
        ResolveImportPath w raw dir root t = (.ok (stage1 ++ ext), t1 + 1)) ∧
    (Ext stage1 ≠ "" → ResolveImportPath w raw dir root t = (.ok stage1, t1)) := by
  refine ⟨?_, fun hext => ResolveImportPath_ext h1 hext⟩
  rintro hext ⟨ext, hmem, hex⟩
  cases hq : probeExt w stage1 (w.rangeOrder t1) with
  | none =>
    have := probeExt_none hq ext ((hfair.mem_iff t1 ext).2 hmem)
    rw [this] at hex
    simp at hex
  | some q =>
    obtain ⟨e, he, hqe, hstat⟩ := probeExt_some hq
    subst hqe
    exact ⟨e, (hfair.mem_iff t1 e).1 he, hstat, ResolveImportPath_probe h1 hext hq⟩

/-- C15 fails as stated: `/p/styles.module.css` exists and `.module` is no
supported extension, yet `./styles.module` resolves to its stage-1 path
`/p/styles.module`, which does not exist; likewise for `./user.service`. -/
theorem C15_counterexample :
    (worldDotted.stat "/p/styles.module.css").isSome = true ∧
    ".css" ∈ supportedExtensions ∧ Ext "/p/styles.module" ∉ supportedExtensions ∧
    resolveImportByType worldDotted "./styles.module" "/p" "/p" 0
      = (.ok "/p/styles.module", 0) ∧
    ResolveImportPath worldDotted "./styles.module" "/p" "/p" 0 = (.ok "/p/styles.module", 0) ∧
    worldDotted.stat "/p/styles.module" = none ∧
    (worldDotted.stat "/p/user.service.ts").isSome = true ∧
    ResolveImportPath worldDotted "./user.service" "/p" "/p" 0 = (.ok "/p/user.service", 0) := by
  decide

set_option maxRecDepth 100000 in
theorem C15_extension_completion_witness :
    ∃ ext, ext ∈ supportedExtensions ∧ (worldDotted.stat ("/p/utils" ++ ext)).isSome = true ∧
      ResolveImportPath worldDotted "./utils" "/p" "/p" 0 = (.ok ("/p/utils" ++ ext), 0 + 1) :=
  (C15_extension_completion worldDotted (listedWorld_fair _ _) "./utils" "/p" "/p" "/p/utils"
    0 0 (by decide)).1 (by decide) ⟨".ts", by decide, by decide⟩

/-! ### The upward walk of `FindProjectRoot` -/

theorem findRootLoop_succ (w : World) (startPath : String) (fuel : Nat) (dir : String) :
    findRootLoop w startPath (fuel + 1) dir =
      if hasMarker w dir = true then some dir
      else if Dir dir = dir then some (Dir startPath)
      else findRootLoop w startPath fuel (Dir dir) := rfl

theorem findRootLoop_marker (w : World) (startPath : String) :
    ∀ (k fuel : Nat) (dir : String), k < fuel → hasMarker w (Dir^[k] dir) = true →
      (∀ j, j < k → hasMarker w (Dir^[j] dir) = false) →
      findRootLoop w startPath fuel dir = some (Dir^[k] dir) := by
  intro k
  induction k with
  | zero =>
    intro fuel dir hfuel hmark _
    obtain ⟨f, rfl⟩ : ∃ f, fuel = f + 1 := ⟨fuel - 1, by omega⟩
    rw [findRootLoop_succ]
    simp only [Function.iterate_zero, id_eq] at hmark
    rw [if_pos hmark]
    rfl
  | succ k ih =>
    intro fuel dir hfuel hmark hfirst
    obtain ⟨f, rfl⟩ : ∃ f, fuel = f + 1 := ⟨fuel - 1, by omega⟩
    rw [findRootLoop_succ]
    have h0 : hasMarker w dir = false := hfirst 0 (Nat.succ_pos k)
    have hne : Dir dir ≠ dir := by
      intro heq
      have hfix : ∀ n, Dir^[n] dir = dir := by
        intro n
        induction n with
        | zero => rfl
        | succ n ihn => rw [Function.iterate_succ_apply, heq, ihn]
      rw [hfix] at hmark
      rw [h0] at hmark
      exact Bool.noConfusion hmark
    rw [if_neg (by simp [h0]), if_neg hne]
    rw [Function.iterate_succ_apply]
    apply ih f (Dir dir) (by omega)
    · rw [← Function.iterate_succ_apply]
      exact hmark
    · intro j hj
      rw [← Function.iterate_succ_apply]
      exact hfirst (j + 1) (by omega)

theorem splitSlash_snoc_slash (s : List Char) : splitSlash (s ++ ['/']) = splitSlash s ++ [[]] := by
  induction s with
  | nil => simp [splitSlash]
  | cons c cs ih =>
    show splitSlash (c :: (cs ++ ['/'])) = splitSlash (c :: cs) ++ [[]]
    simp only [splitSlash]
    rw [ih]
    by_cases hc : c = '/'
    · simp [hc]
    · simp only [if_neg hc]
      cases hs : splitSlash cs with
      | nil => exact absurd hs (splitSlash_ne_nil cs)
      | cons seg rest => simp

theorem cleanChars_snoc_slash (s : List Char) (hne : s ≠ []) :
    cleanChars (s ++ ['/']) = cleanChars s := by
  obtain ⟨c, cs, rfl⟩ := List.exists_cons_of_ne_nil hne
  have hstep : ∀ r st, cleanStep r st [] = st := by
    intro r st
    simp [cleanStep]
  have e1 : ((c :: cs) ++ ['/'] = []) = False := by simp
  have e2 : (c :: cs = []) = False := by simp
  unfold cleanChars
  simp only [e1, e2, if_false, List.cons_append, List.head?_cons]
  rw [show c :: (cs ++ ['/']) = (c :: cs) ++ ['/'] from rfl, splitSlash_snoc_slash]
  simp only [List.foldl_append, List.foldl_cons, List.foldl_nil, hstep]
  rw [if_neg (by simp)]

theorem dropWhile_append_all {α : Type} (P : α → Bool) (l r : List α)
    (h : ∀ x, x ∈ l → P x = true) : (l ++ r).dropWhile P = r.dropWhile P := by
  induction l with
  | nil => rfl
  | cons x xs ih =>
    simp only [List.cons_append, List.dropWhile, h x (List.mem_cons_self _ _)]
    exact ih (fun y hy => h y (List.mem_cons_of_mem _ hy))

/-- The part of a path up to and including its last separator. -/
theorem dirPrefix_append (a top : List Char) (h : '/' ∉ top) :
    ((a ++ '/' :: top).reverse.dropWhile (fun c => c ≠ '/')).reverse = a ++ ['/'] := by
  have hrev : (a ++ '/' :: top).reverse = top.reverse ++ '/' :: a.reverse := by simp
  rw [hrev, dropWhile_append_all]
  · simp [List.dropWhile]
  · intro x hx
    have hx' : x ∈ top := List.mem_reverse.1 hx
    have : x ≠ '/' := fun he => h (he ▸ hx')
    simpa using this

theorem dirPrefix_bare (top : List Char) (h : '/' ∉ top) :
    (top.reverse.dropWhile (fun c => c ≠ '/')).reverse = [] := by
  have := dropWhile_append_all (fun c => decide (c ≠ '/')) top.reverse []
    (fun x hx => by
      have hx' : x ∈ top := List.mem_reverse.1 hx
      have : x ≠ '/' := fun he => h (he ▸ hx')
      simpa using this)
  simp only [List.append_nil] at this
  rw [this]
  rfl

theorem joinSlash_snoc (init : List (List Char)) (top : List Char) (h : init ≠ []) :
    joinSlash (init ++ [top]) = joinSlash init ++ '/' :: top := by
  induction init with
  | nil => exact absurd rfl h
  | cons c rest ih =>
    cases rest with
    | nil => simp [joinSlash]
    | cons d rest' =>
      have := ih (by simp)
      simp only [List.cons_append] at this ⊢
      rw [joinSlash_cons_cons, this, joinSlash_cons_cons]
      simp

theorem render_snoc (rooted : Bool) (init : List (List Char)) (top : List Char) (h : init ≠ []) :
    render rooted (init ++ [top]) = render rooted init ++ '/' :: top := by
  unfold render
  cases rooted with
  | true => simp [joinSlash_snoc init top h]
  | false => simp [joinSlash_snoc init top h, h]

/-- On a cleaned path `filepath.Dir` removes the last element. -/
theorem Dir_render {rooted : Bool} {top : List Char} {rest : List (List Char)}
    (h : stackOK rooted (top :: rest)) :
    Dir ⟨render rooted (top :: rest).reverse⟩ = ⟨render rooted rest.reverse⟩ := by
  have htop : Seg top := h.1
  have hrest : stackOK rooted rest := h.2.2
  unfold Dir
  congr 1
  show cleanChars ((render rooted (top :: rest).reverse).reverse.dropWhile
    (fun c => c ≠ '/')).reverse = _
  by_cases hnil : rest = []
  · subst hnil
    cases rooted with
    | true =>
      have hr : render true [top].reverse = [] ++ '/' :: top := by simp [render, joinSlash]
      rw [hr, dirPrefix_append [] top htop.2.1]
      decide
    | false =>
      have hr : render false [top].reverse = top := by simp [render, joinSlash]
      rw [hr, dirPrefix_bare top htop.2.1]
      decide
  · have hne : rest.reverse ≠ [] := by simpa using hnil
    rw [List.reverse_cons, render_snoc rooted _ top hne, dirPrefix_append _ top htop.2.1,
      cleanChars_snoc_slash _ (render_ne_nil hrest), cleanChars_render hrest]

theorem Dir_render_nil (rooted : Bool) :
    Dir ⟨render rooted []⟩ = ⟨render rooted []⟩ := by
  cases rooted <;> decide

theorem joinSlash_length (comps : List (List Char)) (h : ∀ c, c ∈ comps → c ≠ []) :
    comps.length ≤ (joinSlash comps).length := by
  induction comps with
  | nil => simp
  | cons c rest ih =>
    have hc := h c (List.mem_cons_self _ _)
    have hlen : 1 ≤ c.length := List.length_pos.2 hc
    cases rest with
    | nil => simpa [joinSlash] using hlen
    | cons d rest' =>
      have := ih (fun x hx => h x (List.mem_cons_of_mem _ hx))
      rw [joinSlash_cons_cons]
      simp only [List.length_append, List.length_cons] at this ⊢
      omega

theorem render_length {rooted : Bool} {stack : List (List Char)} (h : stackOK rooted stack) :
    stack.length ≤ (render rooted stack.reverse).length := by
  have hj := joinSlash_length stack.reverse
    (fun c hc => (stackOK_seg h c (List.mem_reverse.1 hc)).1)
  simp only [List.length_reverse] at hj
  unfold render
  split
  · simp only [List.length_cons]
    omega
  · split
    · next hnil =>
      have : stack = [] := by simpa using hnil
      simp [this]
    · exact hj

/-- From a cleaned directory the walk always ends within as many levels as
the directory has elements, and with the directory of `startPath` when no
level holds a marker. -/
theorem findRootLoop_render (w : World) (startPath : String) (rooted : Bool) :
    ∀ (stack : List (List Char)) (fuel : Nat), stackOK rooted stack → stack.length + 1 ≤ fuel →
      ∃ root, findRootLoop w startPath fuel ⟨render rooted stack.reverse⟩ = some root ∧
        ((∀ k, hasMarker w (Dir^[k] ⟨render rooted stack.reverse⟩) = false) →
          root = Dir startPath) := by
  intro stack
  induction stack with
  | nil =>
    intro fuel _ hfuel
    obtain ⟨f, rfl⟩ : ∃ f, fuel = f + 1 := ⟨fuel - 1, by omega⟩
    rw [findRootLoop_succ]
    by_cases hm : hasMarker w ⟨render rooted [].reverse⟩ = true
    · rw [if_pos hm]
      refine ⟨_, rfl, fun hno => ?_⟩
      have := hno 0
      simp only [Function.iterate_zero, id_eq] at this
      rw [this] at hm
      exact Bool.noConfusion hm
    · have hfix : Dir ⟨render rooted ([] : List (List Char)).reverse⟩
          = ⟨render rooted ([] : List (List Char)).reverse⟩ := Dir_render_nil rooted
      rw [if_neg hm, if_pos hfix]
      exact ⟨_, rfl, fun _ => rfl⟩
  | cons top rest ih =>
    intro fuel hok hfuel
    obtain ⟨f, rfl⟩ : ∃ f, fuel = f + 1 := ⟨fuel - 1, by omega⟩
    rw [findRootLoop_succ]
    by_cases hm : hasMarker w ⟨render rooted (top :: rest).reverse⟩ = true
    · rw [if_pos hm]
      refine ⟨_, rfl, fun hno => ?_⟩
      have := hno 0
      simp only [Function.iterate_zero, id_eq] at this
      rw [this] at hm
      exact Bool.noConfusion hm
    · rw [if_neg hm]
      by_cases hfix : Dir ⟨render rooted (top :: rest).reverse⟩ = ⟨render rooted (top :: rest).reverse⟩
      · rw [if_pos hfix]
        exact ⟨_, rfl, fun _ => rfl⟩
      · rw [if_neg hfix, Dir_render hok]
        simp only [List.length_cons] at hfuel
        obtain ⟨root, hroot, hres⟩ := ih f hok.2.2 (by omega)
        refine ⟨root, hroot, fun hno => hres (fun k => ?_)⟩
        have := hno (k + 1)
        rw [Function.iterate_succ_apply, Dir_render hok] at this
        exact this

theorem Dir_form (p : String) :
    ∃ rooted stack, Dir p = ⟨render rooted stack.reverse⟩ ∧ stackOK rooted stack := by
  obtain ⟨rooted, stack, hform, hok⟩ :=
    cleanChars_form (p.data.reverse.dropWhile (fun c => c ≠ '/')).reverse
  exact ⟨rooted, stack, by unfold Dir; rw [hform], hok⟩

theorem FindProjectRoot_returns (w : World) (startPath : String) (fuel : Nat)
    (hfuel : (Dir startPath).length + 2 ≤ fuel) :
    ∃ root, FindProjectRoot w fuel startPath = some root ∧
      ((∀ k, hasMarker w (Dir^[k] startPath) = false) → root = Dir startPath) := by
  obtain ⟨f, rfl⟩ : ∃ f, fuel = f + 1 := ⟨fuel - 1, by omega⟩
  unfold FindProjectRoot
  rw [findRootLoop_succ]
  by_cases hm : hasMarker w startPath = true
  · rw [if_pos hm]
    refine ⟨_, rfl, fun hno => ?_⟩
    have := hno 0
    simp only [Function.iterate_zero, id_eq] at this
    rw [this] at hm
    exact Bool.noConfusion hm
  · rw [if_neg hm]
    by_cases hfix : Dir startPath = startPath
    · rw [if_pos hfix]
      exact ⟨_, rfl, fun _ => rfl⟩
    · rw [if_neg hfix]
      obtain ⟨rooted, stack, hform, hok⟩ := Dir_form startPath
      have hlen := render_length hok
      have hl : (Dir startPath).length = (render rooted stack.reverse).length := by
        rw [hform]
        rfl
      obtain ⟨root, hroot, hres⟩ := findRootLoop_render w startPath rooted stack f hok (by omega)
      have hloop : findRootLoop w startPath f (Dir startPath) = some root := by
        rw [hform]
        exact hroot
      refine ⟨root, hloop, fun hno => hres (fun k => ?_)⟩
      have := hno (k + 1)
      rw [Function.iterate_succ_apply, hform] at this
      exact this

/-! ### Claims C19 and C20 -/

/-- C19 (project root by marker): when the `k`-th ancestor of `startPath`
(`startPath` itself for `k = 0`, each further one by `filepath.Dir`) contains
one of the marker names and no nearer one does, `FindProjectRoot(startPath)`
returns that directory, as soon as the walk is given more than `k` levels.
Started from the `src/components` subdirectory of a directory holding
`package.json`, it returns that directory. -/
theorem C19_project_root_by_marker (w : World) (startPath : String) (k fuel : Nat)
    (hmark : hasMarker w (Dir^[k] startPath) = true)
    (hfirst : ∀ j, j < k → hasMarker w (Dir^[j] startPath) = false)
    (hfuel : k < fuel) :
    FindProjectRoot w fuel startPath = some (Dir^[k] startPath) ∧
      indicators = ["go.mod", "package.json", ".git", "requirements.txt", "setup.py",
        "docker-compose.yml", "Makefile"] ∧
      (∀ dir, hasMarker w dir = true ↔
        ∃ indicator, indicator ∈ indicators ∧ (w.stat (Join [dir, indicator])).isSome = true) :=
  ⟨findRootLoop_marker w startPath k fuel startPath hfuel hmark hfirst, rfl,
    fun dir => by simp [hasMarker, List.any_eq_true]⟩

set_option maxRecDepth 100000 in
theorem C19_project_root_by_marker_witness :
    FindProjectRoot worldRootTest 3 "/tmp/proj/src/components" = some "/tmp/proj" :=
  (C19_project_root_by_marker worldRootTest "/tmp/proj/src/components" 2 3 (by decide)
    (by decide) (by decide)).1

/-- C20 (missing-root fallback): for every `startPath` and filesystem,
`FindProjectRoot` returns a directory once the walk is given two levels more
than `filepath.Dir(startPath)` has characters; and when neither `startPath`
nor any of its ancestors contains a marker, the directory returned is
`filepath.Dir(startPath)`.  (Both `return` statements of the function carry
a nil error.) -/
theorem C20_missing_root_fallback (w : World) (startPath : String) (fuel : Nat)
    (hfuel : (Dir startPath).length + 2 ≤ fuel) :
    (∃ root, FindProjectRoot w fuel startPath = some root) ∧
      ((∀ k, hasMarker w (Dir^[k] startPath) = false) →
        FindProjectRoot w fuel startPath = some (Dir startPath)) := by
  obtain ⟨root, hroot, hres⟩ := FindProjectRoot_returns w startPath fuel hfuel
  exact ⟨⟨root, hroot⟩, fun hno => by rw [hroot, hres hno]⟩

set_option maxRecDepth 100000 in
theorem C20_missing_root_fallback_witness :
    FindProjectRoot worldDotted 4 "/p/utils.ts" = some "/p" := by
  have hno : ∀ k, hasMarker worldDotted (Dir^[k] "/p/utils.ts") = false := by
    have hfix : ∀ n, Dir^[n + 2] "/p/utils.ts" = "/" := by
      intro n
      induction n with
      | zero => decide
      | succ n ih =>
        rw [Function.iterate_succ_apply', ih]
        decide
    intro k
    match k with
    | 0 => decide
    | 1 => decide
    | n + 2 =>
      rw [hfix n]
      decide
  exact (C20_missing_root_fallback worldDotted "/p/utils.ts" 4 (by decide)).2 hno

/-! ### Aliased extensions -/

/-- Two files with the same content in the same directory, whose extensions
share their pattern list and their built-in modules, yield the same list of
imported paths. -/
theorem ExtractImports_alias (w : World) (p q root content : String) (t : Nat)
    (patterns : List Regexp)
    (hpat : mapGet importPatterns (Ext p) = some patterns)
    (hpat' : mapGet importPatterns (Ext q) = some patterns)
    (hbuiltin : ∀ s, isBuiltinModule s (Ext p) = isBuiltinModule s (Ext q))
    (hdir : Dir p = Dir q)
    (hp : w.readFile p = some content) (hq : w.readFile q = some content) :
    ExtractImports w p root t = ExtractImports w q root t := by
  have hmatch : extractMatch w (Ext p) (Dir p) root = extractMatch w (Ext q) (Dir q) root := by
    funext acc m
    simp only [extractMatch, hbuiltin, hdir]
  simp only [ExtractImports, hpat, hpat', hp, hq, hmatch]

/-- The style-sheet aliases agree with `.css` on every file. -/
theorem ExtractImports_alias_css (w : World) (p q root content : String) (t : Nat)
    (hext : Ext p = ".less" ∨ Ext p = ".sass") (hq : Ext q = ".css") (hdir : Dir p = Dir q)
    (hpc : w.readFile p = some content) (hqc : w.readFile q = some content) :
    ExtractImports w p root t = ExtractImports w q root t := by
  obtain ⟨patterns, hpat⟩ : ∃ patterns, mapGet importPatterns ".css" = some patterns :=
    ⟨_, rfl⟩
  apply ExtractImports_alias w p q root content t patterns _ _ _ hdir hpc hqc
  · rcases hext with h | h <;> rw [h, ← hpat] <;> decide
  · rw [hq, hpat]
  · intro s
    rcases hext with h | h <;> rw [h, hq] <;> simp [isBuiltinModule]

/-! ### Claim C11 -/

set_option maxRecDepth 100000 in
/-- C11, where the code departs from it: `.mjs`, `.cjs` and `.js` share one
pattern list, but `isBuiltinModule` knows the JavaScript built-in modules
only under `.js`, `.jsx`, `.ts` and `.tsx`.  Of files with the same content
in the same directory, `a.mjs` and `a.cjs` yield the import `react` that
`a.js` leaves out; the style-sheet aliases `.less` and `.sass` yield the same
list as `.css`. -/
theorem C11_alias_divergence :
    worldAliased.readFile "/p/a.mjs" = worldAliased.readFile "/p/a.js" ∧
    worldAliased.readFile "/p/a.cjs" = worldAliased.readFile "/p/a.js" ∧
    mapGet importPatterns ".mjs" = mapGet importPatterns ".js" ∧
    mapGet importPatterns ".cjs" = mapGet importPatterns ".js" ∧
    isBuiltinModule "react" ".js" = true ∧ isBuiltinModule "react" ".mjs" = false ∧
    isBuiltinModule "react" ".cjs" = false ∧
    (ExtractImports worldAliased "/p/a.js" "/p" 0).1 = .ok ["/p/helper.js"] ∧
    (ExtractImports worldAliased "/p/a.mjs" "/p" 0).1 = .ok ["react", "/p/helper.js"] ∧
    (ExtractImports worldAliased "/p/a.cjs" "/p" 0).1 = .ok ["react", "/p/helper.js"] ∧
    ExtractImports worldAliased "/p/s.less" "/p" 0 = ExtractImports worldAliased "/p/s.css" "/p" 0 ∧
    ExtractImports worldAliased "/p/s.sass" "/p" 0 = ExtractImports worldAliased "/p/s.css" "/p" 0 := by
  decide

/-! ### The extension of a joined path -/

theorem splitSlash_snoc_seg (a x : List Char) (h : '/' ∉ x) :
    splitSlash (a ++ '/' :: x) = splitSlash a ++ [x] := by
  induction a with
  | nil => simp [splitSlash, splitSlash_of_no_slash x h]
  | cons c cs ih =>
    show splitSlash (c :: (cs ++ '/' :: x)) = splitSlash (c :: cs) ++ [x]
    simp only [splitSlash]
    rw [ih]
    by_cases hc : c = '/'
    · simp [hc]
    · simp only [if_neg hc]
      cases hs : splitSlash cs with
      | nil => exact absurd hs (splitSlash_ne_nil cs)
      | cons seg rest => simp

/-- A path whose last element is a proper name keeps that element last when
cleaned. -/
theorem cleanChars_last (a x : List Char) (hx : '/' ∉ x) (hne : x ≠ []) (hd : x ≠ ['.'])
    (hdd : x ≠ ['.', '.']) :
    ∃ pre, cleanChars (a ++ '/' :: x) = pre ++ x ∧ (pre = [] ∨ pre.getLast? = some '/') := by
  have hstep : ∀ r st, cleanStep r st x = x :: st := by
    intro r st
    simp [cleanStep, hne, hd, hdd]
  have hjoin : ∀ init : List (List Char), ∃ pre, joinSlash (init ++ [x]) = pre ++ x ∧
      (pre = [] ∨ pre.getLast? = some '/') := by
    intro init
    by_cases hi : init = []
    · subst hi
      exact ⟨[], by simp [joinSlash], Or.inl rfl⟩
    · refine ⟨joinSlash init ++ ['/'], ?_, Or.inr (by simp)⟩
      rw [joinSlash_snoc init x hi]
      simp
  unfold cleanChars
  rw [if_neg (by simp)]
  simp only [splitSlash_snoc_seg a x hx, List.foldl_append, List.foldl_cons, List.foldl_nil,
    hstep, List.reverse_cons]
  obtain ⟨pre, hpre, hlast⟩ := hjoin
    (List.foldl (cleanStep (decide ((a ++ '/' :: x).head? = some '/'))) [] (splitSlash a)).reverse
  split
  · refine ⟨'/' :: pre, by rw [hpre]; rfl, Or.inr ?_⟩
    rcases hlast with h | h
    · subst h
      rfl
    · cases pre with
      | nil => simp at h
      | cons p ps => simpa [List.getLast?_cons_cons] using h
  · rw [if_neg (by simp)]
    exact ⟨pre, hpre, hlast⟩

theorem extScan_stop (l rest acc : List Char) (h : rest = [] ∨ rest.head? = some '/') :
    extScan (l ++ rest) acc = extScan l acc := by
  induction l generalizing acc with
  | nil =>
    rcases h with h | h
    · subst h
      rfl
    · cases rest with
      | nil => rfl
      | cons c cs =>
        have hc : c = '/' := by simpa using h
        subst hc
        simp [extScan]
  | cons c cs ih =>
    show extScan (c :: (cs ++ rest)) acc = extScan (c :: cs) acc
    simp only [extScan]
    rw [ih]

theorem Ext_of_last (pre x : List Char) (h : pre = [] ∨ pre.getLast? = some '/') :
    Ext ⟨pre ++ x⟩ = Ext ⟨x⟩ := by
  unfold Ext
  congr 1
  show extScan (pre ++ x).reverse [] = extScan x.reverse []
  rw [List.reverse_append]
  apply extScan_stop
  rcases h with h | h
  · subst h
    exact Or.inl rfl
  · right
    rw [List.head?_reverse]
    exact h

/-- For a directory `dir` and a raw import whose last element `x` is a
proper name, `filepath.Ext` of `Join(dir, raw)` is `filepath.Ext` of `raw`. -/
theorem Ext_Join_last (dir raw : String) (b x : List Char) (hdir : dir ≠ "")
    (hraw : raw.data = b ++ '/' :: x) (hx : '/' ∉ x) (hne : x ≠ []) (hd : x ≠ ['.'])
    (hdd : x ≠ ['.', '.']) :
    Ext (Join [dir, raw]) = Ext raw := by
  have hj : Join [dir, raw] = ⟨cleanChars ((dir.data ++ '/' :: b) ++ '/' :: x)⟩ := by
    simp only [Join, if_neg hdir, List.map, joinSlash, hraw, List.append_assoc,
      List.cons_append]
  obtain ⟨pre, hpre, hlast⟩ := cleanChars_last (dir.data ++ '/' :: b) x hx hne hd hdd
  rw [hj, hpre, Ext_of_last pre x hlast]
  have hr : raw = ⟨(b ++ ['/']) ++ x⟩ := by
    apply String.ext
    simp [hraw]
  rw [hr, Ext_of_last (b ++ ['/']) x (Or.inr (by simp))]

/-! ### Claim C14 -/

/-- C14 (relative resolution): for an absolute directory `dir` and a
raw import starting with `.`, the stage-1 path is `Join(dir, raw)`.  When it has
no extension, `ResolveImportPath` returns `Join(dir, raw) + ext` for the
first `ext` in the order of the iteration such that this file exists, and so
the unique such file when exactly one supported extension gives an existing
file; when it has an extension, `ResolveImportPath` returns `Join(dir, raw)`
itself.  The extension of `Join(dir, raw)` is the extension of `raw` whenever
`raw` ends in a separator followed by a proper name, as `./x` and `../y/x`
do. -/
theorem C14_relative_resolution (w : World) (hfair : w.Fair) (raw dir root : String) (t : Nat)
    (hrel : HasPrefix raw "." = true) (hdir : IsAbs dir = true) :
    (Ext (Join [dir, raw]) = "" →
      (∀ pre ext post, w.rangeOrder t = pre ++ ext :: post →
        (w.stat (Join [dir, raw] ++ ext)).isSome = true →
        (∀ e, e ∈ pre → w.stat (Join [dir, raw] ++ e) = none) →
        ext ∈ supportedExtensions ∧
          ResolveImportPath w raw dir root t = (.ok (Join [dir, raw] ++ ext), t + 1)) ∧
      (∀ ext, ext ∈ supportedExtensions → (w.stat (Join [dir, raw] ++ ext)).isSome = true →
        (∀ e, e ∈ supportedExtensions → e ≠ ext → w.stat (Join [dir, raw] ++ e) = none) →
        ResolveImportPath w raw dir root t = (.ok (Join [dir, raw] ++ ext), t + 1))) ∧
    (Ext (Join [dir, raw]) ≠ "" →
      ResolveImportPath w raw dir root t = (.ok (Join [dir, raw]), t)) ∧
    (∀ b x, raw.data = b ++ '/' :: x → '/' ∉ x → x ≠ [] → x ≠ ['.'] → x ≠ ['.', '.'] →
      Ext (Join [dir, raw]) = Ext raw) := by
  have hstage := resolveImportByType_rel w root t hrel hdir
  have hne : dir ≠ "" := by
    intro h
    rw [h] at hdir
    exact Bool.noConfusion hdir
  refine ⟨fun hext => ⟨?_, ?_⟩, fun hext => ResolveImportPath_ext hstage hext,
    fun b x hraw hx hx0 hx1 hx2 => Ext_Join_last dir raw b x hne hraw hx hx0 hx1 hx2⟩
  · intro pre ext post horder hex hpre
    refine ⟨(hfair.mem_iff t ext).1 (by rw [horder]; simp), ?_⟩
    apply ResolveImportPath_probe hstage hext
    rw [horder]
    exact probeExt_first pre post hex hpre
  · intro ext hmem hex hothers
    apply ResolveImportPath_probe hstage hext
    exact probeExt_unique ((hfair.mem_iff t ext).2 hmem) hex
      (fun e he hne => hothers e ((hfair.mem_iff t e).1 he) hne)

set_option maxRecDepth 100000 in
theorem C14_relative_resolution_witness :
    ResolveImportPath worldDotted "./utils" "/p" "/p" 0
      = (.ok (Join ["/p", "./utils"] ++ ".ts"), 0 + 1) :=
  ((C14_relative_resolution worldDotted (listedWorld_fair _ _) "./utils" "/p" "/p" 0
    (by decide) (by decide)).1 (by decide)).2 ".ts" (by decide) (by decide) (by decide)

/-! ### The pattern table -/

theorem mapGet_eq_none_iff {β : Type} (m : List (String × β)) (key : String) :
    mapGet m key = none ↔ key ∉ keys m := by
  induction m with
  | nil => simp [mapGet, keys]
  | cons e rest ih =>
    obtain ⟨k, v⟩ := e
    simp only [mapGet, keys, List.map_cons, List.mem_cons, not_or]
    by_cases hk : k = key
    · simp [hk]
    · simp only [if_neg hk]
      rw [ih]
      simp only [keys]
      constructor
      · intro h
        exact ⟨fun h' => hk h'.symm, h⟩
      · intro h
        exact h.2

theorem ExtractImports_unsupported (w : World) (p root : String) (t : Nat)
    (h : Ext p ∉ keys importPatterns) :
    ExtractImports w p root t = (.error (.unsupportedExtension (Ext p)), t) := by
  have hm := (mapGet_eq_none_iff importPatterns (Ext p)).2 h
  simp only [ExtractImports, hm]

theorem ExtractImports_supported (w : World) (p root : String) (t : Nat)
    (h : Ext p ∈ keys importPatterns) :
    (∃ imports t', ExtractImports w p root t = (.ok imports, t')) ∨
      ExtractImports w p root t = (.error (.readFailed p), t) := by
  cases hm : mapGet importPatterns (Ext p) with
  | none => exact absurd h ((mapGet_eq_none_iff _ _).1 hm)
  | some patterns =>
    cases hr : w.readFile p with
    | none =>
      right
      simp only [ExtractImports, hm, hr]
    | some content =>
      left
      simp only [ExtractImports, hm, hr]
      exact ⟨_, _, rfl⟩

theorem ExtractImports_noImports (w : World) (p root content : String) (t : Nat)
    (hext : Ext p ∈ noImports) (hread : w.readFile p = some content) :
    ExtractImports w p root t = (.ok [], t) := by
  have hm : ∀ ext, ext ∈ noImports → mapGet importPatterns ext = some [] := by decide
  simp only [ExtractImports, hm _ hext, hread, List.foldl_nil]

theorem probeJsIndex_first {w : World} {dir ext : String} (pre post : List String)
    (hsupp : ext ∈ supportedExtensions)
    (hex : (w.stat (Join [dir, "index" ++ ext])).isSome = true)
    (hpre : ∀ e, e ∈ pre → w.stat (Join [dir, "index" ++ e]) = none) :
    probeJsIndex w dir (pre ++ ext :: post) = some (Join [dir, "index" ++ ext]) := by
  induction pre with
  | nil => simp [probeJsIndex, hsupp, hex]
  | cons e rest ih =>
    simp only [List.cons_append, probeJsIndex]
    rw [hpre e (List.mem_cons_self _ _)]
    simpa using ih (fun x hx => hpre x (List.mem_cons_of_mem _ hx))

theorem resolveImportByType_bare (w : World) (s currentDir root : String) (t : Nat)
    (h1 : HasPrefix s "." = false) (h2 : HasPrefix s "/" = false)
    (h3 : HasPrefix s "~" = false) (h4 : HasPrefix s "@" = false) :
    resolveImportByType w s currentDir root t =
      (.ok (([Join [root, "node_modules", s], Join [root, "vendor", s],
          Join [root, "lib", s]].find? (fun path => (w.stat path).isSome)).getD s), t) := by
  unfold resolveImportByType
  simp only [h1, h2, h3, h4, Bool.false_eq_true, if_false]
  generalize List.find? (fun path => (w.stat path).isSome)
    [Join [root, "node_modules", s], Join [root, "vendor", s], Join [root, "lib", s]] = r
  cases r <;> rfl

/-- A supported extension other than `.rs` and `.swift` has a pattern list,
so a readable file carrying it has its imports extracted. -/
theorem ExtractImports_ok_of_covered (w : World) (p root content : String) (t : Nat)
    (hsupp : Ext p ∈ supportedExtensions) (hrs : Ext p ≠ ".rs") (hswift : Ext p ≠ ".swift")
    (hread : w.readFile p = some content) :
    ∃ imports t', ExtractImports w p root t = (.ok imports, t') := by
  have hcov : ∀ ext, ext ∈ supportedExtensions → ext ≠ ".rs" → ext ≠ ".swift" →
      ext ∈ keys importPatterns := by decide
  rcases ExtractImports_supported w p root t (hcov _ hsupp hrs hswift) with h | h
  · exact h
  · simp only [ExtractImports] at h
    cases hm : mapGet importPatterns (Ext p) with
    | none => exact absurd (hcov _ hsupp hrs hswift) ((mapGet_eq_none_iff _ _).1 hm)
    | some patterns =>
      rw [hm] at h
      simp only [hread] at h
      exact absurd h (by simp)

/-! ### Claims C21, C22, C23, C24 -/

/-- C21 (pattern-table lookup): `ExtractImports` returns the error
`unsupported file extension` exactly when the extension of the file is not a
key of `importPatterns`, and then whatever the filesystem holds at the path,
so without reading the file; the keys with an empty pattern list are `.json`,
`.svg`, `.png`, `.jpg`, `.jpeg` and `.gif`, and for every readable file with
such an extension the result is the empty list and a nil error. -/
theorem C21_pattern_table_lookup (w : World) (p root : String) (t : Nat) :
    ((∃ ext t', ExtractImports w p root t = (.error (.unsupportedExtension ext), t')) ↔
      Ext p ∉ keys importPatterns) ∧
    (Ext p ∉ keys importPatterns →
      ∀ w' : World, ExtractImports w' p root t = (.error (.unsupportedExtension (Ext p)), t)) ∧
    (∀ ext, ext ∈ keys importPatterns →
      (mapGet importPatterns ext = some [] ↔
        ext ∈ [".json", ".svg", ".png", ".jpg", ".jpeg", ".gif"])) ∧
    (∀ content, Ext p ∈ [".json", ".svg", ".png", ".jpg", ".jpeg", ".gif"] →
      w.readFile p = some content → ExtractImports w p root t = (.ok [], t)) ∧
    ExtractImports worldTable "/p/notes.xyz" "/p" 0 = (.error (.unsupportedExtension ".xyz"), 0) ∧
    ExtractImports worldTable "/p/locked.xyz" "/p" 0 = (.error (.unsupportedExtension ".xyz"), 0) ∧
    ExtractImports worldTable "/p/data.json" "/p" 0 = (.ok [], 0) := by
  refine ⟨⟨?_, ?_⟩, ?_, by decide, ?_, by decide, by decide, by decide⟩
  · rintro ⟨ext, t', h⟩ hk
    rcases ExtractImports_supported w p root t hk with ⟨imports, t'', h'⟩ | h'
    · rw [h'] at h
      simp at h
    · rw [h'] at h
      simp at h
  · intro hk
    exact ⟨_, _, ExtractImports_unsupported w p root t hk⟩
  · intro hk w'
    exact ExtractImports_unsupported w' p root t hk
  · intro content hext hread
    exact ExtractImports_noImports w p root content t hext hread

/-- C22 (bare-specifier probing): for an import string `s` that starts with
none of `.`, `/`, `~`, `@`, `resolveImportByType` returns the first existing
path among `Join(root, "node_modules", s)`, `Join(root, "vendor", s)` and
`Join(root, "lib", s)`, in that order, and `s` itself when none of the three
exists; the result is the same for every `currentDir`. -/
theorem C22_bare_specifier_probing (w : World) (s currentDir root : String) (t : Nat)
    (h1 : HasPrefix s "." = false) (h2 : HasPrefix s "/" = false)
    (h3 : HasPrefix s "~" = false) (h4 : HasPrefix s "@" = false) :
    ((w.stat (Join [root, "node_modules", s])).isSome = true →
      resolveImportByType w s currentDir root t = (.ok (Join [root, "node_modules", s]), t)) ∧
    (w.stat (Join [root, "node_modules", s]) = none →
      (w.stat (Join [root, "vendor", s])).isSome = true →
      resolveImportByType w s currentDir root t = (.ok (Join [root, "vendor", s]), t)) ∧
    (w.stat (Join [root, "node_modules", s]) = none →
      w.stat (Join [root, "vendor", s]) = none →
      (w.stat (Join [root, "lib", s])).isSome = true →
      resolveImportByType w s currentDir root t = (.ok (Join [root, "lib", s]), t)) ∧
    (w.stat (Join [root, "node_modules", s]) = none →
      w.stat (Join [root, "vendor", s]) = none →
      w.stat (Join [root, "lib", s]) = none →
      resolveImportByType w s currentDir root t = (.ok s, t)) ∧
    (∀ otherDir, resolveImportByType w s otherDir root t
      = resolveImportByType w s currentDir root t) := by
  have hb := resolveImportByType_bare w s currentDir root t h1 h2 h3 h4
  refine ⟨?_, ?_, ?_, ?_, ?_⟩
  · intro ha
    rw [hb]
    simp [List.find?, ha]
  · intro ha hv
    rw [hb]
    simp [List.find?, ha, hv]
  · intro ha hv hl
    rw [hb]
    simp [List.find?, ha, hv, hl]
  · intro ha hv hl
    rw [hb]
    simp [List.find?, ha, hv, hl]
  · intro otherDir
    rw [hb, resolveImportByType_bare w s otherDir root t h1 h2 h3 h4]

set_option maxRecDepth 100000 in
theorem C22_bare_specifier_probing_witness :
    resolveImportByType worldVendor "pkg" "/R/src/components" "/R" 0
      = (.ok (Join ["/R", "vendor", "pkg"]), 0) :=
  (C22_bare_specifier_probing worldVendor "pkg" "/R/src/components" "/R" 0 (by decide)
    (by decide) (by decide) (by decide)).2.1 (by decide) (by decide)

/-- C23 (directory index probing): when the stage-1 path `D` has no
extension, no `D + ext` exists for a supported extension, and one of
`D/index.js`, `D/index.jsx`, `D/index.ts`, `D/index.tsx` exists,
`ResolveImportPath` returns the first existing one of the four in that
order. -/
theorem C23_directory_index_probing (w : World) (hfair : w.Fair)
    (raw dir root D : String) (t t1 : Nat)
    (hstage : resolveImportByType w raw dir root t = (.ok D, t1)) (hext : Ext D = "")
    (hnone : ∀ ext, ext ∈ supportedExtensions → w.stat (D ++ ext) = none)
    (pre post : List String) (ext : String)
    (horder : [".js", ".jsx", ".ts", ".tsx"] = pre ++ ext :: post)
    (hex : (w.stat (Join [D, "index" ++ ext])).isSome = true)
    (hpre : ∀ e, e ∈ pre → w.stat (Join [D, "index" ++ e]) = none) :
    ResolveImportPath w raw dir root t = (.ok (Join [D, "index" ++ ext]), t1 + 1) := by
  have hmem : ext ∈ [".js", ".jsx", ".ts", ".tsx"] := by
    rw [horder]
    simp
  have hsupp : ext ∈ supportedExtensions := by
    have hall : ∀ e, e ∈ [".js", ".jsx", ".ts", ".tsx"] → e ∈ supportedExtensions := by decide
    exact hall ext hmem
  apply ResolveImportPath_index hstage hext
  · exact probeExt_of_all_none (fun e he => hnone e ((hfair.mem_iff t1 e).1 he))
  · rw [horder]
    exact probeJsIndex_first pre post hsupp hex hpre

set_option maxRecDepth 100000 in
theorem C23_directory_index_probing_witness :
    ResolveImportPath worldIndex "./comp" "/p" "/p" 0
      = (.ok (Join ["/p/comp", "index" ++ ".ts"]), 0 + 1) :=
  C23_directory_index_probing worldIndex (listedWorld_fair _ _) "./comp" "/p" "/p" "/p/comp" 0 0
    (by decide) (by decide) (by decide) [".js", ".jsx"] [".tsx"] ".ts" rfl (by decide) (by decide)

set_option maxRecDepth 100000 in
/-- C24, where the code departs from it: `.rs` and `.swift` are in
`supportedExtensions` but are no keys of `importPatterns`; every other
supported extension is a key.  The readable file `/p/main.rs` is added to
`results` by `ProcessFile`, and the `ExtractImports` call on it returns the
error `unsupported file extension`; likewise for `/p/App.swift`. -/
theorem C24_uncovered_extensions :
    ".rs" ∈ supportedExtensions ∧ ".rs" ∉ keys importPatterns ∧
    ".swift" ∈ supportedExtensions ∧ ".swift" ∉ keys importPatterns ∧
    (∀ ext, ext ∈ supportedExtensions → ext ≠ ".rs" → ext ≠ ".swift" →
      ext ∈ keys importPatterns) ∧
    ProcessFile worldTable 2 "/p/main.rs" "/p" ⟨[], [], 0⟩
      = some (none, ⟨["/p/main.rs"], [("/p/main.rs", "use crate::util;\n")], 0⟩) ∧
    ExtractImports worldTable "/p/main.rs" "/p" 0 = (.error (.unsupportedExtension ".rs"), 0) ∧
    ProcessFile worldTable 2 "/p/App.swift" "/p" ⟨[], [], 0⟩
      = some (none, ⟨["/p/App.swift"], [("/p/App.swift", "import Foundation\n")], 0⟩) ∧
    ExtractImports worldTable "/p/App.swift" "/p" 0
      = (.error (.unsupportedExtension ".swift"), 0) := by
  decide

end Fixfiles
